import Mathlib

set_option maxRecDepth 8000

/- Verification of the RePort Rhino exporter (Rhino_Exporter/RePort_cmd.py).
   Python floats are modelled as exact rationals except where the source
   takes square roots (rs.VectorUnitize), which is modelled over the reals.
   Python str values are String, values that may be Python None are
   Option-valued, and code paths that raise are modelled with Except or
   Option results. -/

namespace RePort

/-- Decimal digits of a natural number, little-endian, one `Char` per digit,
as produced by Python `str`.  The first argument is fuel; `n` itself is
always enough fuel because `n / 10 < n` for `n > 0`. -/
def natStrAux : Nat → Nat → List Char
  | 0, _ => []
  | _ + 1, 0 => []
  | fuel + 1, n + 1 => Nat.digitChar ((n + 1) % 10) :: natStrAux fuel ((n + 1) / 10)

/-- Model of Python `str(n)` for a non-negative integer `n`. -/
def natStr (n : Nat) : String :=
  if n = 0 then "0" else String.mk (natStrAux n n).reverse

/-- Numeric value of a decimal digit character. -/
def digitVal (c : Char) : Nat := c.toNat - 48

/-- Value of a little-endian list of decimal digit characters. -/
def digitsVal : List Char → Nat
  | [] => 0
  | c :: cs => digitVal c + 10 * digitsVal cs

/-- Python `name.replace(c, "")` for a one-character pattern: removes every
occurrence of the character `c` from the string. -/
def removeChar (c : Char) (s : String) : String :=
  String.mk (s.data.filter (fun a => a ≠ c))

/-- `SafeFileName` (RePort_cmd.py lines 67-77): strips the characters that
are illegal in Windows file names. -/
def SafeFileName (name : String) : String :=
  let name := removeChar '<' name
  let name := removeChar '>' name
  let name := removeChar ':' name
  let name := removeChar '"' name
  let name := removeChar '/' name
  let name := removeChar '\\' name
  let name := removeChar '|' name
  let name := removeChar '?' name
  let name := removeChar '*' name
  name

/-- The forbidden character set of `SafeFileName`. -/
def forbiddenChars : List Char := ['<', '>', ':', '"', '/', '\\', '|', '?', '*']

/-- `ModelScale` (RePort_cmd.py lines 291-325), the resolver from the
document unit-system code to the multiplier converting model units to
meters.  The source line for unit code 12 reads
`scale = meters * 1.0e-10` where `meters` is an undefined name, so Python
raises `NameError` on that path; it is modelled as an `Except.error`.
The line for unit code 11 is a bare expression statement (`1.0`) that does
not assign `scale`, so `scale` keeps its initial value `1.0` there.
Float literals are modelled as exact rationals. -/
def ModelScale (units : Int) : Except String ℚ :=
  let meter : ℚ := 1
  let inch : ℚ := meter * (3048 / 10000) / 12
  if units = 12 then Except.error ("NameError")
  else Except.ok (
    if units = 0 then 1
    else if units = 1 then meter * (1 / 1000000)
    else if units = 2 then meter * (1 / 1000)
    else if units = 3 then meter * (1 / 100)
    else if units = 4 then meter
    else if units = 5 then meter * 1000
    else if units = 6 then inch * (1 / 1000000)
    else if units = 7 then inch * (1 / 1000)
    else if units = 8 then inch
    else if units = 9 then inch * 12
    else if units = 10 then inch * 12 * 5280
    else if units = 11 then 1
    else if units = 13 then meter * (1 / 1000000000)
    else if units = 14 then meter * (1 / 10)
    else if units = 15 then meter * 10
    else if units = 16 then meter * 100
    else if units = 17 then meter * 1000000
    else if units = 18 then meter * 1000000000
    else if units = 19 then inch * 12 * 3
    else if units = 20 then inch / 72
    else if units = 21 then inch / 6
    else if units = 22 then meter * 1852
    else if units = 23 then meter * 149597870700
    else if units = 24 then meter * 9460730472580800
    else if units = 25 then
      meter * 149597870700 * 648000 / (314159265358979323 / 100000000000000000)
    else 1)

/-! Placeholder geometry over exact rationals (`LocationMesh`,
`BlockLocation`).  These functions only add, divide and repackage
coordinates, so they are modelled exactly over `ℚ`. -/

/-- A 3-vector with exact rational coordinates. -/
abbrev Vec3 := ℚ × ℚ × ℚ

/-- `rs.VectorAdd`. -/
def vadd (a b : Vec3) : Vec3 := (a.1 + b.1, a.2.1 + b.2.1, a.2.2 + b.2.2)

/-- Componentwise division of a vector by a scalar (the
`p[i] /= scale` loops in `BlockLocation` and `LightLocation`). -/
def vdiv (a : Vec3) (q : ℚ) : Vec3 := (a.1 / q, a.2.1 / q, a.2.2 / q)

/-- The vertex and face lists handed to `rs.AddMesh`. -/
structure MeshData where
  verts : List Vec3
  faces : List (List Nat)
deriving DecidableEq

/-- `LocationMesh` (lines 351-360), as the pure mesh construction: each
basis direction is converted to a position relative to `origin`
(`basis[b] = rs.VectorAdd(basis[b], origin)`) and the basis tetrahedron is
built with the four fixed triangles. -/
def LocationMesh (origin b0 b1 b2 : Vec3) : MeshData :=
  { verts := [origin, vadd b0 origin, vadd b1 origin, vadd b2 origin]
    faces := [[0, 2, 1], [0, 3, 2], [0, 1, 3], [1, 2, 3]] }

/-- The 4x3 affine transform of a block instance
(`rs.BlockInstanceXform`): row-major entries of three basis columns
(`M00,M10,M20`, `M01,M11,M21`, `M02,M12,M22`) and the origin column
(`M03,M13,M23`). -/
structure Xform where
  m00 : ℚ
  m01 : ℚ
  m02 : ℚ
  m03 : ℚ
  m10 : ℚ
  m11 : ℚ
  m12 : ℚ
  m13 : ℚ
  m20 : ℚ
  m21 : ℚ
  m22 : ℚ
  m23 : ℚ
deriving DecidableEq

/-- The identity transform, as produced for a block inserted at the
origin. -/
def idXform : Xform := ⟨1, 0, 0, 0, 0, 1, 0, 0, 0, 0, 1, 0⟩

/-- The geometry part of `BlockLocation` (lines 364-376): extract the
three basis columns and the origin from the transform, divide the basis
columns (not the origin) by `scale`, and build the location mesh. -/
def BlockLocationMesh (x : Xform) (scale : ℚ) : MeshData :=
  let p0 : Vec3 := (x.m00, x.m10, x.m20)
  let p1 : Vec3 := (x.m01, x.m11, x.m21)
  let p2 : Vec3 := (x.m02, x.m12, x.m22)
  let p3 : Vec3 := (x.m03, x.m13, x.m23)
  LocationMesh p3 (vdiv p0 scale) (vdiv p1 scale) (vdiv p2 scale)

/-! Real-valued vector model for `BasisFromDirection`, which calls
`rs.VectorUnitize` and therefore needs square roots. -/

/-- A 3-vector over the reals. -/
abbrev Vec3R := ℝ × ℝ × ℝ

noncomputable section

/-- Dot product (`rs.VectorDotProduct`). -/
def dotR (a b : Vec3R) : ℝ := a.1 * b.1 + a.2.1 * b.2.1 + a.2.2 * b.2.2

/-- Vector subtraction. -/
def subR (a b : Vec3R) : Vec3R := (a.1 - b.1, a.2.1 - b.2.1, a.2.2 - b.2.2)

/-- Scalar multiple. -/
def smulR (t : ℝ) (a : Vec3R) : Vec3R := (t * a.1, t * a.2.1, t * a.2.2)

/-- Cross product (`rs.VectorCrossProduct`). -/
def crossR (a b : Vec3R) : Vec3R :=
  (a.2.1 * b.2.2 - a.2.2 * b.2.1, a.2.2 * b.1 - a.1 * b.2.2,
    a.1 * b.2.1 - a.2.1 * b.1)

/-- `rs.VectorUnitize`: scale a vector to unit length. -/
def unitizeR (a : Vec3R) : Vec3R := smulR (1 / Real.sqrt (dotR a a)) a

/-- `UnitVector` (lines 328-331). -/
def UnitVector : Nat → Vec3R
  | 0 => (1, 0, 0)
  | 1 => (0, 1, 0)
  | _ => (0, 0, 1)

/-- `UnitBasis` (lines 334-335). -/
def UnitBasis : List Vec3R := [UnitVector 0, UnitVector 1, UnitVector 2]

/-- The scan condition `-0.5 < inner <= 0.5` of `BasisFromDirection` at
axis `b`. -/
def scanCond (d : Vec3R) (b : Nat) : Prop :=
  -(1 / 2 : ℝ) < dotR (UnitVector b) (unitizeR d) ∧
    dotR (UnitVector b) (unitizeR d) ≤ 1 / 2

/-- The Gram-Schmidt vector `b0` produced from axis `b`
(`rs.VectorUnitize(b0 - b2 * inner)`, line 345). -/
def gsB0 (d : Vec3R) (b : Nat) : Vec3R :=
  unitizeR (subR (UnitVector b) (smulR (dotR (UnitVector b) (unitizeR d)) (unitizeR d)))

/-- The basis returned when the scan accepts axis `b` (lines 344-347). -/
def gramSchmidtAxis (d : Vec3R) (b : Nat) : List Vec3R :=
  [gsB0 d b, crossR (unitizeR d) (gsB0 d b), unitizeR d]

open Classical in
/-- `BasisFromDirection` (lines 338-348): unitize `direction`, scan axes
0, 1, 2 in order for one whose dot product with the unit direction lies in
`(-0.5, 0.5]`, Gram-Schmidt that axis; if no axis passes, fall back to
`UnitBasis()`. -/
def BasisFromDirection (direction : Vec3R) : List Vec3R :=
  if scanCond direction 0 then gramSchmidtAxis direction 0
  else if scanCond direction 1 then gramSchmidtAxis direction 1
  else if scanCond direction 2 then gramSchmidtAxis direction 2
  else UnitBasis

end

/-! Scene-graph and host-state model for the orchestration code
(`SafeObjectName`, `UniqueRename`, `RevertRename`, `ExportSelected`,
`GetExportPath`, `RunCommand`).  Objects are identified by numeric ids;
the object table, the selection, the created export directories and an
event trace are explicit state.  Object names are `Option String`:
`none` is the host state in which `rs.ObjectName` returns `None`.  Per
the source's own comment (line 121: setting the name to `""` "Restores
name is None state"), the name setter collapses `""` to `none`. -/

/-- The `= -> -` replacement of `SafeObjectName` (line 84). -/
def replaceEq (s : String) : String :=
  String.mk (s.data.map (fun a => if a = '=' then '-' else a))

/-- `SafeObjectName` (lines 80-85): `None` becomes `""`, then
`SafeFileName`, then `=` is replaced by `-`. -/
def SafeObjectName (name : Option String) : String :=
  match name with
  | none => ""
  | some n => replaceEq (SafeFileName n)

/-- `lights_export` (line 50). -/
def lightsExport : Nat := 256

/-- `meshes_export` (line 51). -/
def meshesExport : Nat := 32

/-- `detail_export` (line 52). -/
def detailExport : Nat := 8 + 16 + 262144 + 1073741824

/-- `blocks_export` (line 53). -/
def blocksExport : Nat := 4096

/-- `export_select` (line 54). -/
def exportSelect : Nat := lightsExport ||| meshesExport ||| detailExport ||| blocksExport

/-- The type bits that make an `ExportSelected` call export directly
(lights, meshes or detail pass), without needing the blocks pass. -/
def directMask : Nat := lightsExport ||| meshesExport ||| detailExport

/-- A scene object: type bitmask (`rs.ObjectType`), optional name, layer
and, for block instances (bit 4096), the referenced block-definition name
and instance transform (`rs.BlockInstanceName`, `rs.BlockInstanceXform`).
For lights, `lightKind` selects which subtype probe of `LightLocation`
succeeds (0 point, 1 directional, 2 spot, 3 rectangular, 4 linear, other
none).  `mesh` holds vertex/face data of meshes created by `rs.AddMesh`;
the vertex data of light placeholders is elided (see `LightLocation`). -/
structure RObj where
  otype : Nat
  name : Option String
  layer : String
  block : String
  xf : Xform
  lightKind : Nat
  mesh : Option MeshData
deriving DecidableEq

/-- Trace events recorded by the export model. -/
inductive Ev where
  | mkdirOk (p : String)
  | mkdirFail (p : String)
  | rmdir (p : String)
  | instSeen (block : String) (x : Xform)
  | blockExport (block : String)
  | place (block : String) (x : Xform) (m : MeshData)
  | exportFile (file : String)
deriving DecidableEq

/-- The mutable host state: object table in creation order, the next
fresh id, the selection (`rs.SelectedObjects`), the directories created
under the export root (`os.mkdir` / `os.rmdir`) and the event trace. -/
structure St where
  objs : List (Nat × RObj)
  nextId : Nat
  sel : List Nat
  dirs : List String
  evs : List Ev
deriving DecidableEq

/-- Look an object up by id. -/
def lookupObj (st : St) (i : Nat) : Option RObj :=
  (st.objs.find? (fun p => p.1 = i)).map Prod.snd

/-- `rs.IsObject`: the id refers to a live object. -/
def isAlive (st : St) (i : Nat) : Bool := (lookupObj st i).isSome

/-- `rs.ObjectType` (0 for a dead id; only used on live objects). -/
def objType (st : St) (i : Nat) : Nat := ((lookupObj st i).map RObj.otype).getD 0

/-- `rs.ObjectName(object)` as a getter. -/
def getName (st : St) (i : Nat) : Option String := (lookupObj st i).bind RObj.name

/-- Update one object in place. -/
def mapObj (st : St) (i : Nat) (f : RObj → RObj) : St :=
  { st with objs := st.objs.map (fun p => if p.1 = i then (p.1, f p.2) else p) }

/-- `rs.ObjectName(object, name)` as a setter: writing an empty name
restores the "name is None" state (source comment, line 121). -/
def setName (st : St) (i : Nat) (s : String) : St :=
  mapObj st i (fun o => { o with name := if s = "" then none else some s })

/-- `rs.ObjectLayer(object, layer)` as a setter. -/
def setLayer (st : St) (i : Nat) (l : String) : St :=
  mapObj st i (fun o => { o with layer := l })

/-- `rs.SelectObject`: add a live, not yet selected object to the
selection. -/
def selectObj (st : St) (i : Nat) : St :=
  if isAlive st i ∧ i ∉ st.sel then { st with sel := st.sel ++ [i] } else st

/-- `rs.SelectObjects`. -/
def selectObjs (st : St) (l : List Nat) : St := l.foldl selectObj st

/-- `rs.UnselectAllObjects`. -/
def unselectAll (st : St) : St := { st with sel := [] }

/-- `rs.DeleteObjects`: remove the objects and drop them from the
selection. -/
def deleteObjs (st : St) (l : List Nat) : St :=
  { st with objs := st.objs.filter (fun p => p.1 ∉ l),
            sel := st.sel.filter (fun i => i ∉ l) }

/-- Create a fresh object (`rs.AddMesh`, `rs.InsertBlock` and the copies
made by `rs.ExplodeBlockInstance`). -/
def addObj (st : St) (o : RObj) : Nat × St :=
  (st.nextId,
    { st with objs := st.objs ++ [(st.nextId, o)], nextId := st.nextId + 1 })

/-- Create a list of fresh objects in order. -/
def addObjsList (st : St) (l : List RObj) : List Nat × St :=
  match l with
  | [] => ([], st)
  | o :: rest =>
    let (i, st) := addObj st o
    let (ids, st) := addObjsList st rest
    (i :: ids, st)

/-- Record a trace event. -/
def emit (st : St) (e : Ev) : St := { st with evs := st.evs ++ [e] }

/-- A Python dict used as the rename map: insertion-ordered association
list; the code only ever inserts fresh keys, so the keys stay unique. -/
abbrev NameMap := List (String × Option String)

/-- `key in name_map`. -/
def keyMem (m : NameMap) (k : String) : Bool := m.any (fun p => p.1 = k)

/-- `name_map[key] = value`. -/
def dictInsert (m : NameMap) (k : String) (v : Option String) : NameMap :=
  if keyMem m k then m.map (fun p => if p.1 = k then (k, v) else p) else m ++ [(k, v)]

/-- `name_map[key]` as a total lookup. -/
def dictGet (m : NameMap) (k : String) : Option (Option String) :=
  (m.find? (fun p => p.1 = k)).map Prod.snd

/-- `del name_map[key]`. -/
def dictDel (m : NameMap) (k : String) : NameMap := m.filter (fun p => p.1 ≠ k)

/-- The keys of the rename map. -/
def keysOf (m : NameMap) : List String := m.map Prod.fst

/-- The `while new_name + "_" + str(suffix) in name_map: suffix += 1`
search (lines 106-108), with explicit fuel.  Starting fuel
`m.length + 1` always suffices: the candidate names are pairwise
distinct (`natStr` is injective) while the map holds only `m.length`
keys, and `findSuffix_spec` below proves the fuelled loop computes what
the unbounded loop would. -/
def findSuffix (m : NameMap) (base : String) : Nat → Nat → Nat
  | 0, n => n
  | fuel + 1, n =>
    if keyMem m (base ++ "_" ++ natStr n) then findSuffix m base fuel (n + 1) else n

/-- `rs.IsLight`, as determined by the light type bit. -/
def isLightP (st : St) (i : Nat) : Bool := (objType st i &&& lightsExport) != 0

/-- The candidate name computed by lines 96-104 of `UniqueRename`:
the sanitized name, or the class default ("Light" before "Object" by the
probe order of lines 99-104, "Unknown" for an invalid id) when the
sanitized name is empty. -/
def renBase (st : St) (i : Nat) : String :=
  let sanitized := SafeObjectName (getName st i)
  if sanitized.length = 0 then
    if isLightP st i then "Light" else if isAlive st i then "Object" else "Unknown"
  else sanitized

/-- One iteration of the `UniqueRename` loop (lines 94-111) on object
`i`: sanitize the name, substitute a class default when the sanitized
name is empty, disambiguate with an `_N` suffix when the original name
was `None`/empty or the candidate is already a key, then record and
apply the new name. -/
def uniqueRenameStep (acc : NameMap × St) (i : Nat) : NameMap × St :=
  let m := acc.1
  let st := acc.2
  let oldName := getName st i
  let base := renBase st i
  let newName :=
    if oldName = none ∨ oldName = some "" ∨ keyMem m base then
      base ++ "_" ++ natStr (findSuffix m base (m.length + 1) m.length)
    else base
  (dictInsert m newName oldName, setName st i newName)

/-- `UniqueRename` (lines 92-111): process the selected objects in
order, threading the name map. -/
def UniqueRename (st : St) (m : NameMap) : NameMap × St :=
  st.sel.foldl uniqueRenameStep (m, st)

/-- One iteration of the `RevertRename` loop (lines 116-123): if the
object's current name is a key of the map, restore the recorded original
(an original of `None` is written back as `""`, which the host stores as
the `None` state) and delete the entry. -/
def revertRenameStep (acc : NameMap × St) (i : Nat) : NameMap × St :=
  let m := acc.1
  let st := acc.2
  match getName st i with
  | some n =>
    match dictGet m n with
    | some oldName => (dictDel m n, setName st i (oldName.getD ""))
    | none => (m, st)
  | none => (m, st)

/-- `RevertRename` (lines 114-123). -/
def RevertRename (st : St) (m : NameMap) : NameMap × St :=
  st.sel.foldl revertRenameStep (m, st)

/-- `os.path.join` with the forward separator. -/
def joinPath (p n : String) : String := p ++ "/" ++ n

/-- `ExportModel` (lines 258-268): runs the host `-Export` command on the
current selection; modelled as recording the target file. -/
def ExportModel (st : St) (path name : String) : St :=
  emit st (.exportFile (joinPath path name))

/-- The light-type label computed by the probe cascade of `LightLocation`
(lines 409-451). -/
def lightLabel (k : Nat) : String :=
  if k = 0 then "PointLight"
  else if k = 1 then "DirectionalLight"
  else if k = 2 then "SpotLight"
  else if k = 3 then "RectangularLight"
  else if k = 4 then "LinearLight"
  else "UnknownLight"

/-- A fresh mesh object as created by `rs.AddMesh`. -/
def meshObj (m : Option MeshData) : RObj :=
  { otype := meshesExport, name := none, layer := "", block := "", xf := idXform,
    lightKind := 5, mesh := m }

/-- A mesh-typed scene object with a given name (used to build concrete
test scenes). -/
def namedMeshObj (n : Option String) : RObj :=
  { otype := meshesExport, name := n, layer := "", block := "", xf := idXform,
    lightKind := 5, mesh := none }

/-- `LightLocation` (lines 399-466): create the placeholder mesh object
for a light, name it `<lightType>=<objectName>` and copy the layer.
Fails (Python `TypeError`) when the light has no name, because the source
concatenates `rs.ObjectName(light)` into the placeholder name.  The
placeholder's vertex data is elided (`mesh := none`): it requires the
real-valued `BasisFromDirection` model, and no claim inspects it. -/
def LightLocation (st : St) (i : Nat) (_scale : ℚ) : Option (Nat × St) := do
  let o ← lookupObj st i
  if (o.otype &&& lightsExport) = 0 then none
  else
    let n ← o.name
    let (p, st) := addObj st (meshObj none)
    let st := setName st p (lightLabel o.lightKind ++ "=" ++ n)
    let st := setLayer st p o.layer
    return (p, st)

/-- `BlockLocation` (lines 364-386): build the transform-encoding
placeholder mesh for block instance `i`, named
`<safeBlockName>=<objectName>`, on the instance's layer.  Fails (Python
`TypeError`) when the instance has no name. -/
def BlockLocation (st : St) (i : Nat) (scale : ℚ) : Option (Nat × St) := do
  let o ← lookupObj st i
  let (p, st) := addObj st (meshObj (some (BlockLocationMesh o.xf scale)))
  let n ← o.name
  let st := setName st p (SafeObjectName (some o.block) ++ "=" ++ n)
  let st := setLayer st p o.layer
  return (p, st)

/-- The lights pass loop (lines 487-493). -/
def lightsLoop (scale : ℚ) : List Nat → St → List Nat → Option (List Nat × St)
  | [], st, ph => some (ph, st)
  | i :: rest, st, ph =>
    if (objType st i &&& lightsExport) != 0 then do
      let st := selectObj st i
      let (p, st) ← LightLocation st i scale
      let st := selectObj st p
      lightsLoop scale rest st (ph ++ [p])
    else lightsLoop scale rest st ph

/-- The selection loops of the meshes and detail passes
(lines 502-504 and 512-514). -/
def selectByType : List Nat → St → Nat → St
  | [], st, _ => st
  | i :: rest, st, mask =>
    selectByType rest (if (objType st i &&& mask) != 0 then selectObj st i else st) mask

/-- The block definition table of the document: definition name to the
list of constituent objects. -/
abbrev Defs := List (String × List RObj)

/-- The object created by `rs.InsertBlock(block, [0,0,0])`. -/
def insertedInstanceObj (block : String) : RObj :=
  { otype := blocksExport, name := none, layer := "", block := block, xf := idXform,
    lightKind := 5, mesh := none }

/-- `rs.InsertBlock(block, [0,0,0])` followed by
`rs.ExplodeBlockInstance(instance)` (lines 543-546): instantiate the
definition at the origin, then explode one level, producing fresh copies
of the definition's constituents (nested instances are not exploded).
Fails when the definition name is unknown. -/
def insertAndExplode (D : Defs) (st : St) (block : String) :
    Option (List Nat × St) := do
  let parts ← (D.find? (fun p => p.1 = block)).map Prod.snd
  let (inst, st) := addObj st (insertedInstanceObj block)
  let (ids, st) := addObjsList st parts
  let st := deleteObjs st [inst]
  return (ids, st)

/-- The blocks pass loop (lines 526-563), parameterized by the recursive
`ExportSelected` call (`rec path name st`).  Events: `instSeen` when a
block instance is processed, `mkdirOk`/`mkdirFail` for the `os.mkdir`
attempt (`OSError` means the definition was already exported),
`blockExport` just before the recursive call, `place` when a placeholder
is created, `rmdir` when the empty directory is removed. -/
def blocksLoop (rec : String → String → St → Option (Bool × St)) (D : Defs)
    (scale : ℚ) (path : String) :
    List Nat → St → List Nat → Option (List Nat × St)
  | [], st, ph => some (ph, st)
  | i :: rest, st, ph =>
    if (objType st i &&& blocksExport) != 0 then do
      let o ← lookupObj st i
      let blockName := SafeObjectName (some o.block)
      let blockPath := joinPath path blockName
      let st := emit st (.instSeen o.block o.xf)
      if blockPath ∈ st.dirs then
        let st := emit st (.mkdirFail blockPath)
        let (p, st) ← BlockLocation st i scale
        let st := emit st (.place o.block o.xf (BlockLocationMesh o.xf scale))
        blocksLoop rec D scale path rest st (ph ++ [p])
      else
        let st := { st with dirs := st.dirs ++ [blockPath] }
        let st := emit st (.mkdirOk blockPath)
        let (parts, st) ← insertAndExplode D st o.block
        let st := selectObjs st parts
        let (_, st) := UniqueRename st []
        let st := emit st (.blockExport o.block)
        let (done, st) ← rec path (joinPath blockName blockName) st
        let st := deleteObjs st parts
        if done then
          let (p, st) ← BlockLocation st i scale
          let st := emit st (.place o.block o.xf (BlockLocationMesh o.xf scale))
          blocksLoop rec D scale path rest st (ph ++ [p])
        else
          let st := { st with dirs := st.dirs.filter (fun q => q ≠ blockPath) }
          let st := emit st (.rmdir blockPath)
          blocksLoop rec D scale path rest st ph
    else blocksLoop rec D scale path rest st ph

/-- `ExportSelected` (lines 477-573) with explicit recursion fuel:
`none` means the fuel ran out (the Python recursion depth equals the
block-nesting depth) or a modelled host failure occurred.  The four
passes run in order — lights, meshes, detail at three levels, blocks —
and the entry selection is restored at the end. -/
def ExportSelectedF (D : Defs) :
    Nat → ℚ → String → String → St → Option (Bool × St)
  | 0, _, _, _, _ => none
  | fuel + 1, scale, path, name, st => do
    let selected := st.sel
    let st := unselectAll st
    let (ph, st) ← lightsLoop scale selected st []
    let (e1, st) :=
      if st.sel.length > 0 then
        let st := ExportModel st path (name ++ ".lights")
        let st := deleteObjs st ph
        (true, st)
      else (false, st)
    let st := unselectAll st
    let st := selectByType selected st meshesExport
    let (e2, st) :=
      if st.sel.length > 0 then (true, ExportModel st path (name ++ ".meshes"))
      else (false, st)
    let st := unselectAll st
    let st := selectByType selected st detailExport
    let (e3, st) :=
      if st.sel.length > 0 then
        let st := ExportModel st path (name ++ ".meshes0")
        let st := ExportModel st path (name ++ ".meshes1")
        let st := ExportModel st path (name ++ ".meshes2")
        (true, st)
      else (false, st)
    let st := unselectAll st
    let (ph, st) ← blocksLoop (ExportSelectedF D fuel scale) D scale path selected st []
    let (e4, st) :=
      if ph.length > 0 then
        let st := selectObjs st ph
        let st := ExportModel st path (name ++ ".places")
        let st := deleteObjs st ph
        (true, st)
      else (false, st)
    let st := selectObjs st selected
    return (e1 || e2 || e3 || e4, st)

/-! Export-path resolution and the command entry point. -/

/-- The saved state of the active document (`sc.doc.ActiveDoc`):
`Name` and `Path` are `None` until the document has been saved. -/
structure DocSt where
  docName : Option String
  docPath : Option String

/-- Python slicing `value[:-4]` on a possibly-`None` value: raises
`TypeError` when the value is `None` (before any `is None` test can
run), otherwise drops the last four characters. -/
def pySliceDrop4 (v : Option String) : Except String (Option String) :=
  match v with
  | none => Except.error ("TypeError")
  | some s => Except.ok (some (s.dropRight 4))

/-- Whether the string `pre` is a prefix of `q` (decided on the
character lists). -/
def strStarts (pre q : String) : Bool := pre.data.isPrefixOf q.data

/-- `shutil.rmtree(path, True)` on the filesystem model (a list of
existing paths): removes `path` and everything below it. -/
def rmtree (path : String) (fs : List String) : List String :=
  fs.filter (fun q => !(q == path || strStarts (path ++ "/") q))

/-- `GetExportPath` (lines 576-598).  Both `Name[:-4]` and `Path[:-4]`
are evaluated before the `is None` test on line 579, so an unsaved
document raises `TypeError` and that test is dead code.  In interactive
mode the user picks a folder (`pick`; `none` means cancelled, no
filesystem effect); in batch mode the derived export directory is
deleted recursively and recreated empty. -/
def GetExportPath (doc : DocSt) (isInteractive : Bool) (pick : Option String)
    (fs : List String) : Except String (Option (String × String) × List String) :=
  match pySliceDrop4 doc.docName with
  | Except.error e => Except.error e
  | Except.ok name =>
    match pySliceDrop4 doc.docPath with
    | Except.error e => Except.error e
    | Except.ok path =>
      if name = none ∨ path = none then Except.ok (none, fs)
      else
        let nameS := name.getD ""
        let pathS := path.getD ""
        if isInteractive then
          match pick with
          | none => Except.ok (none, fs)
          | some p => Except.ok (some (p, nameS), fs)
        else Except.ok (some (pathS, nameS), pathS :: rmtree pathS fs)

/-- `SelectExport` (lines 56-58): select every object whose type matches
the export mask. -/
def SelectExport (st : St) : St :=
  selectObjs st
    ((st.objs.filter (fun p => (p.2.otype &&& exportSelect) != 0)).map Prod.fst)

/-- The `finally` block of `RunCommand` (lines 630-636): re-select the
exportable objects, revert the renames, then restore the entry
selection. -/
def runFinally (m : NameMap) (selected : List Nat) (st : St) : St :=
  let st := SelectExport st
  let (_, st) := RevertRename st m
  let st := unselectAll st
  selectObjs st selected

/-- The outcome of `RunCommand`: messages printed, final scene state,
final filesystem, and the Python-level result (`ok` or an uncaught
exception name). -/
structure RunOut where
  msgs : List String
  st : St
  fs : List String
  result : Except String Unit

/-- `RunCommand` (lines 600-637).  `rhinoVersion` is the host major
version, `units` the document unit-system code and `fuel` the recursion
allowance for `ExportSelected` (exhaustion is reported as
`RecursionError` with the `finally` block applied to the pre-export
state).  The body's scene mutations run inside `try/finally`
(lines 616-636): when the body raises, the `finally` block still runs
and the exception propagates. -/
def RunCommand (isInteractive : Bool) (rhinoVersion : Nat) (doc : DocSt)
    (pick : Option String) (fs : List String) (D : Defs) (units : Int)
    (fuel : Nat) (st : St) : RunOut :=
  let msgs := if isInteractive then ["RePort"] else []
  if ¬ (rhinoVersion = 7 ∨ rhinoVersion = 6 ∨ rhinoVersion = 5) then
    { msgs := msgs ++ ["unsupported version -> abort"], st := st, fs := fs,
      result := Except.ok () }
  else
    match GetExportPath doc isInteractive pick fs with
    | Except.error e => { msgs := msgs, st := st, fs := fs, result := Except.error e }
    | Except.ok (none, fs) =>
      { msgs := msgs ++ ["no export location -> abort"], st := st, fs := fs,
        result := Except.ok () }
    | Except.ok (some (path, name), fs) =>
      let selected := st.sel
      let st1 := SelectExport st
      let (m1, st2) := UniqueRename st1 []
      match ModelScale units with
      | Except.error e =>
        { msgs := msgs, st := runFinally m1 selected st2, fs := fs,
          result := Except.error e }
      | Except.ok scale =>
        match ExportSelectedF D fuel scale path name st2 with
        | none =>
          { msgs := msgs, st := runFinally m1 selected st2, fs := fs,
            result := Except.error ("RecursionError") }
        | some (_, st3) =>
          { msgs := msgs ++ ["success"], st := runFinally m1 selected st3, fs := fs,
            result := Except.ok () }

/-! Derived observations on traces and well-formedness predicates, used
to state the claims about `ExportSelected`. -/

/-- The transforms of the processed instances of definition `d`, in
order. -/
def instSeenFor (d : String) (E : List Ev) : List Xform :=
  E.filterMap (fun e => match e with
    | .instSeen b x => if b = d then some x else none
    | _ => none)

/-- The placeholders produced for definition `d`, in order. -/
def placesFor (d : String) (E : List Ev) : List (Xform × MeshData) :=
  E.filterMap (fun e => match e with
    | .place b x m => if b = d then some (x, m) else none
    | _ => none)

/-- The raw block names of the processed instances. -/
def instSeenNames (E : List Ev) : List String :=
  E.filterMap (fun e => match e with
    | .instSeen b _ => some b
    | _ => none)

/-- How many times directory `p` was successfully created. -/
def countMkdirOk (p : String) (E : List Ev) : Nat :=
  E.countP (fun e => match e with
    | .mkdirOk q => q == p
    | _ => false)

/-- How many times the recursive block export ran for definition `d`. -/
def countBlockExport (d : String) (E : List Ev) : Nat :=
  E.countP (fun e => match e with
    | .blockExport b => b == d
    | _ => false)

/-- The name state produced by writing a stored original back through
`rs.ObjectName`: an original empty-string name collapses to the unset
(`None`) state, everything else is restored verbatim. -/
def collapseName (o : Option String) : Option String :=
  if o = some "" then none else o

/-- Well-formed host state: unique object ids below `nextId`, and a
duplicate-free selection of live objects. -/
def WFSt (st : St) : Prop :=
  (st.objs.map Prod.fst).Nodup ∧ (∀ p ∈ st.objs, p.1 < st.nextId) ∧
  st.sel.Nodup ∧ (∀ i ∈ st.sel, isAlive st i = true)

/-- A block definition that exports something on its own: it exists in
the table and has a constituent whose type matches a direct export pass
(lights, meshes or detail). -/
def goodDef (D : Defs) (d : String) : Prop :=
  ∃ parts, (D.find? (fun p => p.1 = d)).map Prod.snd = some parts ∧
    ∃ c ∈ parts, (c.otype &&& directMask) ≠ 0

/-- The frame conditions every `ExportSelected` piece satisfies: ids grow
monotonically, objects existing at entry are never modified or deleted,
directories existing at entry persist, and the trace is append-only. -/
def Frame (st st' : St) : Prop :=
  st.nextId ≤ st'.nextId ∧
  (∀ j, j < st.nextId → lookupObj st' j = lookupObj st j) ∧
  (∀ p ∈ st.dirs, p ∈ st'.dirs) ∧
  ∃ E, st'.evs = st.evs ++ E

/-- Accumulated placeholder ids: pairwise distinct live mesh objects with
ids already allocated. -/
def PhOK (st : St) (ph : List Nat) : Prop :=
  ph.Nodup ∧ ∀ x ∈ ph, isAlive st x = true ∧ x < st.nextId

/-- Injectivity of block-name sanitization on the block names actually
processed in a trace segment, relative to a definition `d`. -/
def SafeInjOn (d : String) (E : List Ev) : Prop :=
  ∀ b ∈ instSeenNames E, SafeObjectName (some b) = SafeObjectName (some d) → b = d

/-- The per-definition dedup invariant of a trace segment `E` produced
between directory states `dirs` and `dirs'`: placeholders pair up
one-to-one with processed instances of `d`, and `d`'s export
directory is created — and `d`'s recursive export run — exactly once if
`d` is first processed in this segment, never if its directory already
existed, and not at all if no instance of `d` occurs. -/
def SegInv (d : String) (scale : ℚ) (path : String)
    (dirs dirs' : List String) (E : List Ev) : Prop :=
  SafeInjOn d E →
  (placesFor d E).Perm
    ((instSeenFor d E).map (fun x => (x, BlockLocationMesh x scale))) ∧
  (joinPath path (SafeObjectName (some d)) ∈ dirs →
    countMkdirOk (joinPath path (SafeObjectName (some d))) E = 0 ∧
    countBlockExport d E = 0 ∧
    joinPath path (SafeObjectName (some d)) ∈ dirs') ∧
  (joinPath path (SafeObjectName (some d)) ∉ dirs →
    (joinPath path (SafeObjectName (some d)) ∈ dirs' ∧
      countMkdirOk (joinPath path (SafeObjectName (some d))) E = 1 ∧
      countBlockExport d E = 1 ∧ instSeenFor d E ≠ []) ∨
    (joinPath path (SafeObjectName (some d)) ∉ dirs' ∧
      countMkdirOk (joinPath path (SafeObjectName (some d))) E = 0 ∧
      countBlockExport d E = 0 ∧ instSeenFor d E = []))

/-- A one-object scene used as a concrete export run for the selection
restoration claim: a single selected mesh named "box". -/
def c8St : St :=
  { objs := [(0, namedMeshObj (some "box"))], nextId := 1, sel := [0],
    dirs := [], evs := [] }

/-- A curve-typed constituent (`rs.ObjectType` 4): matched by no export
pass, so a block made only of such objects exports nothing. -/
def c1Curve : RObj :=
  { otype := 4, name := some ("c"), layer := "", block := "", xf := idXform,
    lightKind := 5, mesh := none }

/-- A definition table with a single block `E` whose only constituent is
a plain curve. -/
def c1D : Defs := [("E", [c1Curve])]

/-- A scene with two selected instances of block `E`. -/
def c1St : St :=
  { objs := [(0, insertedInstanceObj ("E")), (1, insertedInstanceObj ("E"))],
    nextId := 2, sel := [0, 1], dirs := [], evs := [] }

/-- The empty scene: nothing selected, clean trace. -/
def c1EmptySt : St :=
  { objs := [], nextId := 0, sel := [], dirs := [], evs := [] }

/-- A definition table with one block `B` that exports on its own (its
constituent is a mesh). -/
def c1GoodD : Defs := [("B", [namedMeshObj (some ("x"))])]

/-! ### Theorems -/

theorem digitVal_digitChar : ∀ d, d < 10 → digitVal (Nat.digitChar d) = d := by decide

theorem digitsVal_natStrAux : ∀ fuel n, n ≤ fuel → digitsVal (natStrAux fuel n) = n := by
  intro fuel
  induction fuel with
  | zero =>
    intro n hn
    interval_cases n
    rfl
  | succ f ih =>
    intro n hn
    match n with
    | 0 => rfl
    | m + 1 =>
      have hdiv : (m + 1) / 10 ≤ f := by
        have h1 : (m + 1) / 10 < m + 1 := Nat.div_lt_self (Nat.succ_pos m) (by norm_num)
        omega
      have hmod : (m + 1) % 10 < 10 := Nat.mod_lt _ (by norm_num)
      simp only [natStrAux, digitsVal, ih _ hdiv, digitVal_digitChar _ hmod]
      exact Nat.mod_add_div (m + 1) 10

theorem natStrAux_self_ne_nil (n : Nat) (hn : 0 < n) : natStrAux n n ≠ [] := by
  match n, hn with
  | m + 1, _ => simp [natStrAux]

theorem natStr_injective : Function.Injective natStr := by
  intro a b h
  unfold natStr at h
  by_cases ha : a = 0 <;> by_cases hb : b = 0 <;> simp [ha, hb] at h ⊢
  · -- a = 0, b ≠ 0 : "0" has value 0, contradiction with b > 0
    exfalso
    have hdata : ['0'] = (natStrAux b b).reverse := congrArg String.data h
    have : natStrAux b b = ['0'] := by
      have := congrArg List.reverse hdata
      simpa using this.symm
    have hv := digitsVal_natStrAux b b le_rfl
    rw [this] at hv
    simp [digitsVal, digitVal] at hv
    exact hb hv.symm
  · exfalso
    have hdata : (natStrAux a a).reverse = ['0'] := congrArg String.data h
    have : natStrAux a a = ['0'] := by
      have := congrArg List.reverse hdata
      simpa using this
    have hv := digitsVal_natStrAux a a le_rfl
    rw [this] at hv
    simp [digitsVal, digitVal] at hv
    exact ha hv.symm
  · have hdata : (natStrAux a a).reverse = (natStrAux b b).reverse :=
      congrArg String.data h
    have hlists : natStrAux a a = natStrAux b b := List.reverse_injective hdata
    have hva := digitsVal_natStrAux a a le_rfl
    have hvb := digitsVal_natStrAux b b le_rfl
    rw [hlists] at hva
    omega

theorem mem_removeChar_data (c a : Char) (s : String) :
    a ∈ (removeChar c s).data ↔ a ∈ s.data ∧ a ≠ c := by
  simp [removeChar]

theorem mem_SafeFileName_data (a : Char) (s : String) :
    a ∈ (SafeFileName s).data ↔ a ∈ s.data ∧ a ∉ forbiddenChars := by
  simp only [SafeFileName, mem_removeChar_data, forbiddenChars, List.mem_cons,
    List.not_mem_nil, or_false]
  tauto

theorem removeChar_eq_self (c : Char) (s : String) (h : ∀ a ∈ s.data, a ≠ c) :
    removeChar c s = s := by
  have hl : List.filter (fun a => decide (a ≠ c)) s.data = s.data :=
    List.filter_eq_self.mpr (fun a ha => decide_eq_true (h a ha))
  cases s with
  | mk data => simpa [removeChar] using congrArg String.mk hl

theorem SafeFileName_of_clean (s : String)
    (h : ∀ a ∈ s.data, a ∉ forbiddenChars) : SafeFileName s = s := by
  have hc : ∀ c ∈ forbiddenChars, removeChar c s = s := fun c hc =>
    removeChar_eq_self c s (fun a ha heq => h a ha (heq ▸ hc))
  simp only [SafeFileName]
  rw [hc '<' (by simp [forbiddenChars]), hc '>' (by simp [forbiddenChars]),
    hc ':' (by simp [forbiddenChars]), hc '"' (by simp [forbiddenChars]),
    hc '/' (by simp [forbiddenChars]), hc '\\' (by simp [forbiddenChars]),
    hc '|' (by simp [forbiddenChars]), hc '?' (by simp [forbiddenChars]),
    hc '*' (by simp [forbiddenChars])]

/-- Claim C9: `SafeFileName` is idempotent and its output contains no
character of the forbidden set `< > : " / \ | ? *`. -/
theorem SafeFileName_idempotent_and_clean (s : String) :
    SafeFileName (SafeFileName s) = SafeFileName s ∧
    ∀ c ∈ (SafeFileName s).data, c ∉ forbiddenChars := by
  constructor
  · exact SafeFileName_of_clean _ (fun a ha => ((mem_SafeFileName_data a s).mp ha).2)
  · exact fun c hc => ((mem_SafeFileName_data c s).mp hc).2

/-- Witness for C9 at the concrete input `"a<b*c"`. -/
theorem SafeFileName_idempotent_and_clean_witness :
    SafeFileName (SafeFileName ("a<b*c")) = SafeFileName ("a<b*c") ∧
    ('a' ∈ (SafeFileName ("a<b*c")).data → 'a' ∉ forbiddenChars) :=
  ⟨(SafeFileName_idempotent_and_clean ("a<b*c")).1,
    fun h => (SafeFileName_idempotent_and_clean ("a<b*c")).2 'a' h⟩

/-- Claim C2 (code bug): `ModelScale` is not total over the unit codes
0..25 — at code 12 (angstroms) the source references the undefined name
`meters` and raises `NameError`.  At the codes the claim singles out the
values are as stated: code 4 (meters) gives exactly 1 and code 8 (inches)
gives exactly 0.3048/12 = 0.0254; out-of-range codes fall back to 1. -/
theorem ModelScale_unit12_raises :
    ModelScale 12 = Except.error ("NameError") ∧
    ModelScale 4 = Except.ok 1 ∧
    ModelScale 8 = Except.ok (254 / 10000) ∧
    ModelScale 26 = Except.ok 1 ∧
    ModelScale (-1) = Except.ok 1 := by
  refine ⟨rfl, rfl, ?_, rfl, rfl⟩
  show Except.ok ((1 : ℚ) * (3048 / 10000) / 12) = Except.ok (254 / 10000)
  norm_num

/-- Claim C6: the transform-encoding mesh has vertices
`[origin, origin + basisX/scale, origin + basisY/scale, origin + basisZ/scale]`
(origin left unscaled) and the four fixed triangles; at the identity
transform with scale 1 the vertices are exactly the origin and the three
unit points. -/
theorem BlockLocation_encodes_transform :
    (∀ (x : Xform) (scale : ℚ),
      BlockLocationMesh x scale =
        { verts := [(x.m03, x.m13, x.m23),
            vadd (vdiv (x.m00, x.m10, x.m20) scale) (x.m03, x.m13, x.m23),
            vadd (vdiv (x.m01, x.m11, x.m21) scale) (x.m03, x.m13, x.m23),
            vadd (vdiv (x.m02, x.m12, x.m22) scale) (x.m03, x.m13, x.m23)]
          faces := [[0, 2, 1], [0, 3, 2], [0, 1, 3], [1, 2, 3]] }) ∧
    BlockLocationMesh idXform 1 =
      { verts := [(0, 0, 0), (1, 0, 0), (0, 1, 0), (0, 0, 1)]
        faces := [[0, 2, 1], [0, 3, 2], [0, 1, 3], [1, 2, 3]] } :=
  ⟨fun _ _ => rfl, by norm_num [BlockLocationMesh, LocationMesh, vdiv, vadd, idXform]⟩

theorem dotR_comm (a b : Vec3R) : dotR a b = dotR b a := by
  simp only [dotR]; ring

theorem dotR_sub_left (a b c : Vec3R) : dotR (subR a b) c = dotR a c - dotR b c := by
  simp only [dotR, subR]; ring

theorem dotR_smul_left (t : ℝ) (a b : Vec3R) : dotR (smulR t a) b = t * dotR a b := by
  simp only [dotR, smulR]; ring

theorem dotR_smul_right (t : ℝ) (a b : Vec3R) : dotR a (smulR t b) = t * dotR a b := by
  simp only [dotR, smulR]; ring

theorem dotR_unitizeR_self (d : Vec3R) (hd : 0 < dotR d d) :
    dotR (unitizeR d) (unitizeR d) = 1 := by
  simp only [unitizeR, dotR_smul_left, dotR_smul_right]
  rw [one_div, ← mul_assoc, ← mul_inv, Real.mul_self_sqrt hd.le]
  exact inv_mul_cancel₀ hd.ne'

theorem dot_gs_vector (e u : Vec3R) :
    dotR (subR e (smulR (dotR e u) u)) u = dotR e u - dotR e u * dotR u u := by
  simp only [dotR, subR, smulR]; ring

theorem dot_gs_vector_self (e u : Vec3R) :
    dotR (subR e (smulR (dotR e u) u)) (subR e (smulR (dotR e u) u)) =
      dotR e e - 2 * (dotR e u) ^ 2 + (dotR e u) ^ 2 * dotR u u := by
  simp only [dotR, subR, smulR]; ring

/-- Orthonormality of the Gram-Schmidt vector against the unit direction,
for any axis whose dot product is strictly inside `(-1, 1)`. -/
theorem gsB0_props (d : Vec3R) (hd : 0 < dotR d d) (b : Nat) (hb : b < 3)
    (hin : (dotR (UnitVector b) (unitizeR d)) ^ 2 < 1) :
    dotR (gsB0 d b) (unitizeR d) = 0 ∧ dotR (gsB0 d b) (gsB0 d b) = 1 := by
  have huu : dotR (unitizeR d) (unitizeR d) = 1 := dotR_unitizeR_self d hd
  have hee : dotR (UnitVector b) (UnitVector b) = 1 := by
    interval_cases b <;> norm_num [dotR, UnitVector]
  have hwu : dotR (subR (UnitVector b) (smulR (dotR (UnitVector b) (unitizeR d))
      (unitizeR d))) (unitizeR d) = 0 := by
    rw [dot_gs_vector, huu]; ring
  have hww : dotR (subR (UnitVector b) (smulR (dotR (UnitVector b) (unitizeR d))
      (unitizeR d))) (subR (UnitVector b) (smulR (dotR (UnitVector b) (unitizeR d))
      (unitizeR d))) = 1 - (dotR (UnitVector b) (unitizeR d)) ^ 2 := by
    rw [dot_gs_vector_self, huu, hee]; ring
  have hwwpos : 0 < dotR (subR (UnitVector b) (smulR (dotR (UnitVector b) (unitizeR d))
      (unitizeR d))) (subR (UnitVector b) (smulR (dotR (UnitVector b) (unitizeR d))
      (unitizeR d))) := by rw [hww]; linarith
  constructor
  · rw [gsB0, unitizeR, dotR_smul_left, hwu, mul_zero]
  · rw [gsB0, unitizeR, dotR_smul_left, dotR_smul_right]
    rw [one_div, ← mul_assoc, ← mul_inv, Real.mul_self_sqrt hwwpos.le]
    exact inv_mul_cancel₀ hwwpos.ne'

open Classical in
theorem BasisFromDirection_eq_of_cond0 (d : Vec3R) (h0 : scanCond d 0) :
    BasisFromDirection d = gramSchmidtAxis d 0 := by
  rw [BasisFromDirection, if_pos h0]

open Classical in
theorem BasisFromDirection_eq_of_cond1 (d : Vec3R) (h0 : ¬ scanCond d 0)
    (h1 : scanCond d 1) : BasisFromDirection d = gramSchmidtAxis d 1 := by
  rw [BasisFromDirection, if_neg h0, if_pos h1]

open Classical in
theorem BasisFromDirection_eq_of_cond2 (d : Vec3R) (h0 : ¬ scanCond d 0)
    (h1 : ¬ scanCond d 1) (h2 : scanCond d 2) :
    BasisFromDirection d = gramSchmidtAxis d 2 := by
  rw [BasisFromDirection, if_neg h0, if_neg h1, if_pos h2]

theorem sq_lt_one_of_scanCond (d : Vec3R) (b : Nat) (h : scanCond d b) :
    (dotR (UnitVector b) (unitizeR d)) ^ 2 < 1 := by
  obtain ⟨h1, h2⟩ := h
  nlinarith

/-- Claim C4 (amended): when some coordinate axis has dot product with the
unit direction in `(-0.5, 0.5]`, `BasisFromDirection` returns the
Gram-Schmidt basis built from the first such axis (in index order 0,1,2),
with the unitized direction as its third element, and the produced `b0` is
a unit vector orthogonal to the direction.  The existence of such an axis
is not guaranteed (see the counterexample), so the fallback branch is
reachable. -/
theorem BasisFromDirection_first_axis (d : Vec3R) (hd : 0 < dotR d d) :
    (scanCond d 0 →
      BasisFromDirection d = [gsB0 d 0, crossR (unitizeR d) (gsB0 d 0), unitizeR d] ∧
      dotR (gsB0 d 0) (unitizeR d) = 0 ∧ dotR (gsB0 d 0) (gsB0 d 0) = 1) ∧
    (¬ scanCond d 0 → scanCond d 1 →
      BasisFromDirection d = [gsB0 d 1, crossR (unitizeR d) (gsB0 d 1), unitizeR d] ∧
      dotR (gsB0 d 1) (unitizeR d) = 0 ∧ dotR (gsB0 d 1) (gsB0 d 1) = 1) ∧
    (¬ scanCond d 0 → ¬ scanCond d 1 → scanCond d 2 →
      BasisFromDirection d = [gsB0 d 2, crossR (unitizeR d) (gsB0 d 2), unitizeR d] ∧
      dotR (gsB0 d 2) (unitizeR d) = 0 ∧ dotR (gsB0 d 2) (gsB0 d 2) = 1) := by
  refine ⟨fun h0 => ?_, fun h0 h1 => ?_, fun h0 h1 h2 => ?_⟩
  · have := gsB0_props d hd 0 (by norm_num) (sq_lt_one_of_scanCond d 0 h0)
    exact ⟨BasisFromDirection_eq_of_cond0 d h0, this.1, this.2⟩
  · have := gsB0_props d hd 1 (by norm_num) (sq_lt_one_of_scanCond d 1 h1)
    exact ⟨BasisFromDirection_eq_of_cond1 d h0 h1, this.1, this.2⟩
  · have := gsB0_props d hd 2 (by norm_num) (sq_lt_one_of_scanCond d 2 h2)
    exact ⟨BasisFromDirection_eq_of_cond2 d h0 h1 h2, this.1, this.2⟩

theorem unitizeR_unit_x : unitizeR (1, 0, 0) = ((1 : ℝ), 0, 0) := by
  have h1 : dotR ((1 : ℝ), 0, 0) (1, 0, 0) = 1 := by norm_num [dotR]
  simp only [unitizeR, h1, smulR, Real.sqrt_one]
  norm_num

theorem scanCond_unit_x_0 : ¬ scanCond ((1 : ℝ), 0, 0) 0 := by
  rw [scanCond, unitizeR_unit_x]
  norm_num [dotR, UnitVector]

theorem scanCond_unit_x_1 : scanCond ((1 : ℝ), 0, 0) 1 := by
  rw [scanCond, unitizeR_unit_x]
  norm_num [dotR, UnitVector]

/-- Witness for C4 at direction `(1,0,0)`: axis 0 is rejected
(dot product 1), axis 1 is the first accepted axis. -/
theorem BasisFromDirection_first_axis_witness :
    BasisFromDirection ((1 : ℝ), 0, 0) =
      [gsB0 ((1 : ℝ), 0, 0) 1, crossR (unitizeR ((1 : ℝ), 0, 0)) (gsB0 ((1 : ℝ), 0, 0) 1),
        unitizeR ((1 : ℝ), 0, 0)] ∧
    dotR (gsB0 ((1 : ℝ), 0, 0) 1) (unitizeR ((1 : ℝ), 0, 0)) = 0 ∧
    dotR (gsB0 ((1 : ℝ), 0, 0) 1) (gsB0 ((1 : ℝ), 0, 0) 1) = 1 :=
  (BasisFromDirection_first_axis ((1 : ℝ), 0, 0) (by norm_num [dotR])).2.1
    scanCond_unit_x_0 scanCond_unit_x_1

theorem sqrt_three_lt_two : Real.sqrt 3 < 2 := by
  rw [Real.sqrt_lt' (by norm_num)]
  norm_num

theorem unitizeR_diag :
    unitizeR ((1 : ℝ), 1, 1) = (1 / Real.sqrt 3, 1 / Real.sqrt 3, 1 / Real.sqrt 3) := by
  have h3 : dotR ((1 : ℝ), 1, 1) (1, 1, 1) = 3 := by norm_num [dotR]
  simp only [unitizeR, h3, smulR]
  norm_num

theorem dot_unitize_diag (b : Nat) (hb : b < 3) :
    dotR (UnitVector b) (unitizeR (1, 1, 1)) = 1 / Real.sqrt 3 := by
  rw [show ((1, 1, 1) : Vec3R) = ((1 : ℝ), 1, 1) from rfl, unitizeR_diag]
  interval_cases b <;> norm_num [dotR, UnitVector]

theorem half_lt_inv_sqrt_three : (1 / 2 : ℝ) < 1 / Real.sqrt 3 := by
  have h0 : (0 : ℝ) < Real.sqrt 3 := Real.sqrt_pos.mpr (by norm_num)
  exact one_div_lt_one_div_of_lt h0 sqrt_three_lt_two

theorem not_scanCond_diag (b : Nat) (hb : b < 3) : ¬ scanCond ((1 : ℝ), 1, 1) b := by
  rw [scanCond, dot_unitize_diag b hb]
  intro h
  exact absurd h.2 (not_le.mpr half_lt_inv_sqrt_three)

open Classical in
/-- Counterexample to C4 as stated: for direction `(1,1,1)` all three axis
dot products equal `1/sqrt 3 > 0.5`, so no axis satisfies `(-0.5, 0.5]`,
the fallback branch IS taken, and the returned third element is not the
unitized direction. -/
theorem BasisFromDirection_fallback_taken :
    BasisFromDirection ((1 : ℝ), 1, 1) = UnitBasis ∧
    ¬ scanCond ((1 : ℝ), 1, 1) 0 ∧ ¬ scanCond ((1 : ℝ), 1, 1) 1 ∧
    ¬ scanCond ((1 : ℝ), 1, 1) 2 ∧
    UnitBasis.getD 2 (0, 0, 0) ≠ unitizeR ((1 : ℝ), 1, 1) := by
  have h0 := not_scanCond_diag 0 (by norm_num)
  have h1 := not_scanCond_diag 1 (by norm_num)
  have h2 := not_scanCond_diag 2 (by norm_num)
  refine ⟨by rw [BasisFromDirection, if_neg h0, if_neg h1, if_neg h2], h0, h1, h2, ?_⟩
  intro h
  rw [show ((1, 1, 1) : Vec3R) = ((1 : ℝ), 1, 1) from rfl, unitizeR_diag] at h
  have hx : (0 : ℝ) = 1 / Real.sqrt 3 := by
    have := congrArg Prod.fst h
    simpa [UnitBasis, UnitVector] using this
  have hpos : (0 : ℝ) < 1 / Real.sqrt 3 := by positivity
  rw [← hx] at hpos
  exact lt_irrefl 0 hpos


/-! Claims C5 and C10: `GetExportPath` and `RunCommand`. -/

/-- Claim C5 (code bug): with a never-saved document (`ActiveDoc.Name`
and `ActiveDoc.Path` are `None`), `GetExportPath` raises `TypeError` at
`Name[:-4]` (line 577) before its `is None` test can run, so no status
message is printed and the exception escapes `RunCommand`; the scene and
filesystem are untouched, but the claimed clean abort with a reported
message does not happen. -/
theorem RunCommand_unsaved_doc_raises :
    (∀ (b : Bool) (pick : Option String) (fs : List String),
      GetExportPath ⟨none, none⟩ b pick fs = Except.error ("TypeError")) ∧
    (∀ (b : Bool) (pick : Option String) (fs : List String) (nm : String),
      GetExportPath ⟨some nm, none⟩ b pick fs = Except.error ("TypeError")) ∧
    ∀ (fs : List String) (D : Defs) (units : Int) (fuel : Nat) (st : St),
      RunCommand false 7 ⟨none, none⟩ none fs D units fuel st =
        { msgs := [], st := st, fs := fs, result := Except.error ("TypeError") } := by
  refine ⟨fun b pick fs => rfl, fun b pick fs nm => rfl, fun fs D units fuel st => ?_⟩
  simp [RunCommand, GetExportPath, pySliceDrop4]

/-- Claim C10: in batch (non-interactive) mode `GetExportPath` first
recursively deletes the directory tree at the derived export path (the
document path with the 4-character `".3dm"` suffix stripped) and then
creates that directory fresh: every filesystem entry strictly below the
derived path is destroyed, entries elsewhere survive, and interactive
mode leaves the filesystem untouched. -/
theorem GetExportPath_batch_cleans (N P : String) (pick : Option String)
    (fs : List String) :
    (GetExportPath ⟨some N, some P⟩ false pick fs =
      Except.ok (some (P.dropRight 4, N.dropRight 4),
        P.dropRight 4 :: rmtree (P.dropRight 4) fs)) ∧
    (∀ q ∈ fs, strStarts (P.dropRight 4 ++ "/") q = true →
      q ∉ rmtree (P.dropRight 4) fs) ∧
    (∀ q ∈ fs, q ≠ P.dropRight 4 → strStarts (P.dropRight 4 ++ "/") q = false →
      q ∈ rmtree (P.dropRight 4) fs) ∧
    ((GetExportPath ⟨some N, some P⟩ true pick fs).map Prod.snd = Except.ok fs) := by
  refine ⟨?_, ?_, ?_, ?_⟩
  · simp [GetExportPath, pySliceDrop4]
  · intro q hq hpre
    simp only [rmtree, List.mem_filter]
    intro hmem
    simp [hpre] at hmem
  · intro q hq hne hpre
    simp only [rmtree, List.mem_filter]
    refine ⟨hq, ?_⟩
    simp [hpre, hne]
  · cases pick <;> simp [GetExportPath, pySliceDrop4, Except.map]

/-- Witness for C10 at a concrete document and filesystem. -/
theorem GetExportPath_batch_cleans_witness :
    (GetExportPath ⟨some ("doc.3dm"), some ("/a/doc.3dm")⟩ false none
        ["/a/doc", "/a/doc/x", "/a/other"] =
      Except.ok (some ("/a/doc", "doc"),
        "/a/doc" :: rmtree ("/a/doc") ["/a/doc", "/a/doc/x", "/a/other"])) ∧
    "/a/doc/x" ∉ rmtree ("/a/doc") ["/a/doc", "/a/doc/x", "/a/other"] ∧
    "/a/other" ∈ rmtree ("/a/doc") ["/a/doc", "/a/doc/x", "/a/other"] := by
  have h := GetExportPath_batch_cleans ("doc.3dm") ("/a/doc.3dm") none
    ["/a/doc", "/a/doc/x", "/a/other"]
  refine ⟨h.1, ?_, ?_⟩
  · exact h.2.1 ("/a/doc/x") (by decide) (by decide)
  · exact h.2.2.1 ("/a/other") (by decide) (by decide) (by decide)

/-! Claim C3: the `_N` suffix chosen by `UniqueRename`. -/

theorem string_append_cancel (a b c : String) (h : a ++ b = a ++ c) : b = c := by
  have hd := congrArg String.data h
  rw [String.data_append, String.data_append] at hd
  have hbc := List.append_cancel_left hd
  cases b
  cases c
  exact congrArg String.mk hbc

theorem suffix_candidate_inj (base : String) (i j : Nat)
    (h : base ++ "_" ++ natStr i = base ++ "_" ++ natStr j) : i = j :=
  natStr_injective (string_append_cancel (base ++ "_") _ _ h)

theorem keyMem_iff (m : NameMap) (k : String) : keyMem m k = true ↔ k ∈ keysOf m := by
  simp [keyMem, keysOf, List.any_eq_true, List.mem_map]

theorem exists_free_suffix (m : NameMap) (base : String) (n : Nat) :
    ∃ k, k ≤ m.length ∧ keyMem m (base ++ "_" ++ natStr (n + k)) = false := by
  by_contra hcon
  push_neg at hcon
  have hall : ∀ k, k ≤ m.length → (base ++ "_" ++ natStr (n + k)) ∈ keysOf m := by
    intro k hk
    have hne := hcon k hk
    have hb : keyMem m (base ++ "_" ++ natStr (n + k)) = true := by
      cases hx : keyMem m (base ++ "_" ++ natStr (n + k)) with
      | false => exact absurd hx hne
      | true => rfl
    exact (keyMem_iff _ _).mp hb
  have hinj : Function.Injective
      (fun k : Fin (m.length + 1) => base ++ "_" ++ natStr (n + k.1)) := by
    intro a b hab
    have hv := suffix_candidate_inj base (n + a.1) (n + b.1) hab
    exact Fin.ext (by omega)
  have hsub : Finset.univ.image
      (fun k : Fin (m.length + 1) => base ++ "_" ++ natStr (n + k.1)) ⊆
      (keysOf m).toFinset := by
    intro s hs
    simp only [Finset.mem_image] at hs
    obtain ⟨k, _, hk⟩ := hs
    rw [List.mem_toFinset]
    exact hk ▸ hall k.1 (Nat.lt_succ_iff.mp k.2)
  have hcard1 : (Finset.univ.image
      (fun k : Fin (m.length + 1) => base ++ "_" ++ natStr (n + k.1))).card =
      m.length + 1 := by
    rw [Finset.card_image_of_injective _ hinj, Finset.card_univ, Fintype.card_fin]
  have hcard2 := Finset.card_le_card hsub
  have hcard3 : (keysOf m).toFinset.card ≤ m.length := by
    have hl := (keysOf m).toFinset_card_le
    simpa [keysOf] using hl
  omega

/-- The fuelled `findSuffix` loop computes what the unbounded `while`
loop of lines 106-108 computes: given enough fuel, the result is the
least free suffix at or after the start value. -/
theorem findSuffix_spec (m : NameMap) (base : String) :
    ∀ fuel n, (∃ k, k ≤ fuel ∧ keyMem m (base ++ "_" ++ natStr (n + k)) = false) →
      n ≤ findSuffix m base fuel n ∧
      keyMem m (base ++ "_" ++ natStr (findSuffix m base fuel n)) = false ∧
      ∀ j, n ≤ j → j < findSuffix m base fuel n →
        keyMem m (base ++ "_" ++ natStr j) = true := by
  intro fuel
  induction fuel with
  | zero =>
    rintro n ⟨k, hk, hfree⟩
    have hk0 : k = 0 := Nat.le_zero.mp hk
    subst hk0
    simp only [findSuffix]
    exact ⟨le_rfl, by simpa using hfree, fun j hj1 hj2 => absurd hj2 (by omega)⟩
  | succ f ih =>
    rintro n ⟨k, hk, hfree⟩
    by_cases hocc : keyMem m (base ++ "_" ++ natStr n) = true
    · have hk0 : k ≠ 0 := by
        intro h0
        subst h0
        rw [Nat.add_zero] at hfree
        rw [hocc] at hfree
        exact Bool.true_eq_false.mp hfree
      have hex : ∃ k2, k2 ≤ f ∧
          keyMem m (base ++ "_" ++ natStr (n + 1 + k2)) = false :=
        ⟨k - 1, by omega, by rw [show n + 1 + (k - 1) = n + k by omega]; exact hfree⟩
      obtain ⟨h1, h2, h3⟩ := ih (n + 1) hex
      have heq : findSuffix m base (f + 1) n = findSuffix m base f (n + 1) := by
        simp [findSuffix, hocc]
      rw [heq]
      refine ⟨by omega, h2, fun j hj1 hj2 => ?_⟩
      rcases Nat.eq_or_lt_of_le hj1 with he | hlt
      · exact he ▸ hocc
      · exact h3 j hlt hj2
    · have hocc' : keyMem m (base ++ "_" ++ natStr n) = false :=
        Bool.not_eq_true _ ▸ eq_false_of_ne_true hocc
      have heq : findSuffix m base (f + 1) n = n := by simp [findSuffix, hocc']
      rw [heq]
      exact ⟨le_rfl, hocc', fun j hj1 hj2 => absurd hj2 (by omega)⟩

/-- Counterexample to C3 as stated: with one entry already in the name
map (key `"X"`), an unnamed object is assigned `"Object_1"` — the suffix
search starts at `len(name_map) = 1` — even though `"Object_0"` is not a
key, so the claimed "smallest non-negative integer" is 0, not 1. -/
theorem uniqueRename_suffix_not_minimal :
    getName (UniqueRename
      { objs := [(0, meshObj none)], nextId := 1, sel := [0], dirs := [], evs := [] }
      [("X", some ("X"))]).2 0 = some ("Object_1") ∧
    keyMem [("X", some ("X"))] ("Object_0") = false ∧
    ("Object_1" : String) ≠ "Object_0" := by decide

/-- Claim C3 (amended): when `UniqueRename` must disambiguate (original
name `None` or empty, or sanitized-or-default base already a key), the
assigned name is `base_N` where `N` is the smallest integer **greater
than or equal to the current size of the name map** — the search starts
at `len(name_map)`, not at 0 — such that `base_N` is not already a
key. -/
theorem uniqueRenameStep_least_suffix (m : NameMap) (st : St) (i : Nat)
    (htrig : getName st i = none ∨ getName st i = some "" ∨
      keyMem m (renBase st i) = true) :
    (uniqueRenameStep (m, st) i).2 =
      setName st i (renBase st i ++ "_" ++
        natStr (findSuffix m (renBase st i) (m.length + 1) m.length)) ∧
    m.length ≤ findSuffix m (renBase st i) (m.length + 1) m.length ∧
    keyMem m (renBase st i ++ "_" ++
      natStr (findSuffix m (renBase st i) (m.length + 1) m.length)) = false ∧
    ∀ j, m.length ≤ j → j < findSuffix m (renBase st i) (m.length + 1) m.length →
      keyMem m (renBase st i ++ "_" ++ natStr j) = true := by
  have hex : ∃ k, k ≤ m.length + 1 ∧
      keyMem m (renBase st i ++ "_" ++ natStr (m.length + k)) = false := by
    obtain ⟨k, hk, hfree⟩ := exists_free_suffix m (renBase st i) m.length
    exact ⟨k, by omega, hfree⟩
  obtain ⟨h1, h2, h3⟩ := findSuffix_spec m (renBase st i) (m.length + 1) m.length hex
  refine ⟨?_, h1, h2, h3⟩
  simp only [uniqueRenameStep]
  rw [if_pos htrig]

/-- Witness for C3's amended statement at a concrete map and scene: the
suffix search starts at the map size 1 and lands on a non-key. -/
theorem uniqueRenameStep_least_suffix_witness :
    1 ≤ findSuffix [("X", some ("X"))] ("Object") 2 1 ∧
    keyMem [("X", some ("X"))]
      ("Object" ++ "_" ++ natStr (findSuffix [("X", some ("X"))] ("Object") 2 1)) =
      false := by
  have h := uniqueRenameStep_least_suffix [("X", some ("X"))]
    { objs := [(0, meshObj none)], nextId := 1, sel := [0], dirs := [], evs := [] } 0
    (Or.inl (by decide))
  have hb : renBase
      { objs := [(0, meshObj none)], nextId := 1, sel := [0], dirs := [], evs := [] } 0 =
      "Object" := by decide
  rw [hb] at h
  exact ⟨h.2.1, h.2.2.1⟩

/-! Basic lemmas about the host-state operations. -/

theorem find?_fst_map_ite (l : List (Nat × RObj)) (i j : Nat) (f : RObj → RObj) :
    (l.map (fun p => if p.1 = i then (p.1, f p.2) else p)).find?
        (fun p => p.1 = j) =
      if j = i then (l.find? (fun p => p.1 = j)).map (fun p => (p.1, f p.2))
      else l.find? (fun p => p.1 = j) := by
  induction l with
  | nil => by_cases hj : j = i <;> simp [hj]
  | cons a t ih =>
    simp only [List.map_cons]
    by_cases haj : a.1 = j
    · by_cases hai : a.1 = i
      · have hji : j = i := hai ▸ haj ▸ rfl
        simp [List.find?_cons, haj, hai, hji]
      · have hji : ¬ j = i := fun h => hai (h ▸ haj)
        simp [List.find?_cons, haj, hai, hji]
    · by_cases hai : a.1 = i
      · have hij : ¬ i = j := fun h => haj (by rw [hai, h])
        have hji : ¬ j = i := fun h => hij h.symm
        simp [List.find?_cons, haj, hai, hij, hji, ih]
      · simp [List.find?_cons, haj, hai, ih]

theorem lookupObj_mapObj (st : St) (i : Nat) (f : RObj → RObj) (j : Nat) :
    lookupObj (mapObj st i f) j =
      if j = i then (lookupObj st j).map f else lookupObj st j := by
  unfold lookupObj mapObj
  rw [find?_fst_map_ite]
  by_cases hj : j = i <;> simp [hj, Option.map_map]
  rfl

theorem lookupObj_mapObj_other (st : St) (i : Nat) (f : RObj → RObj) (j : Nat)
    (h : j ≠ i) : lookupObj (mapObj st i f) j = lookupObj st j := by
  rw [lookupObj_mapObj, if_neg h]

theorem isAlive_mapObj (st : St) (i : Nat) (f : RObj → RObj) (j : Nat) :
    isAlive (mapObj st i f) j = isAlive st j := by
  unfold isAlive
  rw [lookupObj_mapObj]
  by_cases hj : j = i <;> simp [hj]

theorem lookupObj_setName_other (st : St) (i : Nat) (s : String) (j : Nat)
    (h : j ≠ i) : lookupObj (setName st i s) j = lookupObj st j :=
  lookupObj_mapObj_other st i _ j h

theorem getName_setName_other (st : St) (i : Nat) (s : String) (j : Nat)
    (h : j ≠ i) : getName (setName st i s) j = getName st j := by
  unfold getName
  rw [lookupObj_setName_other st i s j h]

theorem getName_setName_self (st : St) (i : Nat) (s : String)
    (h : isAlive st i = true) :
    getName (setName st i s) i = if s = "" then none else some s := by
  unfold getName setName
  rw [lookupObj_mapObj, if_pos rfl]
  unfold isAlive at h
  obtain ⟨o, ho⟩ := Option.isSome_iff_exists.mp h
  rw [ho]
  rfl

theorem isAlive_setName (st : St) (i : Nat) (s : String) (j : Nat) :
    isAlive (setName st i s) j = isAlive st j := isAlive_mapObj st i _ j

theorem sel_mapObj (st : St) (i : Nat) (f : RObj → RObj) :
    (mapObj st i f).sel = st.sel := rfl

theorem sel_setName (st : St) (i : Nat) (s : String) :
    (setName st i s).sel = st.sel := rfl

theorem dictInsert_fresh (m : NameMap) (k : String) (v : Option String)
    (h : keyMem m k = false) : dictInsert m k v = m ++ [(k, v)] := by
  unfold dictInsert
  rw [h]
  rfl

theorem keyMem_append (m1 m2 : NameMap) (k : String) :
    keyMem (m1 ++ m2) k = (keyMem m1 k || keyMem m2 k) := by
  simp [keyMem, List.any_append]

theorem keysOf_append (m1 m2 : NameMap) :
    keysOf (m1 ++ m2) = keysOf m1 ++ keysOf m2 := by
  simp [keysOf]

theorem not_keyMem_iff (m : NameMap) (k : String) :
    keyMem m k = false ↔ k ∉ keysOf m := by
  constructor
  · intro h hk
    rw [(keyMem_iff m k).mpr hk] at h
    exact Bool.true_eq_false.mp h
  · intro h
    cases hx : keyMem m k with
    | false => rfl
    | true => exact absurd ((keyMem_iff m k).mp hx) h

theorem renBase_ne_empty (st : St) (i : Nat) : renBase st i ≠ "" := by
  unfold renBase
  by_cases hs : (SafeObjectName (getName st i)).length = 0
  · rw [if_pos hs]
    by_cases hL : isLightP st i <;> by_cases hA : isAlive st i <;>
      simp [hL, hA]
  · rw [if_neg hs]
    intro he
    exact hs (by rw [he]; rfl)

theorem suffix_name_ne_empty (base : String) (n : Nat) :
    base ++ "_" ++ natStr n ≠ "" := by
  intro h
  have hd := congrArg String.data h
  rw [String.data_append, String.data_append] at hd
  simp at hd

/-- The shape of a single `UniqueRename` iteration: a fresh non-empty
key is chosen, recorded against the original name, and written onto the
object. -/
theorem uniqueRenameStep_shape (m : NameMap) (st : St) (i : Nat) :
    ∃ k, k ≠ "" ∧ keyMem m k = false ∧
      uniqueRenameStep (m, st) i = (m ++ [(k, getName st i)], setName st i k) := by
  by_cases htrig : getName st i = none ∨ getName st i = some "" ∨
      keyMem m (renBase st i) = true
  · refine ⟨renBase st i ++ "_" ++
      natStr (findSuffix m (renBase st i) (m.length + 1) m.length), ?_, ?_, ?_⟩
    · exact suffix_name_ne_empty _ _
    · obtain ⟨k, hk, hfree⟩ := exists_free_suffix m (renBase st i) m.length
      exact (findSuffix_spec m (renBase st i) (m.length + 1) m.length
        ⟨k, by omega, hfree⟩).2.1
    · have hfree : keyMem m (renBase st i ++ "_" ++
          natStr (findSuffix m (renBase st i) (m.length + 1) m.length)) = false := by
        obtain ⟨k, hk, hfree⟩ := exists_free_suffix m (renBase st i) m.length
        exact (findSuffix_spec m (renBase st i) (m.length + 1) m.length
          ⟨k, by omega, hfree⟩).2.1
      simp only [uniqueRenameStep]
      rw [if_pos htrig, dictInsert_fresh _ _ _ hfree]
  · refine ⟨renBase st i, renBase_ne_empty st i, ?_, ?_⟩
    · push_neg at htrig
      cases hx : keyMem m (renBase st i) with
      | false => rfl
      | true => exact absurd hx htrig.2.2
    · push_neg at htrig
      have hfree : keyMem m (renBase st i) = false := by
        cases hx : keyMem m (renBase st i) with
        | false => rfl
        | true => exact absurd hx htrig.2.2
      simp only [uniqueRenameStep]
      rw [if_neg, dictInsert_fresh _ _ _ hfree]
      push_neg
      exact ⟨htrig.1, htrig.2.1, fun h => by rw [h] at hfree; exact absurd hfree (by simp)⟩

theorem isAlive_of_getName_some (st : St) (j : Nat) (k : String)
    (h : getName st j = some k) : isAlive st j = true := by
  unfold getName at h
  unfold isAlive
  cases hx : lookupObj st j with
  | none => rw [hx] at h; exact absurd h (by simp)
  | some o => rfl

theorem getName_congr (st1 st2 : St) (j : Nat)
    (h : lookupObj st1 j = lookupObj st2 j) : getName st1 j = getName st2 j := by
  unfold getName
  rw [h]

/-- Structure of a full `UniqueRename` pass over a duplicate-free list
of live objects: every object gets a fresh, non-empty, pairwise-distinct
key recorded against its original name; objects outside the list are
untouched. -/
theorem uniqueRename_structure (l : List Nat) :
    ∀ (m : NameMap) (st : St), l.Nodup → (∀ i ∈ l, isAlive st i = true) →
    ∃ T : List (Nat × String × Option String),
      T.map (fun t => t.1) = l ∧
      (l.foldl uniqueRenameStep (m, st)).1 = m ++ T.map (fun t => t.2) ∧
      (T.map (fun t => t.2.1)).Nodup ∧
      (∀ t ∈ T, keyMem m t.2.1 = false) ∧
      (∀ t ∈ T, t.2.1 ≠ "") ∧
      (∀ t ∈ T, t.2.2 = getName st t.1) ∧
      (∀ t ∈ T, getName (l.foldl uniqueRenameStep (m, st)).2 t.1 = some t.2.1) ∧
      (∀ j, j ∉ l → lookupObj (l.foldl uniqueRenameStep (m, st)).2 j = lookupObj st j) ∧
      (l.foldl uniqueRenameStep (m, st)).2.sel = st.sel := by
  induction l with
  | nil =>
    intro m st _ _
    exact ⟨[], rfl, by simp, by simp, by simp, by simp, by simp, by simp,
      fun j _ => rfl, rfl⟩
  | cons i rest ih =>
    intro m st hnd halive
    obtain ⟨k, hk_ne, hk_fresh, hstep⟩ := uniqueRenameStep_shape m st i
    have hstep1 : (uniqueRenameStep (m, st) i).1 = m ++ [(k, getName st i)] := by
      rw [hstep]
    have hstep2 : (uniqueRenameStep (m, st) i).2 = setName st i k := by rw [hstep]
    have hinotrest : i ∉ rest := (List.nodup_cons.mp hnd).1
    have hrestnd : rest.Nodup := (List.nodup_cons.mp hnd).2
    have halive' : ∀ j ∈ rest, isAlive (setName st i k) j = true := by
      intro j hj
      rw [isAlive_setName]
      exact halive j (List.mem_cons_of_mem i hj)
    obtain ⟨T', hT1, hT2, hT3, hT4, hT5, hT6, hT7, hT8, hT9⟩ :=
      ih (m ++ [(k, getName st i)]) (setName st i k) hrestnd halive'
    have hfold : (i :: rest).foldl uniqueRenameStep (m, st) =
        rest.foldl uniqueRenameStep (m ++ [(k, getName st i)], setName st i k) := by
      rw [List.foldl_cons, hstep]
    refine ⟨(i, k, getName st i) :: T', ?_, ?_, ?_, ?_, ?_, ?_, ?_, ?_, ?_⟩
    · simp [hT1]
    · rw [hfold, hT2]
      simp
    · simp only [List.map_cons, List.nodup_cons]
      refine ⟨?_, hT3⟩
      intro hkmem
      simp only [List.mem_map] at hkmem
      obtain ⟨t, ht, htk⟩ := hkmem
      have hfresh' := hT4 t ht
      rw [keyMem_append] at hfresh'
      have : keyMem [(k, getName st i)] t.2.1 = false := by
        cases hx : keyMem m t.2.1 <;> cases hy : keyMem [(k, getName st i)] t.2.1 <;>
          rw [hx, hy] at hfresh' <;> simp_all
      rw [← htk] at this
      simp [keyMem] at this
    · intro t ht
      rcases List.mem_cons.mp ht with he | ht'
      · rw [he]
        exact hk_fresh
      · have hfresh' := hT4 t ht'
        rw [keyMem_append] at hfresh'
        cases hx : keyMem m t.2.1 with
        | false => rfl
        | true => rw [hx] at hfresh'; simp at hfresh'
    · intro t ht
      rcases List.mem_cons.mp ht with he | ht'
      · rw [he]; exact hk_ne
      · exact hT5 t ht'
    · intro t ht
      rcases List.mem_cons.mp ht with he | ht'
      · rw [he]
      · have h6 := hT6 t ht'
        have hne : t.1 ≠ i := by
          intro hcon
          have : t.1 ∈ rest := by
            have : t.1 ∈ T'.map (fun t => t.1) := List.mem_map_of_mem _ ht'
            rwa [hT1] at this
          rw [hcon] at this
          exact hinotrest this
        rw [h6, getName_setName_other st i k t.1 hne]
    · intro t ht
      rw [hfold]
      rcases List.mem_cons.mp ht with he | ht'
      · rw [he]
        show getName (List.foldl uniqueRenameStep
          (m ++ [(k, getName st i)], setName st i k) rest).2 i = some k
        rw [getName_congr _ _ i (hT8 i hinotrest)]
        rw [getName_setName_self st i k (halive i (List.mem_cons_self i rest))]
        rw [if_neg hk_ne]
      · exact hT7 t ht'
    · intro j hj
      rw [hfold, hT8 j (fun h => hj (List.mem_cons_of_mem i h)),
        lookupObj_setName_other st i k j (fun h => hj (h ▸ List.mem_cons_self i rest))]
    · rw [hfold, hT9, sel_setName]

theorem collapse_write (v : Option String) :
    (if (v.getD "") = "" then none else some (v.getD "")) = collapseName v := by
  cases v with
  | none => rfl
  | some s =>
    by_cases hs : s = "" <;> simp [hs, collapseName]

/-- Structure of a full `RevertRename` pass: given the key/original
table produced by `UniqueRename`, every listed object's name is restored
to its original up to the host's collapse of the empty name. -/
theorem revertRename_structure (T : List (Nat × String × Option String)) :
    ∀ (st : St),
    (T.map (fun t => t.1)).Nodup →
    (T.map (fun t => t.2.1)).Nodup →
    (∀ t ∈ T, getName st t.1 = some t.2.1) →
    (∀ t ∈ T, getName ((T.map (fun t => t.1)).foldl revertRenameStep
        (T.map (fun t => t.2), st)).2 t.1 = collapseName t.2.2) ∧
    (∀ j, j ∉ T.map (fun t => t.1) →
      lookupObj ((T.map (fun t => t.1)).foldl revertRenameStep
        (T.map (fun t => t.2), st)).2 j = lookupObj st j) := by
  induction T with
  | nil => exact fun st _ _ _ => ⟨by simp, fun j _ => rfl⟩
  | cons t0 rest ih =>
    intro st hnd1 hnd2 hnames
    obtain ⟨i, k, v⟩ := t0
    rw [List.map_cons] at hnd1 hnd2
    dsimp only at hnd1 hnd2
    obtain ⟨hinotrest, hnd1'⟩ := List.nodup_cons.mp hnd1
    obtain ⟨hknotrest, hnd2'⟩ := List.nodup_cons.mp hnd2
    have hname0 : getName st i = some k := hnames (i, k, v) (List.mem_cons_self _ _)
    have halive0 : isAlive st i = true := isAlive_of_getName_some st i k hname0
    have hget : dictGet ((k, v) :: rest.map (fun t => t.2)) k = some v := by
      simp [dictGet, List.find?_cons]
    have hdel : dictDel ((k, v) :: rest.map (fun t => t.2)) k =
        rest.map (fun t => t.2) := by
      unfold dictDel
      rw [List.filter_cons_of_neg (by simp)]
      apply List.filter_eq_self.mpr
      intro p hp
      have hpk : p.1 ≠ k := by
        intro hcon
        apply hknotrest
        simp only [List.mem_map] at hp ⊢
        obtain ⟨t, ht, htp⟩ := hp
        exact ⟨t, ht, by rw [← htp] at hcon; exact hcon⟩
      simpa using hpk
    have hstep : revertRenameStep ((k, v) :: rest.map (fun t => t.2), st) i =
        (rest.map (fun t => t.2), setName st i (v.getD "")) := by
      simp only [revertRenameStep]
      rw [hname0]
      simp only [hget, hdel]
    have hnames' : ∀ t ∈ rest, getName (setName st i (v.getD "")) t.1 = some t.2.1 := by
      intro t ht
      have hne : t.1 ≠ i := by
        intro hcon
        apply hinotrest
        rw [← hcon]
        exact List.mem_map_of_mem _ ht
      rw [getName_setName_other st i _ t.1 hne]
      exact hnames t (List.mem_cons_of_mem _ ht)
    obtain ⟨ih1, ih2⟩ := ih (setName st i (v.getD "")) hnd1' hnd2' hnames'
    have hfold : ((((i, k, v) :: rest).map (fun t => t.1)).foldl revertRenameStep
        (((i, k, v) :: rest).map (fun t => t.2), st)) =
        ((rest.map (fun t => t.1)).foldl revertRenameStep
          (rest.map (fun t => t.2), setName st i (v.getD ""))) := by
      simp only [List.map_cons, List.foldl_cons, hstep]
    constructor
    · intro t ht
      rcases List.mem_cons.mp ht with he | ht'
      · rw [he, hfold]
        show getName (List.foldl revertRenameStep
          (rest.map (fun t => t.2), setName st i (v.getD ""))
          (rest.map (fun t => t.1))).2 i = collapseName v
        rw [getName_congr _ _ i (ih2 i hinotrest)]
        exact (getName_setName_self st i _ halive0).trans (collapse_write v)
      · rw [hfold]
        exact ih1 t ht'
    · intro j hj
      rw [List.map_cons] at hj
      rw [hfold, ih2 j (fun h => hj (List.mem_cons_of_mem _ h)),
        lookupObj_setName_other st i _ j
          (fun h => hj (h ▸ List.mem_cons_self _ _))]

/-- Claim C7 (amended): after `UniqueRename` on every selected object,
`RevertRename` restores each object's name to its exact pre-call value
whenever that value was `None` or a non-empty string; an original
empty-string name is restored to the unset (`None`) state, because
`RevertRename` writes the original back through `rs.ObjectName` and the
host treats writing an empty name as clearing it (the source's own
comment on line 121).  The `None` vs `""` distinction claimed by the
spec is therefore not preserved. -/
theorem rename_revert_restores (st : St) (h1 : st.sel.Nodup)
    (h2 : ∀ i ∈ st.sel, isAlive st i = true) :
    ∀ i ∈ st.sel,
      getName (RevertRename (UniqueRename st []).2 (UniqueRename st []).1).2 i =
        collapseName (getName st i) := by
  obtain ⟨T, hT1, hT2, hT3, hT4, hT5, hT6, hT7, hT8, hT9⟩ :=
    uniqueRename_structure st.sel [] st h1 h2
  have hm1 : (UniqueRename st []).1 = T.map (fun t => t.2) := by
    show (st.sel.foldl uniqueRenameStep ([], st)).1 = _
    rw [hT2]
    simp
  have hsel' : (UniqueRename st []).2.sel = st.sel := hT9
  have hfstnd : (T.map (fun t => t.1)).Nodup := by rw [hT1]; exact h1
  have hnames : ∀ t ∈ T, getName (UniqueRename st []).2 t.1 = some t.2.1 := hT7
  obtain ⟨r1, r2⟩ := revertRename_structure T (UniqueRename st []).2 hfstnd hT3 hnames
  intro i hi
  have hiT : ∃ t ∈ T, t.1 = i := by
    have hmem : i ∈ T.map (fun t => t.1) := by rw [hT1]; exact hi
    simpa using hmem
  obtain ⟨t, ht, hti⟩ := hiT
  have hrev : RevertRename (UniqueRename st []).2 (UniqueRename st []).1 =
      (T.map (fun t => t.1)).foldl revertRenameStep
        (T.map (fun t => t.2), (UniqueRename st []).2) := by
    show (UniqueRename st []).2.sel.foldl revertRenameStep
      ((UniqueRename st []).1, (UniqueRename st []).2) = _
    rw [hm1, hsel', hT1]
  rw [hrev, ← hti]
  rw [r1 t ht, hT6 t ht]

/-- Counterexample to C7 as stated: an object originally named with the
empty string ends with an unset (`None`) name after the
rename-then-revert round trip, so the `None` vs `""` distinction is not
preserved. -/
theorem rename_revert_empty_name_lost :
    getName (RevertRename
      (UniqueRename
        { objs := [(0, namedMeshObj (some ("")))],
          nextId := 1, sel := [0], dirs := [], evs := [] } []).2
      (UniqueRename
        { objs := [(0, namedMeshObj (some ("")))],
          nextId := 1, sel := [0], dirs := [], evs := [] } []).1).2 0 = none ∧
    getName
      { objs := [(0, namedMeshObj (some ("")))],
        nextId := 1, sel := [0], dirs := [], evs := [] } 0 = some ("") := by decide

/-- Witness for C7's amended statement on a concrete two-object scene
with a `None` name and a non-empty name. -/
theorem rename_revert_restores_witness :
    getName (RevertRename
      (UniqueRename
        { objs := [(0, namedMeshObj none), (1, namedMeshObj (some ("A")))],
          nextId := 2, sel := [0, 1], dirs := [], evs := [] } []).2
      (UniqueRename
        { objs := [(0, namedMeshObj none), (1, namedMeshObj (some ("A")))],
          nextId := 2, sel := [0, 1], dirs := [], evs := [] } []).1).2 0 =
      collapseName (getName
        { objs := [(0, namedMeshObj none), (1, namedMeshObj (some ("A")))],
          nextId := 2, sel := [0, 1], dirs := [], evs := [] } 0) :=
  rename_revert_restores
    { objs := [(0, namedMeshObj none), (1, namedMeshObj (some ("A")))],
      nextId := 2, sel := [0, 1], dirs := [], evs := [] }
    (by decide) (by decide) 0 (by decide)

/-! Component and frame lemmas for the host-state operations. -/

theorem selectObj_objs (st : St) (i : Nat) : (selectObj st i).objs = st.objs := by
  unfold selectObj
  split <;> rfl

theorem selectObj_nextId (st : St) (i : Nat) : (selectObj st i).nextId = st.nextId := by
  unfold selectObj
  split <;> rfl

theorem selectObj_dirs (st : St) (i : Nat) : (selectObj st i).dirs = st.dirs := by
  unfold selectObj
  split <;> rfl

theorem selectObj_evs (st : St) (i : Nat) : (selectObj st i).evs = st.evs := by
  unfold selectObj
  split <;> rfl

theorem lookupObj_selectObj (st : St) (i j : Nat) :
    lookupObj (selectObj st i) j = lookupObj st j := by
  unfold lookupObj
  rw [selectObj_objs]

theorem isAlive_selectObj (st : St) (i j : Nat) :
    isAlive (selectObj st i) j = isAlive st j := by
  unfold isAlive
  rw [lookupObj_selectObj]

theorem selectObj_sel_mono (st : St) (i x : Nat) (h : x ∈ st.sel) :
    x ∈ (selectObj st i).sel := by
  unfold selectObj
  split
  · exact List.mem_append_left _ h
  · exact h

theorem selectObj_sel_self (st : St) (i : Nat) (h : isAlive st i = true) :
    i ∈ (selectObj st i).sel := by
  unfold selectObj
  split
  · exact List.mem_append_right _ (List.mem_singleton_self i)
  · rename_i hcond
    rw [not_and_or] at hcond
    rcases hcond with hc | hc
    · exact absurd h hc
    · exact not_not.mp hc

theorem selectObjs_objs (l : List Nat) : ∀ st, (selectObjs st l).objs = st.objs := by
  induction l with
  | nil => intro st; rfl
  | cons i rest ih =>
    intro st
    show (selectObjs (selectObj st i) rest).objs = st.objs
    rw [ih, selectObj_objs]

theorem selectObjs_nextId (l : List Nat) : ∀ st, (selectObjs st l).nextId = st.nextId := by
  induction l with
  | nil => intro st; rfl
  | cons i rest ih =>
    intro st
    show (selectObjs (selectObj st i) rest).nextId = st.nextId
    rw [ih, selectObj_nextId]

theorem selectObjs_dirs (l : List Nat) : ∀ st, (selectObjs st l).dirs = st.dirs := by
  induction l with
  | nil => intro st; rfl
  | cons i rest ih =>
    intro st
    show (selectObjs (selectObj st i) rest).dirs = st.dirs
    rw [ih, selectObj_dirs]

theorem selectObjs_evs (l : List Nat) : ∀ st, (selectObjs st l).evs = st.evs := by
  induction l with
  | nil => intro st; rfl
  | cons i rest ih =>
    intro st
    show (selectObjs (selectObj st i) rest).evs = st.evs
    rw [ih, selectObj_evs]

theorem lookupObj_selectObjs (l : List Nat) (st : St) (j : Nat) :
    lookupObj (selectObjs st l) j = lookupObj st j := by
  unfold lookupObj
  rw [selectObjs_objs]

theorem selectObjs_sel_mono (l : List Nat) :
    ∀ st x, x ∈ st.sel → x ∈ (selectObjs st l).sel := by
  induction l with
  | nil => intro st x h; exact h
  | cons i rest ih =>
    intro st x h
    exact ih (selectObj st i) x (selectObj_sel_mono st i x h)

theorem mem_selectObjs_sel (l : List Nat) :
    ∀ st i, i ∈ l → isAlive st i = true → i ∈ (selectObjs st l).sel := by
  induction l with
  | nil => intro st i h; exact absurd h (List.not_mem_nil i)
  | cons a rest ih =>
    intro st i h halive
    rcases List.mem_cons.mp h with he | hr
    · subst he
      exact selectObjs_sel_mono rest (selectObj st i) i (selectObj_sel_self st i halive)
    · exact ih (selectObj st a) i hr (by rw [isAlive_selectObj]; exact halive)

theorem selectObjs_sel_eq (l : List Nat) :
    ∀ st, l.Nodup → (∀ i ∈ l, isAlive st i = true) → (∀ i ∈ l, i ∉ st.sel) →
      (selectObjs st l).sel = st.sel ++ l := by
  induction l with
  | nil => intro st _ _ _; simp [selectObjs]
  | cons a rest ih =>
    intro st hnd halive hnotin
    have ha : isAlive st a = true := halive a (List.mem_cons_self a rest)
    have hna : a ∉ st.sel := hnotin a (List.mem_cons_self a rest)
    have hsel1 : (selectObj st a).sel = st.sel ++ [a] := by
      unfold selectObj
      rw [if_pos ⟨ha, hna⟩]
    show (selectObjs (selectObj st a) rest).sel = st.sel ++ a :: rest
    rw [ih (selectObj st a) (List.nodup_cons.mp hnd).2
      (fun i hi => by rw [isAlive_selectObj]; exact halive i (List.mem_cons_of_mem a hi))
      (fun i hi => by
        rw [hsel1]
        intro hmem
        rcases List.mem_append.mp hmem with hm | hm
        · exact hnotin i (List.mem_cons_of_mem a hi) hm
        · rw [List.mem_singleton.mp hm] at hi
          exact (List.nodup_cons.mp hnd).1 hi), hsel1]
    simp

theorem unselectAll_components (st : St) :
    (unselectAll st).objs = st.objs ∧ (unselectAll st).nextId = st.nextId ∧
    (unselectAll st).dirs = st.dirs ∧ (unselectAll st).evs = st.evs ∧
    (unselectAll st).sel = [] := ⟨rfl, rfl, rfl, rfl, rfl⟩

theorem lookupObj_unselectAll (st : St) (j : Nat) :
    lookupObj (unselectAll st) j = lookupObj st j := rfl

theorem deleteObjs_lookup (st : St) (l : List Nat) (j : Nat) :
    lookupObj (deleteObjs st l) j = if j ∈ l then none else lookupObj st j := by
  unfold lookupObj deleteObjs
  by_cases hj : j ∈ l
  · rw [if_pos hj]
    have hnone : (st.objs.filter (fun p => p.1 ∉ l)).find? (fun p => p.1 = j) = none := by
      apply List.find?_eq_none.mpr
      intro x hx
      have hxl := List.of_mem_filter hx
      simp only [decide_not, Bool.not_eq_true', decide_eq_false_iff_not] at hxl
      intro hcon
      exact hxl (by rw [show x.1 = j from by simpa using hcon]; exact hj)
    rw [hnone]
    rfl
  · rw [if_neg hj]
    congr 1
    induction st.objs with
    | nil => rfl
    | cons a t iht =>
      by_cases hal : a.1 ∈ l
      · have haj : ¬ a.1 = j := fun h => hj (h ▸ hal)
        rw [List.filter_cons_of_neg (by simpa using hal), List.find?_cons_of_neg _ (by simpa using haj)]
        exact iht
      · rw [List.filter_cons_of_pos (by simpa using hal)]
        by_cases haj : a.1 = j
        · rw [List.find?_cons_of_pos _ (by simpa using haj),
            List.find?_cons_of_pos _ (by simpa using haj)]
        · rw [List.find?_cons_of_neg _ (by simpa using haj),
            List.find?_cons_of_neg _ (by simpa using haj)]
          exact iht

theorem deleteObjs_sel (st : St) (l : List Nat) :
    (deleteObjs st l).sel = st.sel.filter (fun i => i ∉ l) := rfl

theorem deleteObjs_components (st : St) (l : List Nat) :
    (deleteObjs st l).nextId = st.nextId ∧ (deleteObjs st l).dirs = st.dirs ∧
    (deleteObjs st l).evs = st.evs := ⟨rfl, rfl, rfl⟩

theorem addObj_fst (st : St) (o : RObj) : (addObj st o).1 = st.nextId := rfl

theorem addObj_components (st : St) (o : RObj) :
    (addObj st o).2.nextId = st.nextId + 1 ∧ (addObj st o).2.sel = st.sel ∧
    (addObj st o).2.dirs = st.dirs ∧ (addObj st o).2.evs = st.evs := ⟨rfl, rfl, rfl, rfl⟩

theorem addObj_lookup_old (st : St) (o : RObj) (j : Nat) (hne : j ≠ st.nextId) :
    lookupObj (addObj st o).2 j = lookupObj st j := by
  unfold lookupObj addObj
  simp only [List.find?_append]
  cases hx : st.objs.find? (fun p => p.1 = j) with
  | some p => rfl
  | none =>
    simp only [Option.or]
    rw [List.find?_cons_of_neg _ (by simpa using fun h => hne h.symm)]
    rfl

theorem addObj_lookup_new (st : St) (o : RObj)
    (hwf : ∀ p ∈ st.objs, p.1 < st.nextId) :
    lookupObj (addObj st o).2 st.nextId = some o := by
  unfold lookupObj addObj
  simp only [List.find?_append]
  have hnone : st.objs.find? (fun p => p.1 = st.nextId) = none := by
    apply List.find?_eq_none.mpr
    intro x hx
    have := hwf x hx
    simp only [decide_eq_true_eq]
    omega
  rw [hnone]
  simp only [Option.or]
  rw [List.find?_cons_of_pos _ (by simp)]
  rfl

theorem emit_components (st : St) (e : Ev) :
    (emit st e).objs = st.objs ∧ (emit st e).nextId = st.nextId ∧
    (emit st e).sel = st.sel ∧ (emit st e).dirs = st.dirs ∧
    (emit st e).evs = st.evs ++ [e] := ⟨rfl, rfl, rfl, rfl, rfl⟩

theorem lookupObj_emit (st : St) (e : Ev) (j : Nat) :
    lookupObj (emit st e) j = lookupObj st j := rfl

theorem mapObj_components (st : St) (i : Nat) (f : RObj → RObj) :
    (mapObj st i f).nextId = st.nextId ∧ (mapObj st i f).sel = st.sel ∧
    (mapObj st i f).dirs = st.dirs ∧ (mapObj st i f).evs = st.evs :=
  ⟨rfl, rfl, rfl, rfl⟩

theorem objs_fst_mapObj (st : St) (i : Nat) (f : RObj → RObj) :
    (mapObj st i f).objs.map Prod.fst = st.objs.map Prod.fst := by
  unfold mapObj
  rw [List.map_map]
  apply List.map_congr_left
  intro p _
  by_cases hp : p.1 = i <;> simp [hp]

theorem objType_setName (st : St) (i : Nat) (s : String) (j : Nat) :
    objType (setName st i s) j = objType st j := by
  unfold objType setName
  rw [lookupObj_mapObj]
  by_cases hj : j = i
  · rw [if_pos hj]
    cases lookupObj st j <;> rfl
  · rw [if_neg hj]

theorem objType_setLayer (st : St) (i : Nat) (l : String) (j : Nat) :
    objType (setLayer st i l) j = objType st j := by
  unfold objType setLayer
  rw [lookupObj_mapObj]
  by_cases hj : j = i
  · rw [if_pos hj]
    cases lookupObj st j <;> rfl
  · rw [if_neg hj]

theorem isAlive_setLayer (st : St) (i : Nat) (l : String) (j : Nat) :
    isAlive (setLayer st i l) j = isAlive st j := isAlive_mapObj st i _ j

/-! Well-formedness preservation and specifications for the compound
operations. -/

theorem alive_lt_nextId (st : St) (h2 : ∀ p ∈ st.objs, p.1 < st.nextId) (i : Nat)
    (halive : isAlive st i = true) : i < st.nextId := by
  unfold isAlive lookupObj at halive
  cases hx : st.objs.find? (fun p => p.1 = i) with
  | none => rw [hx] at halive; exact absurd halive (by simp)
  | some p =>
    have hpi : p.1 = i := by simpa using List.find?_some hx
    have hmem := List.mem_of_find?_eq_some hx
    exact hpi ▸ h2 p hmem

theorem WFSt_bound_of_fst_eq (st st' : St)
    (hfst : st'.objs.map Prod.fst = st.objs.map Prod.fst)
    (hnid : st'.nextId = st.nextId) (h2 : ∀ p ∈ st.objs, p.1 < st.nextId) :
    ∀ p ∈ st'.objs, p.1 < st'.nextId := by
  intro p hp
  have hmem : p.1 ∈ st'.objs.map Prod.fst := List.mem_map_of_mem _ hp
  rw [hfst] at hmem
  obtain ⟨q, hq, hqp⟩ := List.mem_map.mp hmem
  rw [hnid, ← hqp]
  exact h2 q hq

theorem WFSt_mapObj (st : St) (i : Nat) (f : RObj → RObj) (h : WFSt st) :
    WFSt (mapObj st i f) := by
  obtain ⟨h1, h2, h3, h4⟩ := h
  refine ⟨?_, ?_, ?_, ?_⟩
  · rw [objs_fst_mapObj]; exact h1
  · exact WFSt_bound_of_fst_eq st (mapObj st i f) (objs_fst_mapObj st i f) rfl h2
  · exact h3
  · intro j hj
    rw [isAlive_mapObj]
    exact h4 j hj

theorem WFSt_setName (st : St) (i : Nat) (s : String) (h : WFSt st) :
    WFSt (setName st i s) := WFSt_mapObj st i _ h

theorem WFSt_setLayer (st : St) (i : Nat) (s : String) (h : WFSt st) :
    WFSt (setLayer st i s) := WFSt_mapObj st i _ h

theorem WFSt_selectObj (st : St) (i : Nat) (h : WFSt st) : WFSt (selectObj st i) := by
  obtain ⟨h1, h2, h3, h4⟩ := h
  unfold selectObj
  split
  · rename_i hcond
    refine ⟨h1, h2, ?_, ?_⟩
    · simp only [List.nodup_append, List.nodup_cons]
      exact ⟨h3, by simp, by intro a ha hb; rw [List.mem_singleton.mp hb] at ha; exact hcond.2 ha⟩
    · intro j hj
      rcases List.mem_append.mp hj with hm | hm
      · exact h4 j hm
      · rw [List.mem_singleton.mp hm]
        exact hcond.1
  · exact ⟨h1, h2, h3, h4⟩

theorem WFSt_selectObjs (l : List Nat) : ∀ st, WFSt st → WFSt (selectObjs st l) := by
  induction l with
  | nil => intro st h; exact h
  | cons i rest ih => intro st h; exact ih (selectObj st i) (WFSt_selectObj st i h)

theorem WFSt_unselectAll (st : St) (h : WFSt st) : WFSt (unselectAll st) := by
  obtain ⟨h1, h2, h3, h4⟩ := h
  exact ⟨h1, h2, by simp [unselectAll], by simp [unselectAll]⟩

theorem WFSt_deleteObjs (st : St) (l : List Nat) (h : WFSt st) : WFSt (deleteObjs st l) := by
  obtain ⟨h1, h2, h3, h4⟩ := h
  refine ⟨?_, ?_, ?_, ?_⟩
  · exact List.Nodup.sublist (List.Sublist.map _ (List.filter_sublist _)) h1
  · intro p hp
    exact h2 p (List.mem_of_mem_filter hp)
  · exact List.Nodup.filter _ h3
  · intro j hj
    rw [deleteObjs_sel] at hj
    have hjs := List.mem_of_mem_filter hj
    have hjl := List.of_mem_filter hj
    simp only [decide_not, Bool.not_eq_true', decide_eq_false_iff_not] at hjl
    unfold isAlive
    rw [deleteObjs_lookup, if_neg hjl]
    exact h4 j hjs

theorem WFSt_addObj (st : St) (o : RObj) (h : WFSt st) : WFSt (addObj st o).2 := by
  obtain ⟨h1, h2, h3, h4⟩ := h
  refine ⟨?_, ?_, h3, ?_⟩
  · show (st.objs ++ [(st.nextId, o)]).map Prod.fst |>.Nodup
    rw [List.map_append]
    simp only [List.map_cons, List.map_nil]
    rw [List.nodup_append]
    refine ⟨h1, by simp, ?_⟩
    intro a ha hb
    rw [List.mem_singleton.mp hb] at ha
    obtain ⟨q, hq, hqa⟩ := List.mem_map.mp ha
    have := h2 q hq
    omega
  · intro p hp
    rcases List.mem_append.mp hp with hm | hm
    · have := h2 p hm
      show p.1 < st.nextId + 1
      omega
    · rw [List.mem_singleton.mp hm]
      show st.nextId < st.nextId + 1
      omega
  · intro j hj
    have hja : isAlive st j = true := h4 j hj
    have hlt := alive_lt_nextId st h2 j hja
    unfold isAlive
    rw [addObj_lookup_old st o j (by omega)]
    exact hja

theorem WFSt_emit (st : St) (e : Ev) (h : WFSt st) : WFSt (emit st e) := by
  obtain ⟨h1, h2, h3, h4⟩ := h
  exact ⟨h1, h2, h3, h4⟩

theorem addObjsList_shape (parts : List RObj) : ∀ st : St,
    (addObjsList st parts).1 = List.range' st.nextId parts.length ∧
    (addObjsList st parts).2.nextId = st.nextId + parts.length ∧
    (addObjsList st parts).2.sel = st.sel ∧
    (addObjsList st parts).2.dirs = st.dirs ∧
    (addObjsList st parts).2.evs = st.evs := by
  induction parts with
  | nil => intro st; exact ⟨rfl, by simp [addObjsList], rfl, rfl, rfl⟩
  | cons o rest ih =>
    intro st
    obtain ⟨i1, i2, i3, i4, i5⟩ := ih (addObj st o).2
    refine ⟨?_, ?_, ?_, ?_, ?_⟩
    · show st.nextId :: (addObjsList (addObj st o).2 rest).1 = _
      rw [i1, List.length_cons, List.range'_succ]
      rfl
    · show (addObjsList (addObj st o).2 rest).2.nextId = _
      rw [i2]
      show st.nextId + 1 + rest.length = st.nextId + (rest.length + 1)
      omega
    · show (addObjsList (addObj st o).2 rest).2.sel = _
      rw [i3]
      rfl
    · show (addObjsList (addObj st o).2 rest).2.dirs = _
      rw [i4]
      rfl
    · show (addObjsList (addObj st o).2 rest).2.evs = _
      rw [i5]
      rfl

theorem addObjsList_lookup_old (parts : List RObj) : ∀ (st : St) (j : Nat),
    j < st.nextId →
    lookupObj (addObjsList st parts).2 j = lookupObj st j := by
  induction parts with
  | nil => intro st j _; rfl
  | cons o rest ih =>
    intro st j hj
    show lookupObj (addObjsList (addObj st o).2 rest).2 j = _
    rw [ih (addObj st o).2 j (by show j < st.nextId + 1; omega)]
    exact addObj_lookup_old st o j (by omega)

theorem WFSt_addObjsList (parts : List RObj) : ∀ st : St, WFSt st →
    WFSt (addObjsList st parts).2 := by
  induction parts with
  | nil => intro st h; exact h
  | cons o rest ih => intro st h; exact ih (addObj st o).2 (WFSt_addObj st o h)

theorem addObjsList_mem_lookup (parts : List RObj) : ∀ st : St,
    (∀ p ∈ st.objs, p.1 < st.nextId) →
    ∀ c ∈ parts, ∃ x, x ∈ (addObjsList st parts).1 ∧
      lookupObj (addObjsList st parts).2 x = some c := by
  induction parts with
  | nil => intro st _ c hc; exact absurd hc (List.not_mem_nil c)
  | cons o rest ih =>
    intro st hb c hc
    rcases List.mem_cons.mp hc with he | hr
    · refine ⟨st.nextId, List.mem_cons_self _ _, ?_⟩
      show lookupObj (addObjsList (addObj st o).2 rest).2 st.nextId = some c
      rw [addObjsList_lookup_old rest (addObj st o).2 st.nextId
        (by show st.nextId < st.nextId + 1; omega)]
      rw [addObj_lookup_new st o hb]
      rw [he]
    · have hb1 : ∀ p ∈ (addObj st o).2.objs, p.1 < (addObj st o).2.nextId := by
        intro p hp
        rcases List.mem_append.mp hp with hm | hm
        · have := hb p hm
          show p.1 < st.nextId + 1
          omega
        · rw [List.mem_singleton.mp hm]
          show st.nextId < st.nextId + 1
          omega
      obtain ⟨x, hx1, hx2⟩ := ih (addObj st o).2 hb1 c hr
      exact ⟨x, List.mem_cons_of_mem _ hx1, hx2⟩

theorem addObjsList_ids_alive (parts : List RObj) : ∀ st : St,
    (∀ p ∈ st.objs, p.1 < st.nextId) →
    ∀ x ∈ (addObjsList st parts).1, isAlive (addObjsList st parts).2 x = true := by
  induction parts with
  | nil => intro st _ x hx; exact absurd hx (List.not_mem_nil x)
  | cons o rest ih =>
    intro st hb x hx
    rcases List.mem_cons.mp hx with he | hr
    · subst he
      show isAlive (addObjsList (addObj st o).2 rest).2 st.nextId = true
      unfold isAlive
      rw [addObjsList_lookup_old rest (addObj st o).2 st.nextId
        (by show st.nextId < st.nextId + 1; omega)]
      rw [addObj_lookup_new st o hb]
      rfl
    · have hb1 : ∀ p ∈ (addObj st o).2.objs, p.1 < (addObj st o).2.nextId := by
        intro p hp
        rcases List.mem_append.mp hp with hm | hm
        · have := hb p hm
          show p.1 < st.nextId + 1
          omega
        · rw [List.mem_singleton.mp hm]
          show st.nextId < st.nextId + 1
          omega
      exact ih (addObj st o).2 hb1 x hr

theorem uniqueRename_frame (l : List Nat) : ∀ (m : NameMap) (st : St),
    (l.foldl uniqueRenameStep (m, st)).2.sel = st.sel ∧
    (l.foldl uniqueRenameStep (m, st)).2.evs = st.evs ∧
    (l.foldl uniqueRenameStep (m, st)).2.dirs = st.dirs ∧
    (l.foldl uniqueRenameStep (m, st)).2.nextId = st.nextId ∧
    (l.foldl uniqueRenameStep (m, st)).2.objs.map Prod.fst = st.objs.map Prod.fst ∧
    (∀ j, isAlive (l.foldl uniqueRenameStep (m, st)).2 j = isAlive st j) ∧
    (∀ j, objType (l.foldl uniqueRenameStep (m, st)).2 j = objType st j) := by
  induction l with
  | nil =>
    intro m st
    exact ⟨rfl, rfl, rfl, rfl, rfl, fun j => rfl, fun j => rfl⟩
  | cons i rest ih =>
    intro m st
    obtain ⟨k, _, _, hstep⟩ := uniqueRenameStep_shape m st i
    have hfold : (i :: rest).foldl uniqueRenameStep (m, st) =
        rest.foldl uniqueRenameStep (m ++ [(k, getName st i)], setName st i k) := by
      rw [List.foldl_cons, hstep]
    obtain ⟨i1, i2, i3, i4, i5, i6, i7⟩ := ih (m ++ [(k, getName st i)]) (setName st i k)
    rw [hfold]
    refine ⟨by rw [i1, sel_setName], by rw [i2]; rfl, by rw [i3]; rfl,
      by rw [i4]; rfl, by rw [i5]; exact objs_fst_mapObj st i _, ?_, ?_⟩
    · intro j
      rw [i6 j, isAlive_setName]
    · intro j
      rw [i7 j, objType_setName]

theorem WFSt_uniqueRename (l : List Nat) (m : NameMap) (st : St) (h : WFSt st) :
    WFSt (l.foldl uniqueRenameStep (m, st)).2 := by
  obtain ⟨h1, h2, h3, h4⟩ := h
  obtain ⟨i1, i2, i3, i4, i5, i6, i7⟩ := uniqueRename_frame l m st
  refine ⟨by rw [i5]; exact h1, ?_, by rw [i1]; exact h3, ?_⟩
  · exact WFSt_bound_of_fst_eq st _ i5 i4 h2
  · intro j hj
    rw [i1] at hj
    rw [i6 j]
    exact h4 j hj

theorem insertAndExplode_spec (D : Defs) (st : St) (block : String)
    (ids : List Nat) (st' : St)
    (h : insertAndExplode D st block = some (ids, st')) (hwf : WFSt st) :
    (∃ parts, (D.find? (fun p => p.1 = block)).map Prod.snd = some parts ∧
      ids.length = parts.length ∧
      (∀ c ∈ parts, ∃ x, x ∈ ids ∧ lookupObj st' x = some c)) ∧
    st'.sel = st.sel ∧ st'.dirs = st.dirs ∧ st'.evs = st.evs ∧
    st.nextId < st'.nextId ∧
    ids.Nodup ∧ (∀ x ∈ ids, st.nextId ≤ x ∧ x < st'.nextId) ∧
    (∀ x ∈ ids, isAlive st' x = true) ∧
    (∀ j, j < st.nextId → lookupObj st' j = lookupObj st j) ∧
    WFSt st' := by
  obtain ⟨h1, h2, h3, h4⟩ := hwf
  unfold insertAndExplode at h
  rcases hfind : (D.find? (fun p => p.1 = block)).map Prod.snd with _ | parts
  · rw [hfind] at h
    exact absurd h (by simp)
  rw [hfind] at h
  simp only [Option.bind_eq_bind, Option.some_bind] at h
  set st1 := (addObj st (insertedInstanceObj block)).2 with hst1
  have haddwf : WFSt st1 := WFSt_addObj st _ ⟨h1, h2, h3, h4⟩
  obtain ⟨a1, a2, a3, a4, a5⟩ := addObjsList_shape parts st1
  have hids : ids = (addObjsList st1 parts).1 ∧
      st' = deleteObjs (addObjsList st1 parts).2 [st.nextId] := by
    simp only [Option.pure_def, Option.some.injEq] at h
    exact ⟨(congrArg Prod.fst h.symm).symm.symm, (congrArg Prod.snd h.symm).symm.symm⟩
  obtain ⟨hids1, hids2⟩ := hids
  have hst1nid : st1.nextId = st.nextId + 1 := rfl
  have hb1 : ∀ p ∈ st1.objs, p.1 < st1.nextId := haddwf.2.1
  have hdelpres : ∀ j, j ≠ st.nextId →
      lookupObj st' j = lookupObj (addObjsList st1 parts).2 j := by
    intro j hj
    rw [hids2, deleteObjs_lookup]
    rw [if_neg (by simpa using hj)]
  refine ⟨⟨parts, hfind, ?_, ?_⟩, ?_, ?_, ?_, ?_, ?_, ?_, ?_, ?_, ?_⟩
  · rw [hids1, a1, List.length_range']
  · intro c hc
    obtain ⟨x, hx1, hx2⟩ := addObjsList_mem_lookup parts st1 hb1 c hc
    refine ⟨x, by rw [hids1]; exact hx1, ?_⟩
    have hxge : st.nextId + 1 ≤ x := by
      rw [a1] at hx1
      have := (List.mem_range'_1).mp hx1
      rw [hst1nid] at this
      omega
    rw [hdelpres x (by omega)]
    exact hx2
  · rw [hids2, deleteObjs_sel, a3]
    show st.sel.filter _ = st.sel
    apply List.filter_eq_self.mpr
    intro a ha
    have halive := h4 a ha
    have hlt := alive_lt_nextId st h2 a halive
    simp
    omega
  · rw [hids2]
    rw [(deleteObjs_components _ _).2.1, a4]
    rfl
  · rw [hids2]
    rw [(deleteObjs_components _ _).2.2, a5]
    rfl
  · rw [hids2, (deleteObjs_components _ _).1, a2, hst1nid]
    omega
  · rw [hids1, a1]
    exact List.nodup_range' _ _
  · intro x hx
    rw [hids1, a1] at hx
    have := (List.mem_range'_1).mp hx
    rw [hids2, (deleteObjs_components _ _).1, a2]
    rw [hst1nid] at this
    omega
  · intro x hx
    rw [hids1] at hx
    have halive := addObjsList_ids_alive parts st1 hb1 x hx
    have hxge : st.nextId + 1 ≤ x := by
      rw [a1] at hx
      have := (List.mem_range'_1).mp hx
      rw [hst1nid] at this
      omega
    unfold isAlive
    rw [hdelpres x (by omega)]
    exact halive
  · intro j hj
    rw [hdelpres j (by omega), addObjsList_lookup_old parts st1 j (by rw [hst1nid]; omega)]
    exact addObj_lookup_old st _ j (by omega)
  · rw [hids2]
    exact WFSt_deleteObjs _ _ (WFSt_addObjsList parts st1 haddwf)

theorem uniqueRename_untouched (l : List Nat) : ∀ (m : NameMap) (st : St) (j : Nat),
    j ∉ l → lookupObj (l.foldl uniqueRenameStep (m, st)).2 j = lookupObj st j := by
  induction l with
  | nil => intro m st j _; rfl
  | cons i rest ih =>
    intro m st j hj
    obtain ⟨k, _, _, hstep⟩ := uniqueRenameStep_shape m st i
    have hfold : (i :: rest).foldl uniqueRenameStep (m, st) =
        rest.foldl uniqueRenameStep (m ++ [(k, getName st i)], setName st i k) := by
      rw [List.foldl_cons, hstep]
    rw [hfold, ih _ _ j (fun hr => hj (List.mem_cons_of_mem i hr)),
      lookupObj_setName_other st i k j (fun he => hj (he ▸ List.mem_cons_self i rest))]

theorem UniqueRename_frame (st : St) (m : NameMap) :
    (UniqueRename st m).2.sel = st.sel ∧
    (UniqueRename st m).2.evs = st.evs ∧
    (UniqueRename st m).2.dirs = st.dirs ∧
    (UniqueRename st m).2.nextId = st.nextId ∧
    (UniqueRename st m).2.objs.map Prod.fst = st.objs.map Prod.fst ∧
    (∀ j, isAlive (UniqueRename st m).2 j = isAlive st j) ∧
    (∀ j, objType (UniqueRename st m).2 j = objType st j) :=
  uniqueRename_frame st.sel m st

theorem UniqueRename_untouched (st : St) (m : NameMap) (j : Nat) (hj : j ∉ st.sel) :
    lookupObj (UniqueRename st m).2 j = lookupObj st j :=
  uniqueRename_untouched st.sel m st j hj

theorem WFSt_UniqueRename (st : St) (m : NameMap) (h : WFSt st) :
    WFSt (UniqueRename st m).2 :=
  WFSt_uniqueRename st.sel m st h

theorem WFSt_setDirs (st : St) (d : List String) (h : WFSt st) :
    WFSt { st with dirs := d } := h

theorem lookupObj_setDirs (st : St) (d : List String) (j : Nat) :
    lookupObj { st with dirs := d } j = lookupObj st j := rfl

theorem LightLocation_spec (st : St) (i : Nat) (scale : ℚ) (p : Nat) (st' : St)
    (h : LightLocation st i scale = some (p, st')) (hwf : WFSt st) :
    p = st.nextId ∧ st'.nextId = st.nextId + 1 ∧ st'.sel = st.sel ∧
    st'.dirs = st.dirs ∧ st'.evs = st.evs ∧
    (∀ j, j < st.nextId → lookupObj st' j = lookupObj st j) ∧
    isAlive st' p = true ∧ WFSt st' := by
  unfold LightLocation at h
  rcases hlk : lookupObj st i with _ | o
  · rw [hlk] at h
    exact absurd h (by simp)
  rw [hlk] at h
  simp only [Option.bind_eq_bind, Option.some_bind] at h
  by_cases hbit : (o.otype &&& lightsExport) = 0
  · rw [if_pos hbit] at h
    exact absurd h (by simp)
  rw [if_neg hbit] at h
  rcases hnm : o.name with _ | n
  · rw [hnm] at h
    exact absurd h (by simp)
  rw [hnm] at h
  simp only [Option.some_bind, Option.pure_def, Option.some.injEq] at h
  have hp : p = st.nextId := (congrArg Prod.fst h).symm
  have hst' : st' = setLayer (setName (addObj st (meshObj none)).2 st.nextId
      (lightLabel o.lightKind ++ "=" ++ n)) st.nextId o.layer :=
    (congrArg Prod.snd h).symm
  subst hp
  have hb : ∀ q ∈ st.objs, q.1 < st.nextId := hwf.2.1
  refine ⟨rfl, ?_, ?_, ?_, ?_, ?_, ?_, ?_⟩
  · rw [hst']
    rfl
  · rw [hst']
    rfl
  · rw [hst']
    rfl
  · rw [hst']
    rfl
  · intro j hj
    rw [hst']
    show lookupObj (mapObj (mapObj (addObj st (meshObj none)).2 st.nextId _) st.nextId _) j = _
    rw [lookupObj_mapObj, if_neg (by omega), lookupObj_mapObj, if_neg (by omega)]
    exact addObj_lookup_old st _ j (by omega)
  · rw [hst']
    show isAlive (mapObj (mapObj _ st.nextId _) st.nextId _) st.nextId = true
    rw [isAlive_mapObj, isAlive_mapObj]
    unfold isAlive
    rw [addObj_lookup_new st _ hb]
    rfl
  · rw [hst']
    exact WFSt_setLayer _ _ _ (WFSt_setName _ _ _ (WFSt_addObj st _ hwf))

theorem BlockLocation_spec (st : St) (i : Nat) (scale : ℚ) (p : Nat) (st' : St)
    (h : BlockLocation st i scale = some (p, st')) (hwf : WFSt st) :
    p = st.nextId ∧ st'.nextId = st.nextId + 1 ∧ st'.sel = st.sel ∧
    st'.dirs = st.dirs ∧ st'.evs = st.evs ∧
    (∀ j, j < st.nextId → lookupObj st' j = lookupObj st j) ∧
    isAlive st' p = true ∧ WFSt st' := by
  unfold BlockLocation at h
  rcases hlk : lookupObj st i with _ | o
  · rw [hlk] at h
    exact absurd h (by simp)
  rw [hlk] at h
  simp only [Option.bind_eq_bind, Option.some_bind] at h
  rcases hnm : o.name with _ | n
  · rw [hnm] at h
    exact absurd h (by simp)
  rw [hnm] at h
  simp only [Option.some_bind, Option.pure_def, Option.some.injEq] at h
  have hp : p = st.nextId := (congrArg Prod.fst h).symm
  have hst' : st' = setLayer (setName
      (addObj st (meshObj (some (BlockLocationMesh o.xf scale)))).2 st.nextId
      (SafeObjectName (some o.block) ++ "=" ++ n)) st.nextId o.layer :=
    (congrArg Prod.snd h).symm
  subst hp
  have hb : ∀ q ∈ st.objs, q.1 < st.nextId := hwf.2.1
  refine ⟨rfl, ?_, ?_, ?_, ?_, ?_, ?_, ?_⟩
  · rw [hst']
    rfl
  · rw [hst']
    rfl
  · rw [hst']
    rfl
  · rw [hst']
    rfl
  · intro j hj
    rw [hst']
    show lookupObj (mapObj (mapObj (addObj st _).2 st.nextId _) st.nextId _) j = _
    rw [lookupObj_mapObj, if_neg (by omega), lookupObj_mapObj, if_neg (by omega)]
    exact addObj_lookup_old st _ j (by omega)
  · rw [hst']
    show isAlive (mapObj (mapObj _ st.nextId _) st.nextId _) st.nextId = true
    rw [isAlive_mapObj, isAlive_mapObj]
    unfold isAlive
    rw [addObj_lookup_new st _ hb]
    rfl
  · rw [hst']
    exact WFSt_setLayer _ _ _ (WFSt_setName _ _ _ (WFSt_addObj st _ hwf))

theorem alive_of_objType_bit (st : St) (i : Nat) (mask : Nat)
    (h : (objType st i &&& mask) ≠ 0) : isAlive st i = true := by
  unfold objType at h
  unfold isAlive
  cases hx : lookupObj st i with
  | none => rw [hx] at h; simp at h
  | some o => rfl

theorem lightsLoop_spec (scale : ℚ) (l : List Nat) :
    ∀ (st : St) (ph ph' : List Nat) (st' : St),
    lightsLoop scale l st ph = some (ph', st') → WFSt st →
    st.nextId ≤ st'.nextId ∧
    (∀ j, j < st.nextId → lookupObj st' j = lookupObj st j) ∧
    st'.dirs = st.dirs ∧ st'.evs = st.evs ∧ WFSt st' ∧
    (∀ x ∈ st.sel, x ∈ st'.sel) ∧
    (∀ i ∈ l, (objType st i &&& lightsExport) ≠ 0 → i ∈ st'.sel) ∧
    (PhOK st ph → PhOK st' ph') := by
  induction l with
  | nil =>
    intro st ph ph' st' h hwf
    have hh := Option.some.inj h
    have h1 : ph' = ph := (congrArg Prod.fst hh).symm
    have h2 : st' = st := (congrArg Prod.snd hh).symm
    subst h1
    subst h2
    exact ⟨le_rfl, fun j _ => rfl, rfl, rfl, hwf, fun x hx => hx,
      fun i hi => absurd hi (List.not_mem_nil i), id⟩
  | cons i rest ih =>
    intro st ph ph' st' h hwf
    unfold lightsLoop at h
    by_cases hbit : (objType st i &&& lightsExport) != 0
    · rw [if_pos hbit] at h
      simp only [Option.bind_eq_bind] at h
      rcases hll : LightLocation (selectObj st i) i scale with _ | pr
      · rw [hll] at h
        exact absurd h (by simp)
      obtain ⟨p, st2⟩ := pr
      rw [hll] at h
      simp only [Option.some_bind] at h
      have hwf1 : WFSt (selectObj st i) := WFSt_selectObj st i hwf
      obtain ⟨hp, hn2, hsel2, hdirs2, hevs2, hlk2, halivep, hwf2⟩ :=
        LightLocation_spec (selectObj st i) i scale p st2 hll hwf1
      have hwf3 : WFSt (selectObj st2 p) := WFSt_selectObj st2 p hwf2
      obtain ⟨j1, j2, j3, j4, j5, j6, j7, j8⟩ :=
        ih (selectObj st2 p) (ph ++ [p]) ph' st' h hwf3
      have hnx1 : (selectObj st i).nextId = st.nextId := selectObj_nextId st i
      have hnx3 : (selectObj st2 p).nextId = st2.nextId := selectObj_nextId st2 p
      have hlk03 : ∀ j, j < st.nextId →
          lookupObj (selectObj st2 p) j = lookupObj st j := by
        intro j hj
        rw [lookupObj_selectObj, hlk2 j (by omega), lookupObj_selectObj]
      refine ⟨?_, ?_, ?_, ?_, j5, ?_, ?_, ?_⟩
      · omega
      · intro j hj
        rw [j2 j (by omega), hlk03 j hj]
      · rw [j3, selectObj_dirs, hdirs2, selectObj_dirs]
      · rw [j4, selectObj_evs, hevs2, selectObj_evs]
      · intro x hx
        apply j6
        apply selectObj_sel_mono
        rw [hsel2]
        exact selectObj_sel_mono st i x hx
      · intro i' hi' hbit'
        rcases List.mem_cons.mp hi' with he | hr
        · subst he
          apply j6
          apply selectObj_sel_mono
          rw [hsel2]
          exact selectObj_sel_self st i'
            (alive_of_objType_bit st i' lightsExport hbit')
        · apply j7 i' hr
          unfold objType
          rw [hlk03 i' ?hlt]
          · exact hbit'
          · exact alive_lt_nextId st hwf.2.1 i'
              (alive_of_objType_bit st i' lightsExport hbit')
      · intro hph
        apply j8
        obtain ⟨hnd, hb⟩ := hph
        constructor
        · rw [List.nodup_append]
          refine ⟨hnd, by simp, ?_⟩
          intro a ha hpa
          rw [List.mem_singleton.mp hpa] at ha
          have := (hb p ha).2
          rw [hp, selectObj_nextId] at this
          omega
        · intro x hx
          rcases List.mem_append.mp hx with hm | hm
          · obtain ⟨hal, hlt⟩ := hb x hm
            rw [selectObj_nextId] at hp
            constructor
            · unfold isAlive
              rw [lookupObj_selectObj, hlk2 x (by omega), lookupObj_selectObj]
              exact hal
            · rw [hnx3]
              omega
          · rw [List.mem_singleton.mp hm]
            constructor
            · rw [isAlive_selectObj]
              exact halivep
            · rw [hnx3]
              rw [selectObj_nextId] at hp
              omega
    · rw [if_neg hbit] at h
      obtain ⟨j1, j2, j3, j4, j5, j6, j7, j8⟩ := ih st ph ph' st' h hwf
      refine ⟨j1, j2, j3, j4, j5, j6, ?_, j8⟩
      intro i' hi' hbit'
      rcases List.mem_cons.mp hi' with he | hr
      · subst he
        exact absurd (by simpa using hbit') hbit
      · exact j7 i' hr hbit'

theorem selectByType_components (l : List Nat) : ∀ (st : St) (mask : Nat),
    (selectByType l st mask).objs = st.objs ∧
    (selectByType l st mask).nextId = st.nextId ∧
    (selectByType l st mask).dirs = st.dirs ∧
    (selectByType l st mask).evs = st.evs := by
  induction l with
  | nil => intro st mask; exact ⟨rfl, rfl, rfl, rfl⟩
  | cons i rest ih =>
    intro st mask
    obtain ⟨i1, i2, i3, i4⟩ := ih (if (objType st i &&& mask) != 0 then selectObj st i
      else st) mask
    have e1 : (if (objType st i &&& mask) != 0 then selectObj st i else st).objs =
        st.objs := by
      split
      · rw [selectObj_objs]
      · rfl
    have e2 : (if (objType st i &&& mask) != 0 then selectObj st i else st).nextId =
        st.nextId := by
      split
      · rw [selectObj_nextId]
      · rfl
    have e3 : (if (objType st i &&& mask) != 0 then selectObj st i else st).dirs =
        st.dirs := by
      split
      · rw [selectObj_dirs]
      · rfl
    have e4 : (if (objType st i &&& mask) != 0 then selectObj st i else st).evs =
        st.evs := by
      split
      · rw [selectObj_evs]
      · rfl
    exact ⟨i1.trans e1, i2.trans e2, i3.trans e3, i4.trans e4⟩

theorem WFSt_selectByType (l : List Nat) : ∀ (st : St) (mask : Nat), WFSt st →
    WFSt (selectByType l st mask) := by
  induction l with
  | nil => intro st mask h; exact h
  | cons i rest ih =>
    intro st mask h
    show WFSt (selectByType rest _ mask)
    apply ih
    split
    · exact WFSt_selectObj st i h
    · exact h

theorem selectByType_sel_mono (l : List Nat) : ∀ (st : St) (mask : Nat) (x : Nat),
    x ∈ st.sel → x ∈ (selectByType l st mask).sel := by
  induction l with
  | nil => intro st mask x hx; exact hx
  | cons i rest ih =>
    intro st mask x hx
    show x ∈ (selectByType rest _ mask).sel
    apply ih
    split
    · exact selectObj_sel_mono st i x hx
    · exact hx

theorem mem_selectByType_sel (l : List Nat) : ∀ (st : St) (mask : Nat) (i : Nat),
    i ∈ l → (objType st i &&& mask) ≠ 0 → i ∈ (selectByType l st mask).sel := by
  induction l with
  | nil => intro st mask i hi; exact absurd hi (List.not_mem_nil i)
  | cons a rest ih =>
    intro st mask i hi hbit
    rcases List.mem_cons.mp hi with he | hr
    · subst he
      show i ∈ (selectByType rest _ mask).sel
      apply selectByType_sel_mono
      rw [if_pos (by simpa using hbit)]
      exact selectObj_sel_self st i (alive_of_objType_bit st i mask hbit)
    · show i ∈ (selectByType rest _ mask).sel
      apply ih _ mask i hr
      split
      · rw [show objType (selectObj st a) i = objType st i from by
          unfold objType; rw [lookupObj_selectObj]]
        exact hbit
      · exact hbit

theorem evsExt_trans (s0 s1 s2 : St) (h1 : ∃ E, s1.evs = s0.evs ++ E)
    (h2 : ∃ E, s2.evs = s1.evs ++ E) : ∃ E, s2.evs = s0.evs ++ E := by
  obtain ⟨E1, he1⟩ := h1
  obtain ⟨E2, he2⟩ := h2
  exact ⟨E1 ++ E2, by rw [he2, he1, List.append_assoc]⟩

theorem instSeenFor_append (d : String) (E1 E2 : List Ev) :
    instSeenFor d (E1 ++ E2) = instSeenFor d E1 ++ instSeenFor d E2 := by
  unfold instSeenFor
  rw [List.filterMap_append]

theorem placesFor_append (d : String) (E1 E2 : List Ev) :
    placesFor d (E1 ++ E2) = placesFor d E1 ++ placesFor d E2 := by
  unfold placesFor
  rw [List.filterMap_append]

theorem instSeenNames_append (E1 E2 : List Ev) :
    instSeenNames (E1 ++ E2) = instSeenNames E1 ++ instSeenNames E2 := by
  unfold instSeenNames
  rw [List.filterMap_append]

theorem countMkdirOk_append (p : String) (E1 E2 : List Ev) :
    countMkdirOk p (E1 ++ E2) = countMkdirOk p E1 + countMkdirOk p E2 := by
  unfold countMkdirOk
  rw [List.countP_append]

theorem countBlockExport_append (d : String) (E1 E2 : List Ev) :
    countBlockExport d (E1 ++ E2) =
      countBlockExport d E1 + countBlockExport d E2 := by
  unfold countBlockExport
  rw [List.countP_append]

theorem SafeInjOn_append (d : String) (E1 E2 : List Ev)
    (h : SafeInjOn d (E1 ++ E2)) : SafeInjOn d E1 ∧ SafeInjOn d E2 := by
  constructor
  · intro b hb hs
    exact h b (by rw [instSeenNames_append]; exact List.mem_append_left _ hb) hs
  · intro b hb hs
    exact h b (by rw [instSeenNames_append]; exact List.mem_append_right _ hb) hs

/-- The per-definition segment invariant composes over consecutive trace
segments. -/
theorem SegInv_comp (d : String) (scale : ℚ) (path : String)
    (d0 d1 d2 : List String) (E1 E2 : List Ev)
    (h1 : SegInv d scale path d0 d1 E1) (h2 : SegInv d scale path d1 d2 E2) :
    SegInv d scale path d0 d2 (E1 ++ E2) := by
  intro hinj
  obtain ⟨hinj1, hinj2⟩ := SafeInjOn_append d E1 E2 hinj
  obtain ⟨p1, m1, n1⟩ := h1 hinj1
  obtain ⟨p2, m2, n2⟩ := h2 hinj2
  refine ⟨?_, ?_, ?_⟩
  · rw [placesFor_append, instSeenFor_append, List.map_append]
    exact List.Perm.append p1 p2
  · intro hd
    obtain ⟨c1, b1, hd1⟩ := m1 hd
    obtain ⟨c2, b2, hd2⟩ := m2 hd1
    refine ⟨?_, ?_, hd2⟩
    · rw [countMkdirOk_append, c1, c2]
    · rw [countBlockExport_append, b1, b2]
  · intro hd
    rcases n1 hd with ⟨hin1, c1, b1, ne1⟩ | ⟨hout1, c1, b1, e1⟩
    · obtain ⟨c2, b2, hd2⟩ := m2 hin1
      refine Or.inl ⟨hd2, ?_, ?_, ?_⟩
      · rw [countMkdirOk_append, c1, c2]
      · rw [countBlockExport_append, b1, b2]
      · rw [instSeenFor_append]
        intro hcon
        exact ne1 (List.append_eq_nil.mp hcon).1
    · rcases n2 hout1 with ⟨hin2, c2, b2, ne2⟩ | ⟨hout2, c2, b2, e2⟩
      · refine Or.inl ⟨hin2, ?_, ?_, ?_⟩
        · rw [countMkdirOk_append, c1, c2]
        · rw [countBlockExport_append, b1, b2]
        · rw [instSeenFor_append]
          intro hcon
          exact ne2 (List.append_eq_nil.mp hcon).2
      · refine Or.inr ⟨hout2, ?_, ?_, ?_⟩
        · rw [countMkdirOk_append, c1, c2]
        · rw [countBlockExport_append, b1, b2]
        · rw [instSeenFor_append, e1, e2]
          rfl

/-- A trace segment consisting only of file exports is neutral for the
per-definition invariant. -/
theorem SegInv_exportFiles (d : String) (scale : ℚ) (path : String)
    (dirs : List String) (E : List Ev)
    (hE : ∀ e ∈ E, ∃ q, e = Ev.exportFile q) :
    SegInv d scale path dirs dirs E := by
  have hi : instSeenFor d E = [] := by
    unfold instSeenFor
    apply List.filterMap_eq_nil.mpr
    intro e he
    obtain ⟨q, rfl⟩ := hE e he
    rfl
  have hp : placesFor d E = [] := by
    unfold placesFor
    apply List.filterMap_eq_nil.mpr
    intro e he
    obtain ⟨q, rfl⟩ := hE e he
    rfl
  have hc : countMkdirOk (joinPath path (SafeObjectName (some d))) E = 0 := by
    unfold countMkdirOk
    apply List.countP_eq_zero.mpr
    intro e he
    obtain ⟨q, rfl⟩ := hE e he
    simp
  have hb : countBlockExport d E = 0 := by
    unfold countBlockExport
    apply List.countP_eq_zero.mpr
    intro e he
    obtain ⟨q, rfl⟩ := hE e he
    simp
  intro _
  refine ⟨?_, ?_, ?_⟩
  · rw [hp, hi]
    exact List.Perm.refl _
  · intro hd
    exact ⟨hc, hb, hd⟩
  · intro hd
    exact Or.inr ⟨hd, hc, hb, hi⟩

/-- Sanitized block paths of distinct names under the same root are
distinct. -/
theorem joinPath_right_inj (p a b : String) (h : joinPath p a = joinPath p b) :
    a = b := by
  have h1 : (p ++ "/").data ++ a.data = (p ++ "/").data ++ b.data :=
    congrArg String.data h
  have h2 : a.data = b.data := List.append_cancel_left h1
  cases a
  cases b
  exact congrArg String.mk h2

/-- The segment of an instance whose block directory already exists:
`instSeen`, failed `mkdir`, placeholder.  Directories are unchanged. -/
theorem SegInv_instFail (d : String) (scale : ℚ) (path : String)
    (dirs : List String) (bd : String) (xf : Xform)
    (hmem : joinPath path (SafeObjectName (some bd)) ∈ dirs) :
    SegInv d scale path dirs dirs
      [Ev.instSeen bd xf, Ev.mkdirFail (joinPath path (SafeObjectName (some bd))),
       Ev.place bd xf (BlockLocationMesh xf scale)] := by
  intro _
  by_cases hbd : bd = d
  · subst hbd
    refine ⟨?_, ?_, ?_⟩
    · have h1 : placesFor bd [Ev.instSeen bd xf,
          Ev.mkdirFail (joinPath path (SafeObjectName (some bd))),
          Ev.place bd xf (BlockLocationMesh xf scale)] =
          [(xf, BlockLocationMesh xf scale)] := by
        simp [placesFor]
      have h2 : instSeenFor bd [Ev.instSeen bd xf,
          Ev.mkdirFail (joinPath path (SafeObjectName (some bd))),
          Ev.place bd xf (BlockLocationMesh xf scale)] = [xf] := by
        simp [instSeenFor]
      rw [h1, h2]
      exact List.Perm.refl _
    · intro hd
      refine ⟨?_, ?_, hd⟩
      · simp [countMkdirOk]
      · simp [countBlockExport]
    · intro hd
      exact absurd hmem hd
  · refine ⟨?_, ?_, ?_⟩
    · have h1 : placesFor d [Ev.instSeen bd xf,
          Ev.mkdirFail (joinPath path (SafeObjectName (some bd))),
          Ev.place bd xf (BlockLocationMesh xf scale)] = [] := by
        simp [placesFor, hbd]
      have h2 : instSeenFor d [Ev.instSeen bd xf,
          Ev.mkdirFail (joinPath path (SafeObjectName (some bd))),
          Ev.place bd xf (BlockLocationMesh xf scale)] = [] := by
        simp [instSeenFor, hbd]
      rw [h1, h2]
      exact List.Perm.refl _
    · intro hd
      refine ⟨?_, ?_, hd⟩
      · simp [countMkdirOk]
      · simp [countBlockExport]
    · intro hd
      refine Or.inr ⟨hd, ?_, ?_, ?_⟩
      · simp [countMkdirOk]
      · simp [countBlockExport]
      · simp [instSeenFor, hbd]

/-- The segment of the first processed instance of a block: directory
created, recursive export run (inner segment `Er`), one placeholder.
Covers both `d` itself and unrelated definitions. -/
theorem SegInv_mkdirExport (d : String) (scale : ℚ) (path : String)
    (dirs dirsG : List String) (bd : String) (xf : Xform) (Er : List Ev)
    (hdir : joinPath path (SafeObjectName (some bd)) ∉ dirs)
    (hseg : SegInv d scale path
      (dirs ++ [joinPath path (SafeObjectName (some bd))]) dirsG Er) :
    SegInv d scale path dirs dirsG
      ([Ev.instSeen bd xf, Ev.mkdirOk (joinPath path (SafeObjectName (some bd))),
        Ev.blockExport bd] ++ Er ++
       [Ev.place bd xf (BlockLocationMesh xf scale)]) := by
  intro hinj
  obtain ⟨hinj1, hinjB⟩ := SafeInjOn_append d _ _ hinj
  obtain ⟨hinjA, hinjr⟩ := SafeInjOn_append d _ _ hinj1
  obtain ⟨pr, mr, nr⟩ := hseg hinjr
  by_cases hbd : bd = d
  · subst hbd
    have hiA : instSeenFor bd [Ev.instSeen bd xf,
        Ev.mkdirOk (joinPath path (SafeObjectName (some bd))),
        Ev.blockExport bd] = [xf] := by simp [instSeenFor]
    have hpA : placesFor bd [Ev.instSeen bd xf,
        Ev.mkdirOk (joinPath path (SafeObjectName (some bd))),
        Ev.blockExport bd] = [] := by simp [placesFor]
    have hcA : countMkdirOk (joinPath path (SafeObjectName (some bd)))
        [Ev.instSeen bd xf,
         Ev.mkdirOk (joinPath path (SafeObjectName (some bd))),
         Ev.blockExport bd] = 1 := by simp [countMkdirOk]
    have hbA : countBlockExport bd [Ev.instSeen bd xf,
        Ev.mkdirOk (joinPath path (SafeObjectName (some bd))),
        Ev.blockExport bd] = 1 := by simp [countBlockExport]
    have hiB : instSeenFor bd
        [Ev.place bd xf (BlockLocationMesh xf scale)] = [] := by
      simp [instSeenFor]
    have hpB : placesFor bd [Ev.place bd xf (BlockLocationMesh xf scale)] =
        [(xf, BlockLocationMesh xf scale)] := by simp [placesFor]
    have hcB : countMkdirOk (joinPath path (SafeObjectName (some bd)))
        [Ev.place bd xf (BlockLocationMesh xf scale)] = 0 := by
      simp [countMkdirOk]
    have hbB : countBlockExport bd
        [Ev.place bd xf (BlockLocationMesh xf scale)] = 0 := by
      simp [countBlockExport]
    have hdmem : joinPath path (SafeObjectName (some bd)) ∈
        dirs ++ [joinPath path (SafeObjectName (some bd))] :=
      List.mem_append_right _ (List.mem_singleton.mpr rfl)
    obtain ⟨cr, br, hG⟩ := mr hdmem
    refine ⟨?_, ?_, ?_⟩
    · rw [placesFor_append, placesFor_append, instSeenFor_append,
        instSeenFor_append, List.map_append, List.map_append, hpA, hpB, hiA, hiB]
      simp only [List.nil_append, List.append_nil, List.map_cons, List.map_nil,
        List.cons_append]
      exact (List.perm_append_comm).trans (pr.cons _)
    · intro hd
      exact absurd hd hdir
    · intro hd
      refine Or.inl ⟨hG, ?_, ?_, ?_⟩
      · rw [countMkdirOk_append, countMkdirOk_append, hcA, hcB, cr]
      · rw [countBlockExport_append, countBlockExport_append, hbA, hbB, br]
      · rw [instSeenFor_append, instSeenFor_append, hiA, hiB]
        simp
  · have hsanne : SafeObjectName (some bd) ≠ SafeObjectName (some d) := by
      intro hsan
      apply hbd
      apply hinj bd _ hsan
      rw [instSeenNames_append, instSeenNames_append]
      apply List.mem_append_left
      apply List.mem_append_left
      simp [instSeenNames]
    have hbpne : joinPath path (SafeObjectName (some bd)) ≠
        joinPath path (SafeObjectName (some d)) := by
      intro hcon
      exact hsanne (joinPath_right_inj path _ _ hcon)
    have hiA : instSeenFor d [Ev.instSeen bd xf,
        Ev.mkdirOk (joinPath path (SafeObjectName (some bd))),
        Ev.blockExport bd] = [] := by simp [instSeenFor, hbd]
    have hpA : placesFor d [Ev.instSeen bd xf,
        Ev.mkdirOk (joinPath path (SafeObjectName (some bd))),
        Ev.blockExport bd] = [] := by simp [placesFor]
    have hcA : countMkdirOk (joinPath path (SafeObjectName (some d)))
        [Ev.instSeen bd xf,
         Ev.mkdirOk (joinPath path (SafeObjectName (some bd))),
         Ev.blockExport bd] = 0 := by simp [countMkdirOk, hbpne]
    have hbA : countBlockExport d [Ev.instSeen bd xf,
        Ev.mkdirOk (joinPath path (SafeObjectName (some bd))),
        Ev.blockExport bd] = 0 := by simp [countBlockExport, hbd]
    have hiB : instSeenFor d
        [Ev.place bd xf (BlockLocationMesh xf scale)] = [] := by
      simp [instSeenFor]
    have hpB : placesFor d [Ev.place bd xf (BlockLocationMesh xf scale)] =
        [] := by simp [placesFor, hbd]
    have hcB : countMkdirOk (joinPath path (SafeObjectName (some d)))
        [Ev.place bd xf (BlockLocationMesh xf scale)] = 0 := by
      simp [countMkdirOk]
    have hbB : countBlockExport d
        [Ev.place bd xf (BlockLocationMesh xf scale)] = 0 := by
      simp [countBlockExport]
    have hnotin2 : joinPath path (SafeObjectName (some d)) ∉ dirs →
        joinPath path (SafeObjectName (some d)) ∉
          dirs ++ [joinPath path (SafeObjectName (some bd))] := by
      intro hnd hcon
      rcases List.mem_append.mp hcon with hm | hm
      · exact hnd hm
      · exact hbpne (List.mem_singleton.mp hm).symm
    refine ⟨?_, ?_, ?_⟩
    · rw [placesFor_append, placesFor_append, instSeenFor_append,
        instSeenFor_append, List.map_append, List.map_append, hpA, hpB, hiA, hiB]
      simp only [List.nil_append, List.append_nil, List.map_nil]
      exact pr
    · intro hd
      obtain ⟨cr, br, hG⟩ := mr (List.mem_append_left _ hd)
      refine ⟨?_, ?_, hG⟩
      · rw [countMkdirOk_append, countMkdirOk_append, hcA, hcB, cr]
      · rw [countBlockExport_append, countBlockExport_append, hbA, hbB, br]
    · intro hd
      rcases nr (hnotin2 hd) with ⟨hG, cr, br, ner⟩ | ⟨hnG, cr, br, er⟩
      · refine Or.inl ⟨hG, ?_, ?_, ?_⟩
        · rw [countMkdirOk_append, countMkdirOk_append, hcA, hcB, cr]
        · rw [countBlockExport_append, countBlockExport_append, hbA, hbB, br]
        · rw [instSeenFor_append, instSeenFor_append, hiA, hiB]
          simpa using ner
      · refine Or.inr ⟨hnG, ?_, ?_, ?_⟩
        · rw [countMkdirOk_append, countMkdirOk_append, hcA, hcB, cr]
        · rw [countBlockExport_append, countBlockExport_append, hbA, hbB, br]
        · rw [instSeenFor_append, instSeenFor_append, hiA, hiB, er]
          rfl

/-- The segment of the first processed instance of an empty block other
than `d`: directory created, recursive export runs and exports nothing,
directory removed again. -/
theorem SegInv_mkdirRmdir (d : String) (scale : ℚ) (path : String)
    (dirs dirsG : List String) (bd : String) (xf : Xform) (Er : List Ev)
    (hbd : bd ≠ d)
    (hdir : joinPath path (SafeObjectName (some bd)) ∉ dirs)
    (hseg : SegInv d scale path
      (dirs ++ [joinPath path (SafeObjectName (some bd))]) dirsG Er) :
    SegInv d scale path dirs
      (dirsG.filter (fun q => q ≠ joinPath path (SafeObjectName (some bd))))
      ([Ev.instSeen bd xf, Ev.mkdirOk (joinPath path (SafeObjectName (some bd))),
        Ev.blockExport bd] ++ Er ++
       [Ev.rmdir (joinPath path (SafeObjectName (some bd)))]) := by
  intro hinj
  obtain ⟨hinj1, hinjB⟩ := SafeInjOn_append d _ _ hinj
  obtain ⟨hinjA, hinjr⟩ := SafeInjOn_append d _ _ hinj1
  obtain ⟨pr, mr, nr⟩ := hseg hinjr
  have hsanne : SafeObjectName (some bd) ≠ SafeObjectName (some d) := by
    intro hsan
    apply hbd
    apply hinj bd _ hsan
    rw [instSeenNames_append, instSeenNames_append]
    apply List.mem_append_left
    apply List.mem_append_left
    simp [instSeenNames]
  have hbpne : joinPath path (SafeObjectName (some bd)) ≠
      joinPath path (SafeObjectName (some d)) := by
    intro hcon
    exact hsanne (joinPath_right_inj path _ _ hcon)
  have hiA : instSeenFor d [Ev.instSeen bd xf,
      Ev.mkdirOk (joinPath path (SafeObjectName (some bd))),
      Ev.blockExport bd] = [] := by simp [instSeenFor, hbd]
  have hpA : placesFor d [Ev.instSeen bd xf,
      Ev.mkdirOk (joinPath path (SafeObjectName (some bd))),
      Ev.blockExport bd] = [] := by simp [placesFor]
  have hcA : countMkdirOk (joinPath path (SafeObjectName (some d)))
      [Ev.instSeen bd xf,
       Ev.mkdirOk (joinPath path (SafeObjectName (some bd))),
       Ev.blockExport bd] = 0 := by simp [countMkdirOk, hbpne]
  have hbA : countBlockExport d [Ev.instSeen bd xf,
      Ev.mkdirOk (joinPath path (SafeObjectName (some bd))),
      Ev.blockExport bd] = 0 := by simp [countBlockExport, hbd]
  have hiB : instSeenFor d
      [Ev.rmdir (joinPath path (SafeObjectName (some bd)))] = [] := by
    simp [instSeenFor]
  have hpB : placesFor d
      [Ev.rmdir (joinPath path (SafeObjectName (some bd)))] = [] := by
    simp [placesFor]
  have hcB : countMkdirOk (joinPath path (SafeObjectName (some d)))
      [Ev.rmdir (joinPath path (SafeObjectName (some bd)))] = 0 := by
    simp [countMkdirOk]
  have hbB : countBlockExport d
      [Ev.rmdir (joinPath path (SafeObjectName (some bd)))] = 0 := by
    simp [countBlockExport]
  have hnotin2 : joinPath path (SafeObjectName (some d)) ∉ dirs →
      joinPath path (SafeObjectName (some d)) ∉
        dirs ++ [joinPath path (SafeObjectName (some bd))] := by
    intro hnd hcon
    rcases List.mem_append.mp hcon with hm | hm
    · exact hnd hm
    · exact hbpne (List.mem_singleton.mp hm).symm
  have hfiltmem : joinPath path (SafeObjectName (some d)) ∈ dirsG →
      joinPath path (SafeObjectName (some d)) ∈
        dirsG.filter (fun q => q ≠ joinPath path (SafeObjectName (some bd))) := by
    intro hg
    apply List.mem_filter.mpr
    refine ⟨hg, ?_⟩
    simpa using fun hcon => hbpne hcon.symm
  have hfiltnot : joinPath path (SafeObjectName (some d)) ∉ dirsG →
      joinPath path (SafeObjectName (some d)) ∉
        dirsG.filter (fun q => q ≠ joinPath path (SafeObjectName (some bd))) := by
    intro hng hcon
    exact hng (List.mem_of_mem_filter hcon)
  refine ⟨?_, ?_, ?_⟩
  · rw [placesFor_append, placesFor_append, instSeenFor_append,
      instSeenFor_append, List.map_append, List.map_append, hpA, hpB, hiA, hiB]
    simp only [List.nil_append, List.append_nil, List.map_nil]
    exact pr
  · intro hd
    obtain ⟨cr, br, hG⟩ := mr (List.mem_append_left _ hd)
    refine ⟨?_, ?_, hfiltmem hG⟩
    · rw [countMkdirOk_append, countMkdirOk_append, hcA, hcB, cr]
    · rw [countBlockExport_append, countBlockExport_append, hbA, hbB, br]
  · intro hd
    rcases nr (hnotin2 hd) with ⟨hG, cr, br, ner⟩ | ⟨hnG, cr, br, er⟩
    · refine Or.inl ⟨hfiltmem hG, ?_, ?_, ?_⟩
      · rw [countMkdirOk_append, countMkdirOk_append, hcA, hcB, cr]
      · rw [countBlockExport_append, countBlockExport_append, hbA, hbB, br]
      · rw [instSeenFor_append, instSeenFor_append, hiA, hiB]
        simpa using ner
    · refine Or.inr ⟨hfiltnot hnG, ?_, ?_, ?_⟩
      · rw [countMkdirOk_append, countMkdirOk_append, hcA, hcB, cr]
      · rw [countBlockExport_append, countBlockExport_append, hbA, hbB, br]
      · rw [instSeenFor_append, instSeenFor_append, hiA, hiB, er]
        rfl

/-- Frame lemma for the blocks pass: assuming the recursive call
preserves the frame (induction hypothesis over fuel), one `blocksLoop`
run preserves pre-existing objects and directories, keeps the selection
empty, appends to the trace, and accumulates well-formed placeholder
ids. -/
theorem blocksLoop_frame (rec : String → String → St → Option (Bool × St)) (D : Defs)
    (scale : ℚ) (path : String)
    (hrec : ∀ pa na stq b stq', rec pa na stq = some (b, stq') → WFSt stq →
      stq.nextId ≤ stq'.nextId ∧
      (∀ j, j < stq.nextId → lookupObj stq' j = lookupObj stq j) ∧
      (∀ q ∈ stq.dirs, q ∈ stq'.dirs) ∧ (∃ E, stq'.evs = stq.evs ++ E) ∧
      WFSt stq' ∧ stq'.sel = stq.sel ∧
      ((∃ i ∈ stq.sel, (objType stq i &&& directMask) ≠ 0) → b = true) ∧
      (∀ d, goodDef D d → ∃ E, stq'.evs = stq.evs ++ E ∧
        SegInv d scale pa stq.dirs stq'.dirs E)) :
    ∀ (l : List Nat) (st : St) (ph ph' : List Nat) (st' : St),
      blocksLoop rec D scale path l st ph = some (ph', st') →
      WFSt st → st.sel = [] → PhOK st ph →
      st.nextId ≤ st'.nextId ∧
      (∀ j, j < st.nextId → lookupObj st' j = lookupObj st j) ∧
      (∀ q ∈ st.dirs, q ∈ st'.dirs) ∧ (∃ E, st'.evs = st.evs ++ E) ∧
      WFSt st' ∧ st'.sel = [] ∧ PhOK st' ph' ∧
      (∀ x ∈ ph', x ∈ ph ∨ st.nextId ≤ x) ∧
      (∀ d, goodDef D d → ∃ E, st'.evs = st.evs ++ E ∧
        SegInv d scale path st.dirs st'.dirs E) := by
  intro l
  induction l with
  | nil =>
    intro st ph ph' st' h hwf hsel hph
    have hh := Option.some.inj h
    have h1 : ph' = ph := (congrArg Prod.fst hh).symm
    have h2 : st' = st := (congrArg Prod.snd hh).symm
    subst h1
    subst h2
    exact ⟨le_rfl, fun j _ => rfl, fun q hq => hq, ⟨[], by simp⟩, hwf, hsel, hph,
      fun x hx => Or.inl hx,
      fun d _ => ⟨[], by simp,
        SegInv_exportFiles _ _ _ _ []
          (fun e he => absurd he (List.not_mem_nil e))⟩⟩
  | cons i rest ih =>
    intro st ph ph' st' h hwf hsel hph
    unfold blocksLoop at h
    by_cases hbit : (objType st i &&& blocksExport) != 0
    · rw [if_pos hbit] at h
      simp only [Option.bind_eq_bind] at h
      rcases hlk : lookupObj st i with _ | o
      · rw [hlk] at h
        exact absurd h (by simp)
      rw [hlk] at h
      simp only [Option.some_bind] at h
      by_cases hdir : joinPath path (SafeObjectName (some o.block)) ∈ st.dirs
      · -- the directory exists: OSError, placeholder only
        have hdir' : joinPath path (SafeObjectName (some o.block)) ∈
            (emit st (Ev.instSeen o.block o.xf)).dirs := hdir
        rw [if_pos hdir'] at h
        rcases hbl : BlockLocation
            (emit (emit st (Ev.instSeen o.block o.xf))
              (Ev.mkdirFail (joinPath path (SafeObjectName (some o.block))))) i scale
            with _ | pr
        · rw [hbl] at h
          exact absurd h (by simp)
        obtain ⟨p, st2⟩ := pr
        rw [hbl] at h
        simp only [Option.some_bind] at h
        have hwfB : WFSt (emit (emit st (Ev.instSeen o.block o.xf))
            (Ev.mkdirFail (joinPath path (SafeObjectName (some o.block))))) :=
          WFSt_emit _ _ (WFSt_emit _ _ hwf)
        obtain ⟨hp, hn2, hsel2, hdirs2, hevs2, hlk2, halivep, hwf2⟩ :=
          BlockLocation_spec _ i scale p st2 hbl hwfB
        have hn2' : st2.nextId = st.nextId + 1 := hn2
        have hp' : p = st.nextId := hp
        have hwfJ : WFSt (emit st2
            (Ev.place o.block o.xf (BlockLocationMesh o.xf scale))) :=
          WFSt_emit _ _ hwf2
        have hphJ : PhOK (emit st2
            (Ev.place o.block o.xf (BlockLocationMesh o.xf scale))) (ph ++ [p]) := by
          obtain ⟨hnd, hb⟩ := hph
          constructor
          · rw [List.nodup_append]
            refine ⟨hnd, by simp, ?_⟩
            intro a ha hpa
            rw [List.mem_singleton.mp hpa] at ha
            have := (hb p ha).2
            rw [hp] at this
            exact absurd this (by show ¬ st.nextId < st.nextId; omega)
          · intro x hx
            rcases List.mem_append.mp hx with hm | hm
            · obtain ⟨hal, hlt⟩ := hb x hm
              refine ⟨?_, ?_⟩
              · show isAlive st2 x = true
                unfold isAlive
                rw [hlk2 x hlt]
                exact hal
              · show x < st2.nextId
                rw [hn2']
                omega
            · rw [List.mem_singleton.mp hm]
              exact ⟨halivep, by show p < st2.nextId; rw [hn2', hp']; omega⟩
        obtain ⟨j1, j2, j3, j4, j5, j6, j7, j8, j9⟩ :=
          ih (emit st2 (Ev.place o.block o.xf (BlockLocationMesh o.xf scale)))
            (ph ++ [p]) ph' st' h hwfJ (by rw [(emit_components _ _).2.2.1, hsel2]; exact hsel)
            hphJ
        have hJevsEq : (emit st2
            (Ev.place o.block o.xf (BlockLocationMesh o.xf scale))).evs
            = st.evs ++ [Ev.instSeen o.block o.xf,
              Ev.mkdirFail (joinPath path (SafeObjectName (some o.block))),
              Ev.place o.block o.xf (BlockLocationMesh o.xf scale)] := by
          rw [(emit_components _ _).2.2.2.2, hevs2]
          show (st.evs ++ [Ev.instSeen o.block o.xf]) ++ [Ev.mkdirFail _] ++ [Ev.place _ _ _] = _
          simp
        have hJdirsEq : (emit st2
            (Ev.place o.block o.xf (BlockLocationMesh o.xf scale))).dirs
            = st.dirs := by
          rw [(emit_components _ _).2.2.2.1, hdirs2]
          exact rfl
        refine ⟨?_, ?_, ?_, ?_, j5, j6, j7, ?_, ?_⟩
        · have hJn : (emit st2
              (Ev.place o.block o.xf (BlockLocationMesh o.xf scale))).nextId
              = st2.nextId := rfl
          rw [hJn] at j1
          omega
        · intro j hj
          have hJn : (emit st2
              (Ev.place o.block o.xf (BlockLocationMesh o.xf scale))).nextId
              = st2.nextId := rfl
          rw [j2 j (by rw [hJn, hn2']; omega)]
          show lookupObj st2 j = _
          rw [hlk2 j hj]
          rfl
        · intro q hq
          apply j3
          rw [(emit_components _ _).2.2.2.1, hdirs2]
          exact hq
        · apply evsExt_trans st
            (emit st2 (Ev.place o.block o.xf (BlockLocationMesh o.xf scale))) st' _ j4
          refine ⟨[Ev.instSeen o.block o.xf,
            Ev.mkdirFail (joinPath path (SafeObjectName (some o.block))),
            Ev.place o.block o.xf (BlockLocationMesh o.xf scale)], ?_⟩
          rw [(emit_components _ _).2.2.2.2, hevs2]
          show (st.evs ++ [Ev.instSeen o.block o.xf]) ++ [Ev.mkdirFail _] ++ [Ev.place _ _ _] = _
          simp
        · intro x hx
          rcases j8 x hx with hm | hm
          · rcases List.mem_append.mp hm with hm2 | hm2
            · exact Or.inl hm2
            · rw [List.mem_singleton.mp hm2, hp']
              exact Or.inr le_rfl
          · refine Or.inr ?_
            have hJn : (emit st2
                (Ev.place o.block o.xf (BlockLocationMesh o.xf scale))).nextId
                = st2.nextId := rfl
            rw [hJn, hn2'] at hm
            omega
        · intro d hgood
          obtain ⟨Erest, hevrest, hsegrest⟩ := j9 d hgood
          rw [hJdirsEq] at hsegrest
          refine ⟨[Ev.instSeen o.block o.xf,
            Ev.mkdirFail (joinPath path (SafeObjectName (some o.block))),
            Ev.place o.block o.xf (BlockLocationMesh o.xf scale)] ++ Erest, ?_, ?_⟩
          · rw [hevrest, hJevsEq]
            simp
          · exact SegInv_comp d scale path st.dirs st.dirs st'.dirs _ _
              (SegInv_instFail d scale path st.dirs o.block o.xf hdir) hsegrest
      · -- create the directory and export the block
        have hdir' : ¬ joinPath path (SafeObjectName (some o.block)) ∈
            (emit st (Ev.instSeen o.block o.xf)).dirs := hdir
        rw [if_neg hdir'] at h
        rcases hie : insertAndExplode D
            (emit { emit st (Ev.instSeen o.block o.xf) with
              dirs := (emit st (Ev.instSeen o.block o.xf)).dirs ++
                [joinPath path (SafeObjectName (some o.block))] }
              (Ev.mkdirOk (joinPath path (SafeObjectName (some o.block))))) o.block
            with _ | pr
        · rw [hie] at h
          exact absurd h (by simp)
        obtain ⟨parts, stC⟩ := pr
        rw [hie] at h
        simp only [Option.some_bind] at h
        set stB : St := emit { emit st (Ev.instSeen o.block o.xf) with
          dirs := (emit st (Ev.instSeen o.block o.xf)).dirs ++
            [joinPath path (SafeObjectName (some o.block))] }
          (Ev.mkdirOk (joinPath path (SafeObjectName (some o.block)))) with hstB
        have hwfB : WFSt stB := WFSt_emit _ _ (WFSt_setDirs _ _ (WFSt_emit _ _ hwf))
        have hBnid : stB.nextId = st.nextId := rfl
        have hBsel : stB.sel = [] := hsel
        have hBevs : stB.evs = st.evs ++ [Ev.instSeen o.block o.xf,
            Ev.mkdirOk (joinPath path (SafeObjectName (some o.block)))] := by
          show (st.evs ++ [Ev.instSeen o.block o.xf]) ++ [Ev.mkdirOk _] = _
          simp
        have hBdirs : stB.dirs =
            st.dirs ++ [joinPath path (SafeObjectName (some o.block))] := rfl
        obtain ⟨⟨partsL, hfind, hlen, hmemlk⟩, hselC, hdirsC, hevsC, hnidC, hndC,
          hbndC, haliveC, hlkC, hwfC⟩ := insertAndExplode_spec D stB o.block parts stC hie hwfB
        have hCsel : stC.sel = [] := by rw [hselC, hBsel]
        have hDsel : (selectObjs stC parts).sel = parts := by
          rw [selectObjs_sel_eq parts stC hndC
            (fun x hx => haliveC x hx)
            (fun x hx => by rw [hCsel]; exact List.not_mem_nil x), hCsel]
          rfl
        obtain ⟨u1, u2, u3, u4, u5, u6, u7⟩ :=
          UniqueRename_frame (selectObjs stC parts) []
        have hwfE : WFSt (UniqueRename (selectObjs stC parts) []).2 :=
          WFSt_UniqueRename _ _ (WFSt_selectObjs parts stC hwfC)
        set stE : St := (UniqueRename (selectObjs stC parts) []).2 with hstE
        set stF : St := emit stE (Ev.blockExport o.block) with hstF
        have hwfF : WFSt stF := WFSt_emit _ _ hwfE
        have hFnid : stF.nextId = stC.nextId := by
          show stE.nextId = stC.nextId
          rw [u4, selectObjs_nextId]
        have hFsel : stF.sel = parts := by
          show stE.sel = parts
          rw [u1, hDsel]
        have hFpres : ∀ j, j < st.nextId → lookupObj stF j = lookupObj st j := by
          intro j hj
          show lookupObj stE j = _
          rw [UniqueRename_untouched (selectObjs stC parts) [] j
            (by rw [hDsel]; intro hjp; have := (hbndC j hjp).1; rw [hBnid] at this; omega)]
          rw [lookupObj_selectObjs, hlkC j (by rw [hBnid]; omega)]
          rfl
        rcases hrc : rec path (joinPath (SafeObjectName (some o.block))
            (SafeObjectName (some o.block))) stF with _ | pr2
        · rw [hrc] at h
          exact absurd h (by simp)
        obtain ⟨done, stG⟩ := pr2
        rw [hrc] at h
        simp only [Option.some_bind] at h
        have hFevs : stF.evs = st.evs ++ [Ev.instSeen o.block o.xf,
            Ev.mkdirOk (joinPath path (SafeObjectName (some o.block))),
            Ev.blockExport o.block] := by
          show stE.evs ++ [Ev.blockExport o.block] = _
          rw [u2, selectObjs_evs, hevsC, hBevs]
          simp
        have hFdirs : stF.dirs =
            st.dirs ++ [joinPath path (SafeObjectName (some o.block))] := by
          show stE.dirs = _
          rw [u3, selectObjs_dirs, hdirsC, hBdirs]
        obtain ⟨hr1, hr2, hr3, hr4, hr5, hr6, hr7, hr8⟩ := hrec _ _ _ _ _ hrc hwfF
        set stH : St := deleteObjs stG parts with hstH
        have hwfH : WFSt stH := WFSt_deleteObjs _ _ hr5
        have hHsel : stH.sel = [] := by
          show stG.sel.filter _ = []
          rw [hr6, hFsel]
          apply List.filter_eq_nil.mpr
          intro a ha
          simp only [decide_not, Bool.not_eq_true', decide_eq_false_iff_not, not_not]
          simpa using ha
        have hHnid : stH.nextId = stG.nextId := rfl
        have hCgt : st.nextId < stC.nextId := by
          rw [hBnid] at hnidC
          exact hnidC
        have hHpres : ∀ j, j < st.nextId → lookupObj stH j = lookupObj st j := by
          intro j hj
          show lookupObj (deleteObjs stG parts) j = _
          rw [deleteObjs_lookup, if_neg
            (fun hjp => by have hge := (hbndC j hjp).1; rw [hBnid] at hge; omega)]
          rw [hr2 j (by rw [hFnid]; omega), hFpres j hj]
        have hHgt : st.nextId < stH.nextId := by
          show st.nextId < stG.nextId
          rw [hFnid] at hr1
          omega
        have hHdirs : ∀ q ∈ st.dirs, q ∈ stH.dirs := by
          intro q hq
          show q ∈ stG.dirs
          apply hr3
          show q ∈ stE.dirs
          rw [u3, selectObjs_dirs, hdirsC, hBdirs]
          exact List.mem_append_left _ hq
        have hHevs : ∃ E, stH.evs = st.evs ++ E := by
          apply evsExt_trans st stF stH
          · refine ⟨[Ev.instSeen o.block o.xf,
              Ev.mkdirOk (joinPath path (SafeObjectName (some o.block))),
              Ev.blockExport o.block], ?_⟩
            show stE.evs ++ [Ev.blockExport o.block] = _
            rw [u2, selectObjs_evs, hevsC, hBevs]
            simp
          · exact evsExt_trans stF stG stH hr4
              ⟨[], by rw [List.append_nil]; exact (deleteObjs_components stG parts).2.2⟩
        cases done with
        | true =>
          rw [if_pos (rfl : (true : Bool) = true)] at h
          rcases hbl : BlockLocation stH i scale with _ | pr3
          · rw [hbl] at h
            exact absurd h (by simp)
          obtain ⟨p, stI⟩ := pr3
          rw [hbl] at h
          simp only [Option.some_bind] at h
          obtain ⟨hpI, hnI, hselI, hdirsI, hevsI, hlkI, halivepI, hwfI⟩ :=
            BlockLocation_spec stH i scale p stI hbl hwfH
          set stJ : St := emit stI (Ev.place o.block o.xf (BlockLocationMesh o.xf scale))
            with hstJ
          have hwfJ : WFSt stJ := WFSt_emit _ _ hwfI
          have hJpres : ∀ j, j < st.nextId → lookupObj stJ j = lookupObj st j := by
            intro j hj
            show lookupObj stI j = _
            rw [hlkI j (by omega), hHpres j hj]
          have hselJ : stJ.sel = [] := by
            show stI.sel = []
            rw [hselI, hHsel]
          have hphJ : PhOK stJ (ph ++ [p]) := by
            obtain ⟨hnd, hb⟩ := hph
            constructor
            · rw [List.nodup_append]
              refine ⟨hnd, by simp, ?_⟩
              intro a ha hpa
              rw [List.mem_singleton.mp hpa] at ha
              have hlt := (hb p ha).2
              rw [hpI] at hlt
              omega
            · intro x hx
              rcases List.mem_append.mp hx with hm | hm
              · obtain ⟨hal, hlt⟩ := hb x hm
                refine ⟨?_, ?_⟩
                · show isAlive stI x = true
                  unfold isAlive
                  rw [hlkI x (by omega), hHpres x hlt]
                  exact hal
                · show x < stI.nextId
                  rw [hnI]
                  omega
              · rw [List.mem_singleton.mp hm]
                refine ⟨halivepI, ?_⟩
                show p < stI.nextId
                rw [hnI, hpI]
                omega
          obtain ⟨j1, j2, j3, j4, j5, j6, j7, j8, j9⟩ :=
            ih stJ (ph ++ [p]) ph' st' h hwfJ hselJ hphJ
          refine ⟨?_, ?_, ?_, ?_, j5, j6, j7, ?_, ?_⟩
          · have : stJ.nextId = stH.nextId + 1 := hnI
            omega
          · intro j hj
            rw [j2 j (by have : stJ.nextId = stH.nextId + 1 := hnI; omega)]
            exact hJpres j hj
          · intro q hq
            apply j3
            show q ∈ stI.dirs
            rw [hdirsI]
            exact hHdirs q hq
          · apply evsExt_trans st stJ st' _ j4
            apply evsExt_trans st stI stJ
            · apply evsExt_trans st stH stI hHevs
              exact ⟨[], by rw [hevsI, List.append_nil]⟩
            · exact ⟨[Ev.place o.block o.xf (BlockLocationMesh o.xf scale)], rfl⟩
          · intro x hx
            rcases j8 x hx with hm | hm
            · rcases List.mem_append.mp hm with hm2 | hm2
              · exact Or.inl hm2
              · rw [List.mem_singleton.mp hm2, hpI]
                exact Or.inr (le_of_lt hHgt)
            · refine Or.inr ?_
              have hJn : stJ.nextId = stH.nextId + 1 := hnI
              omega
          · intro d hgood
            obtain ⟨Er, hevr, hsegr⟩ := hr8 d hgood
            obtain ⟨Erest, hevrest, hsegrest⟩ := j9 d hgood
            have hHevs2 : stH.evs = stF.evs ++ Er := hevr
            have hJevsEq : stJ.evs = st.evs ++
                ([Ev.instSeen o.block o.xf,
                  Ev.mkdirOk (joinPath path (SafeObjectName (some o.block))),
                  Ev.blockExport o.block] ++ Er ++
                 [Ev.place o.block o.xf (BlockLocationMesh o.xf scale)]) := by
              show stI.evs ++
                [Ev.place o.block o.xf (BlockLocationMesh o.xf scale)] = _
              rw [hevsI, hHevs2, hFevs]
              simp
            have hsegr' : SegInv d scale path
                (st.dirs ++ [joinPath path (SafeObjectName (some o.block))])
                stG.dirs Er := by
              rw [← hFdirs]
              exact hsegr
            have hbig := SegInv_mkdirExport d scale path st.dirs stG.dirs
              o.block o.xf Er hdir hsegr'
            have hJdirsEq : stJ.dirs = stG.dirs := by
              show stI.dirs = _
              rw [hdirsI]
              exact rfl
            rw [hJdirsEq] at hsegrest
            refine ⟨_ ++ Erest, ?_,
              SegInv_comp d scale path st.dirs stG.dirs st'.dirs _ _
                hbig hsegrest⟩
            rw [hevrest, hJevsEq]
            simp
        | false =>
          rw [if_neg (by simp)] at h
          set stK : St := emit { stH with dirs := stH.dirs.filter (fun q => q ≠ joinPath path (SafeObjectName (some o.block))) } (Ev.rmdir (joinPath path (SafeObjectName (some o.block)))) with hstK
          have hwfK : WFSt stK := WFSt_emit _ _ (WFSt_setDirs _ _ hwfH)
          have hKpres : ∀ j, j < st.nextId → lookupObj stK j = lookupObj st j := by
            intro j hj
            show lookupObj stH j = _
            exact hHpres j hj
          have hselK : stK.sel = [] := hHsel
          have hKnid : stK.nextId = stH.nextId := rfl
          have hphK : PhOK stK ph := by
            obtain ⟨hnd, hb⟩ := hph
            refine ⟨hnd, ?_⟩
            intro x hx
            obtain ⟨hal, hlt⟩ := hb x hx
            refine ⟨?_, ?_⟩
            · unfold isAlive
              rw [hKpres x hlt]
              exact hal
            · rw [hKnid]
              omega
          obtain ⟨j1, j2, j3, j4, j5, j6, j7, j8, j9⟩ :=
            ih stK ph ph' st' h hwfK hselK hphK
          refine ⟨?_, ?_, ?_, ?_, j5, j6, j7, ?_, ?_⟩
          · rw [hKnid] at j1
            omega
          · intro j hj
            rw [j2 j (by rw [hKnid]; omega)]
            exact hKpres j hj
          · intro q hq
            apply j3
            show q ∈ stH.dirs.filter
              (fun q => q ≠ joinPath path (SafeObjectName (some o.block)))
            apply List.mem_filter.mpr
            refine ⟨hHdirs q hq, ?_⟩
            have hne : q ≠ joinPath path (SafeObjectName (some o.block)) := by
              intro hcon
              rw [hcon] at hq
              exact hdir hq
            simpa using hne
          · apply evsExt_trans st stK st' _ j4
            apply evsExt_trans st stH stK hHevs
            exact ⟨[Ev.rmdir (joinPath path (SafeObjectName (some o.block)))], rfl⟩
          · intro x hx
            rcases j8 x hx with hm | hm
            · exact Or.inl hm
            · refine Or.inr ?_
              rw [hKnid] at hm
              omega
          · intro d hgood
            have hbdne : o.block ≠ d := by
              intro he
              subst he
              obtain ⟨partsL', hfind', c, hcmem, hcbit⟩ := hgood
              have hpl : partsL' = partsL :=
                Option.some.inj (hfind'.symm.trans hfind)
              subst hpl
              obtain ⟨x, hxparts, hxlk⟩ := hmemlk c hcmem
              have hxtype : objType stF x = c.otype := by
                show objType stE x = _
                rw [u7, show objType (selectObjs stC parts) x = objType stC x from by
                  unfold objType; rw [lookupObj_selectObjs]]
                unfold objType
                rw [hxlk]
                exact rfl
              have hcon := hr7 ⟨x, by rw [hFsel]; exact hxparts,
                by rw [hxtype]; exact hcbit⟩
              exact absurd hcon (by simp)
            obtain ⟨Er, hevr, hsegr⟩ := hr8 d hgood
            obtain ⟨Erest, hevrest, hsegrest⟩ := j9 d hgood
            have hKevsEq : stK.evs = st.evs ++
                ([Ev.instSeen o.block o.xf,
                  Ev.mkdirOk (joinPath path (SafeObjectName (some o.block))),
                  Ev.blockExport o.block] ++ Er ++
                 [Ev.rmdir (joinPath path (SafeObjectName (some o.block)))]) := by
              show stH.evs ++
                [Ev.rmdir (joinPath path (SafeObjectName (some o.block)))] = _
              rw [show stH.evs = stF.evs ++ Er from hevr, hFevs]
              simp
            have hsegr' : SegInv d scale path
                (st.dirs ++ [joinPath path (SafeObjectName (some o.block))])
                stG.dirs Er := by
              rw [← hFdirs]
              exact hsegr
            have hbig := SegInv_mkdirRmdir d scale path st.dirs stG.dirs
              o.block o.xf Er hbdne hdir hsegr'
            have hKdirsEq : stK.dirs = stG.dirs.filter
                (fun q => q ≠ joinPath path (SafeObjectName (some o.block))) := rfl
            rw [hKdirsEq] at hsegrest
            refine ⟨_ ++ Erest, ?_,
              SegInv_comp d scale path st.dirs
                (stG.dirs.filter
                  (fun q => q ≠ joinPath path (SafeObjectName (some o.block))))
                st'.dirs _ _ hbig hsegrest⟩
            rw [hevrest, hKevsEq]
            simp
    · rw [if_neg hbit] at h
      exact ih st ph ph' st' h hwf hsel hph

/-- Placeholders returned by the lights loop are either inherited from the
accumulator or have fresh ids, at least the starting `nextId`. -/
theorem lightsLoop_ph_lower (scale : ℚ) (l : List Nat) :
    ∀ (st : St) (ph ph' : List Nat) (st' : St),
    lightsLoop scale l st ph = some (ph', st') → WFSt st →
    ∀ x ∈ ph', x ∈ ph ∨ st.nextId ≤ x := by
  induction l with
  | nil =>
    intro st ph ph' st' h _ x hx
    have hh := Option.some.inj h
    have h1 : ph' = ph := (congrArg Prod.fst hh).symm
    subst h1
    exact Or.inl hx
  | cons i rest ih =>
    intro st ph ph' st' h hwf x hx
    unfold lightsLoop at h
    by_cases hbit : (objType st i &&& lightsExport) != 0
    · rw [if_pos hbit] at h
      simp only [Option.bind_eq_bind] at h
      rcases hll : LightLocation (selectObj st i) i scale with _ | pr
      · rw [hll] at h
        exact absurd h (by simp)
      obtain ⟨p, stL⟩ := pr
      rw [hll] at h
      simp only [Option.some_bind] at h
      have hwfS : WFSt (selectObj st i) := WFSt_selectObj st i hwf
      obtain ⟨hp, hn, _, _, _, _, _, hwfL⟩ :=
        LightLocation_spec (selectObj st i) i scale p stL hll hwfS
      have hp' : p = st.nextId := by rw [hp, selectObj_nextId]
      have hn' : stL.nextId = st.nextId + 1 := by rw [hn, selectObj_nextId]
      rcases ih (selectObj stL p) (ph ++ [p]) ph' st' h
        (WFSt_selectObj stL p hwfL) x hx with hm | hm
      · rcases List.mem_append.mp hm with hm2 | hm2
        · exact Or.inl hm2
        · rw [List.mem_singleton.mp hm2, hp']
          exact Or.inr le_rfl
      · refine Or.inr ?_
        rw [selectObj_nextId, hn'] at hm
        omega
    · rw [if_neg hbit] at h
      exact ih st ph ph' st' h hwf x hx

/-- Selecting an object adds at most that object to the selection. -/
theorem selectObj_sel_subset (st : St) (i x : Nat)
    (h : x ∈ (selectObj st i).sel) : x ∈ st.sel ∨ x = i := by
  unfold selectObj at h
  by_cases hc : isAlive st i = true ∧ i ∉ st.sel
  · rw [if_pos hc] at h
    rcases List.mem_append.mp h with hm | hm
    · exact Or.inl hm
    · exact Or.inr (List.mem_singleton.mp hm)
  · rw [if_neg hc] at h
    exact Or.inl h

/-- Selecting a list of objects adds at most those objects. -/
theorem selectObjs_sel_subset (l : List Nat) :
    ∀ st x, x ∈ (selectObjs st l).sel → x ∈ st.sel ∨ x ∈ l := by
  induction l with
  | nil => intro st x h; exact Or.inl h
  | cons i rest ih =>
    intro st x h
    rcases ih (selectObj st i) x h with hm | hm
    · rcases selectObj_sel_subset st i x hm with h2 | h2
      · exact Or.inl h2
      · exact Or.inr (by rw [h2]; exact List.mem_cons_self i rest)
    · exact Or.inr (List.mem_cons_of_mem i hm)

/-- Frame lemma for a completed `ExportSelected` run: ids are stable, the
trace only grows, directories persist, well-formedness is kept and the
selection is restored to its starting value. -/
theorem ExportSelectedF_frame (D : Defs) : ∀ (fuel : Nat) (scale : ℚ)
    (path name : String) (st : St) (b : Bool) (st' : St),
    ExportSelectedF D fuel scale path name st = some (b, st') → WFSt st →
    st.nextId ≤ st'.nextId ∧
    (∀ j, j < st.nextId → lookupObj st' j = lookupObj st j) ∧
    (∀ q ∈ st.dirs, q ∈ st'.dirs) ∧ (∃ E, st'.evs = st.evs ++ E) ∧
    WFSt st' ∧ st'.sel = st.sel ∧
    ((∃ i ∈ st.sel, (objType st i &&& directMask) ≠ 0) → b = true) ∧
    (∀ d, goodDef D d → ∃ E, st'.evs = st.evs ++ E ∧
      SegInv d scale path st.dirs st'.dirs E) := by
  intro fuel
  induction fuel with
  | zero =>
    intro scale path name st b st' h
    exact absurd h (by simp [ExportSelectedF])
  | succ fuel ih =>
    intro scale path name st b st' h hwf
    unfold ExportSelectedF at h
    simp only [Option.bind_eq_bind] at h
    rcases hl1 : lightsLoop scale st.sel (unselectAll st) [] with _ | pr1
    · rw [hl1] at h
      exact absurd h (by simp)
    obtain ⟨ph1, st1⟩ := pr1
    rw [hl1] at h
    simp only [Option.some_bind] at h
    obtain ⟨l1, l2, l3, l4, l5, _, l7, _⟩ :=
      lightsLoop_spec scale st.sel (unselectAll st) [] ph1 st1 hl1
        (WFSt_unselectAll st hwf)
    have l1' : st.nextId ≤ st1.nextId := l1
    have hph1low : ∀ x ∈ ph1, x ∈ ([] : List Nat) ∨ st.nextId ≤ x :=
      lightsLoop_ph_lower scale st.sel (unselectAll st) [] ph1 st1 hl1
        (WFSt_unselectAll st hwf)
    set st2 : St := (if st1.sel.length > 0 then
        (true, deleteObjs (ExportModel st1 path (name ++ ".lights")) ph1)
      else (false, st1)).2 with hst2
    have h2nid : st2.nextId = st1.nextId := by
      rw [hst2]; split <;> rfl
    have h2dirs : st2.dirs = st1.dirs := by
      rw [hst2]; split <;> rfl
    have h2evsE : ∃ E, st2.evs = st1.evs ++ E ∧
        ∀ e ∈ E, ∃ q, e = Ev.exportFile q := by
      rw [hst2]; split
      · exact ⟨[Ev.exportFile (joinPath path (name ++ ".lights"))], rfl,
          fun e he => ⟨joinPath path (name ++ ".lights"),
            List.mem_singleton.mp he⟩⟩
      · exact ⟨[], by simp, fun e he => absurd he (List.not_mem_nil e)⟩
    obtain ⟨E2, h2evs, h2evsF⟩ := h2evsE
    have h2wf : WFSt st2 := by
      rw [hst2]; split
      · exact WFSt_deleteObjs _ _ (WFSt_emit _ _ l5)
      · exact l5
    have h2pres : ∀ j, j < st.nextId → lookupObj st2 j = lookupObj st1 j := by
      intro j hj
      rw [hst2]; split
      · show lookupObj (deleteObjs (ExportModel st1 path (name ++ ".lights")) ph1) j = _
        have hnot : j ∉ ph1 := by
          intro hjp
          rcases hph1low j hjp with hm | hm
          · exact absurd hm (List.not_mem_nil j)
          · omega
        rw [deleteObjs_lookup, if_neg hnot]
        rfl
      · rfl
    set st3 : St := selectByType st.sel (unselectAll st2) meshesExport with hst3
    have h3nid : st3.nextId = st2.nextId := by
      rw [hst3, (selectByType_components _ _ _).2.1]
      exact rfl
    have h3dirs : st3.dirs = st2.dirs := by
      rw [hst3, (selectByType_components _ _ _).2.2.1]
      exact rfl
    have h3evs : st3.evs = st2.evs := by
      rw [hst3, (selectByType_components _ _ _).2.2.2]
      exact rfl
    have h3pres : ∀ j, lookupObj st3 j = lookupObj st2 j := by
      intro j
      rw [hst3]
      unfold lookupObj
      rw [(selectByType_components _ _ _).1]
      exact rfl
    have h3wf : WFSt st3 := by
      rw [hst3]
      exact WFSt_selectByType _ _ _ (WFSt_unselectAll st2 h2wf)
    set st4 : St := (if st3.sel.length > 0 then
        (true, ExportModel st3 path (name ++ ".meshes"))
      else (false, st3)).2 with hst4
    have h4nid : st4.nextId = st3.nextId := by
      rw [hst4]; split <;> rfl
    have h4dirs : st4.dirs = st3.dirs := by
      rw [hst4]; split <;> rfl
    have h4evsE : ∃ E, st4.evs = st3.evs ++ E ∧
        ∀ e ∈ E, ∃ q, e = Ev.exportFile q := by
      rw [hst4]; split
      · exact ⟨[Ev.exportFile (joinPath path (name ++ ".meshes"))], rfl,
          fun e he => ⟨joinPath path (name ++ ".meshes"),
            List.mem_singleton.mp he⟩⟩
      · exact ⟨[], by simp, fun e he => absurd he (List.not_mem_nil e)⟩
    obtain ⟨E4, h4evs, h4evsF⟩ := h4evsE
    have h4pres : ∀ j, lookupObj st4 j = lookupObj st3 j := by
      intro j
      rw [hst4]; split <;> rfl
    have h4wf : WFSt st4 := by
      rw [hst4]; split
      · exact WFSt_emit _ _ h3wf
      · exact h3wf
    set st5 : St := selectByType st.sel (unselectAll st4) detailExport with hst5
    have h5nid : st5.nextId = st4.nextId := by
      rw [hst5, (selectByType_components _ _ _).2.1]
      exact rfl
    have h5dirs : st5.dirs = st4.dirs := by
      rw [hst5, (selectByType_components _ _ _).2.2.1]
      exact rfl
    have h5evs : st5.evs = st4.evs := by
      rw [hst5, (selectByType_components _ _ _).2.2.2]
      exact rfl
    have h5pres : ∀ j, lookupObj st5 j = lookupObj st4 j := by
      intro j
      rw [hst5]
      unfold lookupObj
      rw [(selectByType_components _ _ _).1]
      exact rfl
    have h5wf : WFSt st5 := by
      rw [hst5]
      exact WFSt_selectByType _ _ _ (WFSt_unselectAll st4 h4wf)
    set st6 : St := (if st5.sel.length > 0 then
        (true, ExportModel (ExportModel (ExportModel st5 path (name ++ ".meshes0"))
          path (name ++ ".meshes1")) path (name ++ ".meshes2"))
      else (false, st5)).2 with hst6
    have h6nid : st6.nextId = st5.nextId := by
      rw [hst6]; split <;> rfl
    have h6dirs : st6.dirs = st5.dirs := by
      rw [hst6]; split <;> rfl
    have h6evsE : ∃ E, st6.evs = st5.evs ++ E ∧
        ∀ e ∈ E, ∃ q, e = Ev.exportFile q := by
      rw [hst6]; split
      · refine ⟨[Ev.exportFile (joinPath path (name ++ ".meshes0")),
          Ev.exportFile (joinPath path (name ++ ".meshes1")),
          Ev.exportFile (joinPath path (name ++ ".meshes2"))], ?_, ?_⟩
        · show ((st5.evs ++ [Ev.exportFile (joinPath path (name ++ ".meshes0"))]) ++
            [Ev.exportFile (joinPath path (name ++ ".meshes1"))]) ++
            [Ev.exportFile (joinPath path (name ++ ".meshes2"))] = _
          simp
        · intro e he
          rcases List.mem_cons.mp he with rfl | he
          · exact ⟨_, rfl⟩
          rcases List.mem_cons.mp he with rfl | he
          · exact ⟨_, rfl⟩
          rcases List.mem_cons.mp he with rfl | he
          · exact ⟨_, rfl⟩
          exact absurd he (List.not_mem_nil e)
      · exact ⟨[], by simp, fun e he => absurd he (List.not_mem_nil e)⟩
    obtain ⟨E6, h6evs, h6evsF⟩ := h6evsE
    have h6pres : ∀ j, lookupObj st6 j = lookupObj st5 j := by
      intro j
      rw [hst6]; split <;> rfl
    have h6wf : WFSt st6 := by
      rw [hst6]; split
      · exact WFSt_emit _ _ (WFSt_emit _ _ (WFSt_emit _ _ h5wf))
      · exact h5wf
    have hmono6 : st.nextId ≤ st6.nextId := by
      rw [h6nid, h5nid, h4nid, h3nid, h2nid]
      exact l1'
    rcases hbl : blocksLoop (ExportSelectedF D fuel scale) D scale path st.sel
        (unselectAll st6) [] with _ | pr2
    · rw [hbl] at h
      exact absurd h (by simp)
    obtain ⟨ph2, st7⟩ := pr2
    rw [hbl] at h
    simp only [Option.some_bind] at h
    obtain ⟨b1, b2, b3, b4, b5, b6, _, b8, b9⟩ :=
      blocksLoop_frame (ExportSelectedF D fuel scale) D scale path
        (fun pa na stq bb stq' hq hw => ih scale pa na stq bb stq' hq hw)
        st.sel (unselectAll st6) [] ph2 st7 hbl
        (WFSt_unselectAll st6 h6wf) rfl
        ⟨List.nodup_nil, fun x hx => absurd hx (List.not_mem_nil x)⟩
    have b1' : st6.nextId ≤ st7.nextId := b1
    have hph2low : ∀ x ∈ ph2, st.nextId ≤ x := by
      intro x hx
      rcases b8 x hx with hm | hm
      · exact absurd hm (List.not_mem_nil x)
      · have hm' : st6.nextId ≤ x := hm
        omega
    set st8 : St := (if ph2.length > 0 then
        (true, deleteObjs (ExportModel (selectObjs st7 ph2) path
          (name ++ ".places")) ph2)
      else (false, st7)).2 with hst8
    have h8nid : st8.nextId = st7.nextId := by
      rw [hst8]; split
      · show (deleteObjs (ExportModel (selectObjs st7 ph2) path
          (name ++ ".places")) ph2).nextId = st7.nextId
        rw [(deleteObjs_components _ _).1]
        show (selectObjs st7 ph2).nextId = st7.nextId
        rw [selectObjs_nextId]
      · rfl
    have h8dirs : st8.dirs = st7.dirs := by
      rw [hst8]; split
      · show (selectObjs st7 ph2).dirs = st7.dirs
        rw [selectObjs_dirs]
      · rfl
    have h8evsE : ∃ E, st8.evs = st7.evs ++ E ∧
        ∀ e ∈ E, ∃ q, e = Ev.exportFile q := by
      rw [hst8]; split
      · refine ⟨[Ev.exportFile (joinPath path (name ++ ".places"))], ?_,
          fun e he => ⟨joinPath path (name ++ ".places"),
            List.mem_singleton.mp he⟩⟩
        show (selectObjs st7 ph2).evs ++
          [Ev.exportFile (joinPath path (name ++ ".places"))] = _
        rw [selectObjs_evs]
      · exact ⟨[], by simp, fun e he => absurd he (List.not_mem_nil e)⟩
    obtain ⟨E8, h8evs, h8evsF⟩ := h8evsE
    have h8pres : ∀ j, j < st.nextId → lookupObj st8 j = lookupObj st7 j := by
      intro j hj
      rw [hst8]; split
      · show lookupObj (deleteObjs (ExportModel (selectObjs st7 ph2) path
          (name ++ ".places")) ph2) j = _
        have hnot : j ∉ ph2 := by
          intro hjp
          have := hph2low j hjp
          omega
        rw [deleteObjs_lookup, if_neg hnot]
        show lookupObj (selectObjs st7 ph2) j = _
        rw [lookupObj_selectObjs]
      · rfl
    have h8wf : WFSt st8 := by
      rw [hst8]; split
      · exact WFSt_deleteObjs _ _ (WFSt_emit _ _ (WFSt_selectObjs ph2 st7 b5))
      · exact b5
    have h8sel : st8.sel = [] := by
      rw [hst8]; split
      · show ((selectObjs st7 ph2).sel.filter (fun i => i ∉ ph2)) = []
        apply List.filter_eq_nil_iff.mpr
        intro a ha
        rcases selectObjs_sel_subset ph2 st7 a ha with hm | hm
        · rw [b6] at hm
          exact absurd hm (List.not_mem_nil a)
        · simp [hm]
      · exact b6
    have hpresAll : ∀ j, j < st.nextId → lookupObj st8 j = lookupObj st j := by
      intro j hj
      rw [h8pres j hj, b2 j (by show j < st6.nextId; omega)]
      show lookupObj st6 j = _
      rw [h6pres j, h5pres j, h4pres j, h3pres j]
      show lookupObj st2 j = _
      rw [h2pres j hj, l2 j (by show j < st.nextId; exact hj)]
      rfl
    have halive8 : ∀ i ∈ st.sel, isAlive st8 i = true := by
      intro i hi
      have hala : isAlive st i = true := hwf.2.2.2 i hi
      have hlt : i < st.nextId := alive_lt_nextId st hwf.2.1 i hala
      unfold isAlive
      rw [hpresAll i hlt]
      exact hala
    have hh := Option.some.inj h
    have hst'def : st' = selectObjs st8 st.sel := (congrArg Prod.snd hh).symm
    subst hst'def
    have hev1 : st1.evs = st.evs := by rw [l4]; exact rfl
    have hev6 : st6.evs = st.evs ++ (E2 ++ E4 ++ E6) := by
      rw [h6evs, h5evs, h4evs, h3evs, h2evs, hev1]
      simp
    refine ⟨?_, ?_, ?_, ?_, ?_, ?_, ?_, ?_⟩
    · rw [selectObjs_nextId, h8nid]
      omega
    · intro j hj
      rw [lookupObj_selectObjs]
      exact hpresAll j hj
    · intro q hq
      rw [selectObjs_dirs, h8dirs]
      apply b3
      show q ∈ st6.dirs
      rw [h6dirs, h5dirs, h4dirs, h3dirs, h2dirs, l3]
      exact hq
    · obtain ⟨Eb0, hevb0⟩ := b4
      refine ⟨(E2 ++ E4 ++ E6) ++ Eb0 ++ E8, ?_⟩
      rw [selectObjs_evs, h8evs,
        show st7.evs = st6.evs ++ Eb0 from hevb0, hev6]
      simp
    · exact WFSt_selectObjs st.sel st8 h8wf
    · rw [selectObjs_sel_eq st.sel st8 hwf.2.2.1 halive8
        (fun i _ => by rw [h8sel]; exact List.not_mem_nil i), h8sel]
      rfl
    · rintro ⟨i, hi, hbit⟩
      have hbeq := congrArg Prod.fst hh
      dsimp only at hbeq
      have hala : isAlive st i = true := hwf.2.2.2 i hi
      have hlt : i < st.nextId := alive_lt_nextId st hwf.2.1 i hala
      have hsplit : (objType st i &&& lightsExport) ≠ 0 ∨
          (objType st i &&& meshesExport) ≠ 0 ∨
          (objType st i &&& detailExport) ≠ 0 := by
        by_contra hcon
        push_neg at hcon
        obtain ⟨hL, hM, hD⟩ := hcon
        apply hbit
        show objType st i &&& (lightsExport ||| meshesExport ||| detailExport) = 0
        rw [Nat.and_or_distrib_left, Nat.and_or_distrib_left, hL, hM, hD]
        decide
      have hlk2i : lookupObj (unselectAll st2) i = lookupObj st i := by
        rw [lookupObj_unselectAll]
        rw [h2pres i hlt]
        rw [l2 i hlt]
        rw [lookupObj_unselectAll]
      have hlk4i : lookupObj (unselectAll st4) i = lookupObj st i := by
        rw [lookupObj_unselectAll, h4pres i, h3pres i, h2pres i hlt, l2 i hlt,
          lookupObj_unselectAll]
      rcases hsplit with hbitc | hbitc | hbitc
      · have hmem1 : i ∈ st1.sel := l7 i hi hbitc
        have hpos : st1.sel.length > 0 :=
          List.length_pos.mpr (List.ne_nil_of_mem hmem1)
        rw [if_pos hpos] at hbeq
        rw [← hbeq]
        simp
      · have hmem3 : i ∈ st3.sel := by
          rw [hst3]
          apply mem_selectByType_sel st.sel (unselectAll st2) meshesExport i hi
          show objType (unselectAll st2) i &&& meshesExport ≠ 0
          unfold objType
          rw [hlk2i]
          exact hbitc
        have hpos : st3.sel.length > 0 :=
          List.length_pos.mpr (List.ne_nil_of_mem hmem3)
        rw [if_pos hpos] at hbeq
        rw [← hbeq]
        simp
      · have hmem5 : i ∈ st5.sel := by
          rw [hst5]
          apply mem_selectByType_sel st.sel (unselectAll st4) detailExport i hi
          show objType (unselectAll st4) i &&& detailExport ≠ 0
          unfold objType
          rw [hlk4i]
          exact hbitc
        have hpos : st5.sel.length > 0 :=
          List.length_pos.mpr (List.ne_nil_of_mem hmem5)
        rw [if_pos hpos] at hbeq
        rw [← hbeq]
        simp
    · intro d hgood
      obtain ⟨Eb, hevb, hsegb⟩ := b9 d hgood
      have hpreF : ∀ e ∈ E2 ++ E4 ++ E6, ∃ q, e = Ev.exportFile q := by
        intro e he
        rcases List.mem_append.mp he with hm | hm
        · rcases List.mem_append.mp hm with hm2 | hm2
          · exact h2evsF e hm2
          · exact h4evsF e hm2
        · exact h6evsF e hm
      have hseg0 : SegInv d scale path st.dirs st.dirs (E2 ++ E4 ++ E6) :=
        SegInv_exportFiles d scale path st.dirs _ hpreF
      have hdirs6 : st6.dirs = st.dirs := by
        rw [h6dirs, h5dirs, h4dirs, h3dirs, h2dirs, l3]
        exact rfl
      have hsegb' : SegInv d scale path st.dirs st7.dirs Eb := by
        rw [show (unselectAll st6).dirs = st.dirs from hdirs6] at hsegb
        exact hsegb
      have hseg8 : SegInv d scale path st7.dirs st7.dirs E8 :=
        SegInv_exportFiles d scale path st7.dirs _ h8evsF
      refine ⟨(E2 ++ E4 ++ E6) ++ Eb ++ E8, ?_, ?_⟩
      · rw [selectObjs_evs, h8evs,
          show st7.evs = st6.evs ++ Eb from hevb, hev6]
        simp
      · rw [show (selectObjs st8 st.sel).dirs = st7.dirs from by
          rw [selectObjs_dirs, h8dirs]]
        exact SegInv_comp d scale path st.dirs st7.dirs st7.dirs _ _
          (SegInv_comp d scale path st.dirs st.dirs st7.dirs _ _ hseg0 hsegb')
          hseg8

/-- Claim C8: after a completed `ExportSelected` run, the scene selection
equals the selection that held immediately before the call, for any
well-formed starting state and any starting selection. -/
theorem ExportSelected_restores_selection (D : Defs) (fuel : Nat) (scale : ℚ)
    (path name : String) (st : St) (b : Bool) (st' : St)
    (h : ExportSelectedF D fuel scale path name st = some (b, st'))
    (hwf : WFSt st) : st'.sel = st.sel :=
  (ExportSelectedF_frame D fuel scale path name st b st' h hwf).2.2.2.2.2.1

/-- Witness for claim C8: a concrete run on a one-mesh scene completes and
keeps the selection `[0]`. -/
theorem ExportSelected_restores_selection_witness :
    ∃ b st', ExportSelectedF [] 1 1 ("root") ("model") c8St = some (b, st') ∧
      st'.sel = c8St.sel := by
  have hs : (ExportSelectedF [] 1 1 ("root") ("model") c8St).isSome = true := rfl
  obtain ⟨⟨b, st'⟩, hres⟩ := Option.isSome_iff_exists.mp hs
  exact ⟨b, st', hres,
    ExportSelected_restores_selection [] 1 1 ("root") ("model") c8St b st' hres
      ⟨by decide, by decide, by decide, by decide⟩⟩

/-- Claim C1 (amended): for a block definition that exports something of
its own (`goodDef`), a completed `ExportSelected` run starting with a
clean trace, no pre-existing directory for the definition, and
sanitization injective on the processed block names, creates the
definition's sub-directory at most once and runs the recursive block
export at most once — exactly once as soon as any instance of the
definition is processed — and the placeholders for the definition match
its processed instances one-to-one, each carrying that instance's own
transform. -/
theorem ExportSelected_block_dedup (D : Defs) (d : String) (fuel : Nat)
    (scale : ℚ) (path name : String) (st : St) (b : Bool) (st' : St)
    (h : ExportSelectedF D fuel scale path name st = some (b, st'))
    (hwf : WFSt st) (hgood : goodDef D d)
    (hdir : joinPath path (SafeObjectName (some d)) ∉ st.dirs)
    (hevs : st.evs = [])
    (hinj : SafeInjOn d st'.evs) :
    (placesFor d st'.evs).Perm
      ((instSeenFor d st'.evs).map (fun x => (x, BlockLocationMesh x scale))) ∧
    countMkdirOk (joinPath path (SafeObjectName (some d))) st'.evs ≤ 1 ∧
    countBlockExport d st'.evs ≤ 1 ∧
    (instSeenFor d st'.evs ≠ [] →
      countMkdirOk (joinPath path (SafeObjectName (some d))) st'.evs = 1 ∧
      countBlockExport d st'.evs = 1) := by
  obtain ⟨E, hE, hseg⟩ :=
    (ExportSelectedF_frame D fuel scale path name st b st' h hwf).2.2.2.2.2.2.2
      d hgood
  have hevE : st'.evs = E := by
    rw [hE, hevs]
    exact rfl
  rw [hevE] at hinj ⊢
  obtain ⟨hp, hm, hn⟩ := hseg hinj
  rcases hn hdir with ⟨_, c1, b1, ne1⟩ | ⟨_, c0, b0, e0⟩
  · exact ⟨hp, by omega, by omega, fun _ => ⟨c1, b1⟩⟩
  · exact ⟨hp, by omega, by omega, fun hne => absurd e0 hne⟩

/-- Witness for the amended C1 theorem: a completed run on the empty
scene with a good definition `B` satisfies all hypotheses; no instance
is processed, so no directory and no recursive export happen. -/
theorem ExportSelected_block_dedup_witness :
    ExportSelectedF c1GoodD 1 1 ("root") ("model") c1EmptySt =
      some (false, c1EmptySt) ∧
    countMkdirOk (joinPath ("root") (SafeObjectName (some ("B"))))
      c1EmptySt.evs ≤ 1 ∧
    countBlockExport ("B") c1EmptySt.evs ≤ 1 := by
  have hrun : ExportSelectedF c1GoodD 1 1 ("root") ("model") c1EmptySt =
      some (false, c1EmptySt) := rfl
  have hres := ExportSelected_block_dedup c1GoodD ("B") 1 1 ("root") ("model")
    c1EmptySt false c1EmptySt hrun
    ⟨by decide, by decide, by decide, by decide⟩
    ⟨[namedMeshObj (some ("x"))], rfl, namedMeshObj (some ("x")),
      List.mem_singleton.mpr rfl, by decide⟩
    (by decide)
    rfl
    (fun bq hbq _ => absurd hbq (List.not_mem_nil bq))
  exact ⟨hrun, hres.2.1, hres.2.2.1⟩

/-- Counterexample to claim C1 as stated: a block definition whose
constituents match no export pass is re-export-attempted for every
instance.  With two instances of such a block `E`, the run creates the
sub-directory `root/E` twice, runs the recursive block export twice, and
produces no placeholder at all. -/
theorem blocks_reexported_for_empty_definition :
    (ExportSelectedF c1D 2 1 ("root") ("model") c1St).map
      (fun r => (countMkdirOk ("root/E") r.2.evs,
        countBlockExport ("E") r.2.evs,
        (placesFor ("E") r.2.evs).length)) = some (2, 2, 0) := by
  decide

end RePort
